import Mathlib

/-!
# Verification of the taskai core

A shallow embedding of the taskai task tracker's core (cycle detection,
dependency evaluation, status transitions, cascade unblock, claim coordination
and the store-level repository operations), together with proofs of the
properties its design document states.

Conventions of the embedding:
* SQL rows become Lean structures; a table becomes a `List` kept in insertion
  order (SQLite rowid order for these tables).
* machine integers of the source (`i32`, `i64`) are embedded as `Int`;
  no arithmetic in the embedded fragment can overflow an `i64`.
* `datetime('now')` values are opaque strings supplied by the caller as a
  `now` parameter; ULID generation is likewise supplied by the caller.
* fallible operations return `Except TaskaiError`; the recursive DFS carries
  explicit fuel (`Option` result), and its totality is proved.
* each command handler also returns the list of SQL statements it executed,
  with `BEGIN IMMEDIATE` / `COMMIT` / `ROLLBACK` markers, so transaction
  boundaries of the source are part of the model.
-/

namespace Taskai

/-! ## Task status (src/models/task.rs) -/

inductive TaskStatus
  | blocked | ready | in_progress | done | cancelled | skipped
deriving DecidableEq, Repr

def TaskStatus.as_str : TaskStatus → String
  | .blocked => "blocked"
  | .ready => "ready"
  | .in_progress => "in_progress"
  | .done => "done"
  | .cancelled => "cancelled"
  | .skipped => "skipped"

def TaskStatus.is_terminal : TaskStatus → Bool
  | .done | .cancelled | .skipped => true
  | _ => false

/-! ## Errors (src/error.rs) -/

inductive ErrorCode
  | NotInitialized | NoActivePlan | PlanNotFound | TaskNotFound | AmbiguousRef
  | TaskBlocked | CycleDetected | InvalidStatusTransition | CrossPlanDependency
  | PlanNameConflict | ValidationError | DatabaseError
deriving DecidableEq, Repr

structure TaskaiError where
  code : ErrorCode
  message : String
deriving DecidableEq, Repr

deriving instance DecidableEq for Except

def TaskaiError.task_not_found (reference : String) : TaskaiError :=
  ⟨.TaskNotFound, "Task not found: " ++ reference⟩

def TaskaiError.ambiguous_ref (reference : String) (candidates : List String) : TaskaiError :=
  ⟨.AmbiguousRef, "Ambiguous reference '" ++ reference ++ "'. Candidates: "
    ++ String.intercalate ", " candidates⟩

def TaskaiError.cycle_detected : TaskaiError :=
  ⟨.CycleDetected, "Dependency cycle detected"⟩

def TaskaiError.invalid_transition (fromSt toAct : String) : TaskaiError :=
  ⟨.InvalidStatusTransition, "Invalid status transition: " ++ fromSt ++ " → " ++ toAct⟩

def TaskaiError.cross_plan_dependency : TaskaiError :=
  ⟨.CrossPlanDependency, "Dependencies across different plans are not allowed"⟩

def TaskaiError.validation (message : String) : TaskaiError :=
  ⟨.ValidationError, message⟩

def TaskaiError.database (message : String) : TaskaiError :=
  ⟨.DatabaseError, message⟩

/-! ## Transition table (src/cli/task.rs, `validate_transition`) -/

def validate_transition (current : TaskStatus) (action : String) :
    Except TaskaiError TaskStatus :=
  match current, action with
  | .ready, "start" => .ok .in_progress
  | .ready, "done" => .ok .done
  | .in_progress, "done" => .ok .done
  | .in_progress, "fail" => .ok .ready
  | .ready, "skip" | .blocked, "skip" => .ok .skipped
  | .ready, "cancel" | .blocked, "cancel" | .in_progress, "cancel" => .ok .cancelled
  | c, a => .error (TaskaiError.invalid_transition c.as_str a)

/-! ## Cycle detector (src/graph/cycle.rs)

`detect_cycle(nodes, edges)` builds an adjacency map whose keys are all nodes
plus all edge sources, then runs a 3-color DFS from every white key.  The
recursion is embedded with explicit fuel; `detect_cycle_run` supplies fuel
`|universe| + 1`, which the totality theorem shows is never exhausted. -/

abbrev Edges := List (String × String)

/-- Adjacency lookup: the dependency ids pushed for key `n`, in edge order
(`adj.entry(task_id).or_default().push(dep_id)`); a string that is not a key
has no outgoing edges, which this lookup also returns correctly. -/
def succs (edges : Edges) (n : String) : List String :=
  (edges.filter (fun e => e.1 == n)).map Prod.snd

/-- 3-color map: 0 = white (unvisited), 1 = gray (in progress), 2 = black (finished). -/
abbrev ColorMap := String → Nat

def cset (c : ColorMap) (n : String) (v : Nat) : ColorMap :=
  fun x => if x = n then v else c x

mutual

/-- `has_cycle_dfs`, fueled: color the node gray, scan its neighbors, then color it
black and report no cycle. -/
def visit (edges : Edges) (fuel : Nat) (node : String) (c : ColorMap) :
    Option (Bool × ColorMap) :=
  match fuel with
  | 0 => none
  | fuel' + 1 =>
    match visitList edges fuel' (succs edges node) (cset c node 1) with
    | none => none
    | some (true, c2) => some (true, c2)
    | some (false, c2) => some (false, cset c2 node 2)
termination_by (fuel, 0)

/-- The neighbor loop of `has_cycle_dfs`: a gray neighbor is a back edge (cycle), a
white neighbor is visited recursively, a black neighbor is skipped. -/
def visitList (edges : Edges) (fuel : Nat) (ns : List String) (c : ColorMap) :
    Option (Bool × ColorMap) :=
  match ns with
  | [] => some (false, c)
  | n :: rest =>
    if c n = 1 then some (true, c)
    else if c n = 0 then
      match visit edges fuel n c with
      | none => none
      | some (true, c2) => some (true, c2)
      | some (false, c2) => visitList edges fuel rest c2
    else visitList edges fuel rest c
termination_by (fuel, ns.length + 1)

end

/-- The outer loop of `detect_cycle`: start a DFS at every still-white key. -/
def detectLoop (edges : Edges) (fuel : Nat) (ks : List String) (c : ColorMap) :
    Option (Bool × ColorMap) :=
  match ks with
  | [] => some (false, c)
  | k :: rest =>
    if c k = 0 then
      match visit edges fuel k c with
      | none => none
      | some (true, c2) => some (true, c2)
      | some (false, c2) => detectLoop edges fuel rest c2
    else detectLoop edges fuel rest c

/-- The adjacency-map key set: all nodes plus all edge sources (iteration order of
the source's hash map is unspecified; the detector's verdict is proved
order-independent, so one concrete order is fixed here). -/
def graphKeys (nodes : List String) (edges : Edges) : List String :=
  (nodes ++ edges.map Prod.fst).dedup

/-- Every string the traversal can ever touch. -/
def graphUniv (nodes : List String) (edges : Edges) : List String :=
  (nodes ++ edges.map Prod.fst ++ edges.map Prod.snd).dedup

def detect_cycle_run (nodes : List String) (edges : Edges) : Option (Bool × ColorMap) :=
  detectLoop edges ((graphUniv nodes edges).length + 1) (graphKeys nodes edges) (fun _ => 0)

/-- `detect_cycle(nodes, edges) -> Result<(), TaskaiError>`; `none` is fuel
exhaustion, proved unreachable. -/
def detect_cycle (nodes : List String) (edges : Edges) : Option (Except TaskaiError Unit) :=
  match detect_cycle_run nodes edges with
  | none => none
  | some (true, _) => some (.error TaskaiError.cycle_detected)
  | some (false, _) => some (.ok ())

/-- `would_create_cycle`: evaluate the hypothetical graph with one more edge. -/
def would_create_cycle (nodes : List String) (existing_edges : Edges)
    (new_task_id new_dep_id : String) : Option (Except TaskaiError Unit) :=
  detect_cycle nodes (existing_edges ++ [(new_task_id, new_dep_id)])

/-- An edge of the dependency graph: `(task, dep)` read as arrow task → dep. -/
def EdgeIn (edges : Edges) (a b : String) : Prop := (a, b) ∈ edges

/-- The graph walked by `detect_cycle` has a directed cycle: some node has a
nonempty path back to itself. -/
def HasCycle (edges : Edges) : Prop := ∃ a, Relation.TransGen (EdgeIn edges) a a

/-- A coloring with no junk values: every color is white, gray or black. -/
def Good (c : ColorMap) : Prop := ∀ x, c x ≤ 2

/-- What a cycle-free sub-run of the DFS preserves about the coloring. -/
structure FalseStep (c c' : ColorMap) : Prop where
  grayIff : ∀ x, c' x = 1 ↔ c x = 1
  blackMono : ∀ x, c x = 2 → c' x = 2
  whiteShrink : ∀ x, c' x = 0 → c x = 0
  good : Good c → Good c'

/-- Invariant of the completeness direction: no black node lies on a directed cycle. -/
def NoCyc (edges : Edges) (c : ColorMap) : Prop :=
  ∀ x, c x = 2 → ¬ Relation.TransGen (EdgeIn edges) x x

/-- Number of white nodes inside the traversal universe. -/
def wcount (U : List String) (c : ColorMap) : Nat :=
  U.countP (fun x => c x == 0)

/-! ## Data model (src/models/task.rs, src/db/migrations.rs) -/

structure Task where
  id : String
  plan_id : String
  title : String
  description : Option String
  status : TaskStatus
  priority : Int
  sort_order : Int
  agent : Option String
  assigned_to : Option String
  created_at : String
  updated_at : String
  started_at : Option String
  completed_at : Option String
deriving DecidableEq, Repr

/-- The stored state relevant to the core: the `tasks` table and the
`task_dependencies` table, each kept in insertion (rowid) order.  Plans,
documents and the active-plan config carry no dependency semantics (spec §1
excludes them) and are not part of the modeled state; the owning plan enters
only through each task's `plan_id` column. -/
structure DB where
  tasks : List Task
  deps : List (String × String)
deriving DecidableEq, Repr

/-- Statements a command handler executes against the store, with transaction
markers, so that transaction boundaries are part of the model.  Read-only
statements are not recorded.  On a rolled-back transaction the statements that
ran before the failure are elided from the trace (their effects were undone). -/
inductive Stmt
  | txBegin
  | txCommit
  | txRollback
  | sqlInsertTask (id : String)
  | sqlInsertDep (task_id dependency_id : String)
  | sqlDeleteDep (task_id dependency_id : String)
  | sqlUpdateTask (id : String)
deriving DecidableEq, Repr

def Stmt.isWrite : Stmt → Bool
  | .txBegin | .txCommit | .txRollback => false
  | _ => true

/-- Number of write statements executed outside any open transaction
(SQLite autocommits each of them individually). -/
def writesOutsideTx : List Stmt → Nat → Nat
  | [], _ => 0
  | s :: rest, depth =>
    match s with
    | .txBegin => writesOutsideTx rest (depth + 1)
    | .txCommit | .txRollback => writesOutsideTx rest (depth - 1)
    | _ => (if depth = 0 then 1 else 0) + writesOutsideTx rest depth

def txBeginCount (tr : List Stmt) : Nat :=
  tr.countP (fun s => s == Stmt.txBegin)

/-! ## Task repository (src/db/task_repo.rs) -/

def findTask (db : DB) (id : String) : Option Task :=
  db.tasks.find? (fun t => t.id == id)

def get_task_by_id (db : DB) (id : String) : Except TaskaiError Task :=
  match findTask db id with
  | some t => .ok t
  | none => .error (TaskaiError.task_not_found id)

/-- `resolve_task`: exact id match restricted to the plan first, then id
pattern match (`id LIKE 'reference%'`) within the plan. -/
def resolve_task (db : DB) (plan_id reference : String) : Except TaskaiError Task :=
  let exact : Option Task :=
    match findTask db reference with
    | some t => if t.plan_id = plan_id then some t else none
    | none => none
  match exact with
  | some t => .ok t
  | none =>
    let matched := db.tasks.filter
      (fun t => t.plan_id == plan_id && t.id.startsWith reference)
    match matched with
    | [] => .error (TaskaiError.task_not_found reference)
    | [t] => .ok t
    | _ => .error (TaskaiError.ambiguous_ref reference
        (matched.map (fun t => t.title ++ " (" ++ t.id ++ ")")))

def list_tasks_by_plan (db : DB) (plan_id : String) : List Task :=
  (db.tasks.filter (fun t => t.plan_id == plan_id)).mergeSort
    (fun a b => a.sort_order ≤ b.sort_order)

/-- The row change of `update_task_status`: set the status, stamp `started_at` on
entering in_progress and `completed_at` on entering done, keep a previously
recorded `assigned_to` unless a new one is supplied, touch `updated_at`. -/
def setStatusRow (status : TaskStatus) (assigned_to : Option String) (now : String)
    (t : Task) : Task :=
  { t with
    status := status
    started_at := if status = TaskStatus.in_progress then some now else t.started_at
    completed_at := if status = TaskStatus.done then some now else t.completed_at
    assigned_to := match assigned_to with
      | some a => some a
      | none => t.assigned_to
    updated_at := now }

/-- `UPDATE tasks SET status = ?, [started_at/completed_at,]
assigned_to = COALESCE(?, assigned_to), updated_at = datetime('now') WHERE id = ?`. -/
def update_task_status (db : DB) (id : String) (status : TaskStatus)
    (assigned_to : Option String) (now : String) : DB :=
  { db with
    tasks := db.tasks.map (fun t =>
      if t.id == id then setStatusRow status assigned_to now t else t) }

/-- The selection order of `ORDER BY priority DESC, sort_order ASC`: `u` sorts
strictly before `v`. -/
def BetterTask (u v : Task) : Prop :=
  u.priority > v.priority ∨ (u.priority = v.priority ∧ u.sort_order < v.sort_order)

instance (u v : Task) : Decidable (BetterTask u v) := by
  unfold BetterTask
  infer_instance

/-- One comparison step of taking the first row of the ordered result set. -/
def nextReadyStep (best : Option Task) (t : Task) : Option Task :=
  match best with
  | none => some t
  | some b => if BetterTask t b then some t else some b

/-- `SELECT ... WHERE plan_id = ? AND status = 'ready'
ORDER BY priority DESC, sort_order ASC LIMIT 1` (on full ties the table order,
which SQLite leaves unspecified, is used). -/
def next_ready_task (db : DB) (plan_id : String) : Option Task :=
  (db.tasks.filter (fun t => t.plan_id == plan_id && t.status == TaskStatus.ready)).foldl
    nextReadyStep none

/-- Status-grouped counts (the float `percentage` field is display-only and omitted). -/
structure TaskProgress where
  total : Int
  blocked : Int
  ready : Int
  in_progress : Int
  done : Int
  skipped : Int
  cancelled : Int
deriving DecidableEq, Repr

def task_progress (db : DB) (plan_id : String) : TaskProgress :=
  let l := db.tasks.filter (fun t => t.plan_id == plan_id)
  { total := (l.length : Int)
    blocked := ((l.filter (fun t => t.status == TaskStatus.blocked)).length : Int)
    ready := ((l.filter (fun t => t.status == TaskStatus.ready)).length : Int)
    in_progress := ((l.filter (fun t => t.status == TaskStatus.in_progress)).length : Int)
    done := ((l.filter (fun t => t.status == TaskStatus.done)).length : Int)
    skipped := ((l.filter (fun t => t.status == TaskStatus.skipped)).length : Int)
    cancelled := ((l.filter (fun t => t.status == TaskStatus.cancelled)).length : Int) }

/-- `INSERT INTO tasks ...`; duplicate primary key is a store failure. -/
def create_task (db : DB) (id plan_id title : String) (description : Option String)
    (priority sort_order : Int) (status : TaskStatus) (agent : Option String)
    (now : String) : Except TaskaiError DB :=
  if (findTask db id).isSome then
    .error (TaskaiError.database "UNIQUE constraint failed: tasks.id")
  else
    .ok { db with
      tasks := db.tasks ++ [{
        id := id
        plan_id := plan_id
        title := title
        description := description
        status := status
        priority := priority
        sort_order := sort_order
        agent := agent
        assigned_to := none
        created_at := now
        updated_at := now
        started_at := none
        completed_at := none }] }

/-! ## Dependency repository (src/db/dependency_repo.rs) -/

/-- `INSERT OR IGNORE INTO task_dependencies (task_id, dependency_id) VALUES (?, ?)`:
a row violating the `CHECK (task_id != dependency_id)` or the primary key
`(task_id, dependency_id)` is silently skipped; a row violating a foreign key
(`PRAGMA foreign_keys=ON`) is a store failure. -/
def add_dependency (db : DB) (task_id dependency_id : String) :
    Except TaskaiError DB :=
  if task_id = dependency_id then .ok db
  else if (task_id, dependency_id) ∈ db.deps then .ok db
  else if (findTask db task_id).isSome ∧ (findTask db dependency_id).isSome then
    .ok { db with deps := db.deps ++ [(task_id, dependency_id)] }
  else .error (TaskaiError.database "FOREIGN KEY constraint failed")

def remove_dependency (db : DB) (task_id dependency_id : String) : DB :=
  { db with deps := db.deps.filter (fun e => !(e.1 == task_id && e.2 == dependency_id)) }

def get_dependencies (db : DB) (task_id : String) : List String :=
  (db.deps.filter (fun e => e.1 == task_id)).map Prod.snd

def get_dependents (db : DB) (dependency_id : String) : List String :=
  (db.deps.filter (fun e => e.2 == dependency_id)).map Prod.fst

/-- Edges of one plan: `task_dependencies JOIN tasks ON task_id = tasks.id
WHERE tasks.plan_id = ?`. -/
def get_all_dependencies_for_plan (db : DB) (plan_id : String) : Edges :=
  db.deps.filter (fun e =>
    match findTask db e.1 with
    | some t => t.plan_id == plan_id
    | none => false)

/-- `SELECT COUNT(*) FROM task_dependencies JOIN tasks ON dependency_id = tasks.id
WHERE task_id = ? AND tasks.status != 'done'` compared with zero. -/
def all_dependencies_done (db : DB) (task_id : String) : Bool :=
  (db.deps.filter (fun e =>
    e.1 == task_id &&
      (match findTask db e.2 with
       | some t => t.status != TaskStatus.done
       | none => false))).length == 0

/-! ## Graph operations (src/graph/next_tasks.rs) -/

/-- Loop body of `cascade_unblock` over the dependent list (computed once from the
state at entry): each currently blocked dependent with all dependencies done is
promoted to ready and re-fetched. -/
def cascade_go (now : String) : DB → List String → Except TaskaiError (List Task × DB × List Stmt)
  | db, [] => .ok ([], db, [])
  | db, dependent_id :: rest =>
    match get_task_by_id db dependent_id with
    | .error e => .error e
    | .ok task =>
      if task.status ≠ TaskStatus.blocked then
        cascade_go now db rest
      else if all_dependencies_done db dependent_id then
        match get_task_by_id (update_task_status db dependent_id TaskStatus.ready none now)
            dependent_id with
        | .error e => .error e
        | .ok updated =>
          match cascade_go now (update_task_status db dependent_id TaskStatus.ready none now)
              rest with
          | .error e => .error e
          | .ok (l, db2, tr) => .ok (updated :: l, db2, Stmt.sqlUpdateTask dependent_id :: tr)
      else
        cascade_go now db rest

/-- `cascade_unblock(conn, completed_task_id)`. -/
def cascade_unblock (db : DB) (completed_task_id : String) (now : String) :
    Except TaskaiError (List Task × DB × List Stmt) :=
  cascade_go now db (get_dependents db completed_task_id)

/-- `claim_next_task(conn, plan_id, agent)`: select the next ready task and mark it
in progress (within the caller's transaction). -/
def claim_next_task (db : DB) (plan_id : String) (agent : Option String) (now : String) :
    Except TaskaiError (Option Task × DB × List Stmt) :=
  match next_ready_task db plan_id with
  | some task =>
    match get_task_by_id (update_task_status db task.id TaskStatus.in_progress agent now)
        task.id with
    | .error e => .error e
    | .ok updated =>
      .ok (some updated, update_task_status db task.id TaskStatus.in_progress agent now,
        [Stmt.sqlUpdateTask task.id])
  | none => .ok (none, db, [])

/-! ## Total cycle check

`detect_cycle` carries fuel (`Option`); the callers below use this total wrapper,
whose default branch is unreachable by `detect_cycle_total`. -/

def detect_cycleT (nodes : List String) (edges : Edges) : Except TaskaiError Unit :=
  (detect_cycle nodes edges).getD (.error TaskaiError.cycle_detected)

def would_create_cycleT (nodes : List String) (existing_edges : Edges)
    (new_task_id new_dep_id : String) : Except TaskaiError Unit :=
  detect_cycleT nodes (existing_edges ++ [(new_task_id, new_dep_id)])

/-! ## Task commands (src/cli/task.rs)

Each handler returns its result, the state after the command, and the statement
trace.  A command whose transaction rolls back returns the entering state. -/

def resolve_deps (db : DB) (plan_id : String) : List String → Except TaskaiError (List Task)
  | [] => .ok []
  | r :: rest =>
    match resolve_task db plan_id r with
    | .error e => .error e
    | .ok t =>
      match resolve_deps db plan_id rest with
      | .error e => .error e
      | .ok ts => .ok (t :: ts)

def add_deps_go (task_id : String) : DB → List Task → Except TaskaiError (DB × List Stmt)
  | db, [] => .ok (db, [])
  | db, d :: rest =>
    match add_dependency db task_id d.id with
    | .error e => .error e
    | .ok db1 =>
      match add_deps_go task_id db1 rest with
      | .error e => .error e
      | .ok (db2, tr) => .ok (db2, Stmt.sqlInsertDep task_id d.id :: tr)

/-- `run_add`: resolve the listed dependencies, compute the next `sort_order`, then in
one transaction create the task as ready, insert its dependency edges, and demote it
to blocked when some dependency is not done.  The fresh ULID and the clock are
parameters of the embedding. -/
def run_add (db : DB) (plan_id title : String) (description : Option String)
    (priority : Int) (agent : Option String) (after : List String)
    (new_id now : String) : Except TaskaiError Task × DB × List Stmt :=
  match resolve_deps db plan_id after with
  | .error e => (.error e, db, [])
  | .ok resolved_deps =>
    let max_order : Int := (db.tasks.filter (fun t => t.plan_id == plan_id)).foldl
      (fun m t => max m t.sort_order) (-1)
    let body : Except TaskaiError (DB × List Stmt) :=
      match create_task db new_id plan_id title description priority
          (max_order + 1) TaskStatus.ready agent now with
      | .error e => .error e
      | .ok db1 =>
        match add_deps_go new_id db1 resolved_deps with
        | .error e => .error e
        | .ok (db2, tr2) =>
          if resolved_deps ≠ [] ∧ ¬ all_dependencies_done db2 new_id then
            .ok (update_task_status db2 new_id TaskStatus.blocked none now,
              Stmt.sqlInsertTask new_id :: tr2 ++ [Stmt.sqlUpdateTask new_id])
          else
            .ok (db2, Stmt.sqlInsertTask new_id :: tr2)
    match body with
    | .ok (db2, tr) =>
      (get_task_by_id db2 new_id, db2, [Stmt.txBegin] ++ tr ++ [Stmt.txCommit])
    | .error e => (.error e, db, [Stmt.txBegin, Stmt.txRollback])

/-- `run_transition`: resolve the task, validate the action against the transition
table, then in one transaction re-derive the target of `fail` from live dependency
state, update the task, and cascade when the task entered done. -/
def run_transition (db : DB) (plan_id id action : String) (agent : Option String)
    (now : String) : Except TaskaiError (Task × List Task) × DB × List Stmt :=
  match resolve_task db plan_id id with
  | .error e => (.error e, db, [])
  | .ok task =>
    match validate_transition task.status action with
    | .error e => (.error e, db, [])
    | .ok new_status =>
      let actual_status :=
        if new_status = TaskStatus.ready ∧ action = "fail" ∧
            ¬ all_dependencies_done db task.id
        then TaskStatus.blocked
        else new_status
      let db1 := update_task_status db task.id actual_status agent now
      let body : Except TaskaiError ((Task × List Task) × DB × List Stmt) :=
        match (if actual_status = TaskStatus.done then cascade_unblock db1 task.id now
            else Except.ok ([], db1, [])) with
        | .error e => .error e
        | .ok (newly_ready, db2, tr) =>
          match get_task_by_id db2 task.id with
          | .error e => .error e
          | .ok updated => .ok ((updated, newly_ready), db2, Stmt.sqlUpdateTask task.id :: tr)
      match body with
      | .ok (res, db2, tr) => (.ok res, db2, [Stmt.txBegin] ++ tr ++ [Stmt.txCommit])
      | .error e => (.error e, db, [Stmt.txBegin, Stmt.txRollback])

inductive DepCommands
  | add (id dep_id : String)
  | remove (id dep_id : String)
deriving DecidableEq, Repr

/-- `run_dep`: dependency add (same-plan check, cycle pre-check, edge insert, demote
the task to blocked if it was ready and the new dependency is not done) and
dependency remove (edge delete, promote the task to ready if it was blocked and all
remaining dependencies are done).  The source runs these statements without an
explicit transaction, and so does the embedding's trace. -/
def run_dep (db : DB) (plan_id : String) (cmd : DepCommands) (now : String) :
    Except TaskaiError Unit × DB × List Stmt :=
  match cmd with
  | .add id dep_id =>
    match resolve_task db plan_id id with
    | .error e => (.error e, db, [])
    | .ok task =>
      match resolve_task db plan_id dep_id with
      | .error e => (.error e, db, [])
      | .ok dep_task =>
        if task.plan_id ≠ dep_task.plan_id then
          (.error TaskaiError.cross_plan_dependency, db, [])
        else
          let all_tasks := list_tasks_by_plan db plan_id
          let nodes := all_tasks.map (fun t => t.id)
          let edges := get_all_dependencies_for_plan db plan_id
          match would_create_cycleT nodes edges task.id dep_task.id with
          | .error e => (.error e, db, [])
          | .ok () =>
            match add_dependency db task.id dep_task.id with
            | .error e => (.error e, db, [Stmt.sqlInsertDep task.id dep_task.id])
            | .ok db1 =>
              if task.status = TaskStatus.ready ∧ dep_task.status ≠ TaskStatus.done then
                (.ok (), update_task_status db1 task.id TaskStatus.blocked none now,
                  [Stmt.sqlInsertDep task.id dep_task.id, Stmt.sqlUpdateTask task.id])
              else
                (.ok (), db1, [Stmt.sqlInsertDep task.id dep_task.id])
  | .remove id dep_id =>
    match resolve_task db plan_id id with
    | .error e => (.error e, db, [])
    | .ok task =>
      match resolve_task db plan_id dep_id with
      | .error e => (.error e, db, [])
      | .ok dep_task =>
        let db1 := remove_dependency db task.id dep_task.id
        if task.status = TaskStatus.blocked ∧ all_dependencies_done db1 task.id then
          let remaining := get_dependencies db1 task.id
          if remaining.isEmpty ∨ all_dependencies_done db1 task.id then
            (.ok (), update_task_status db1 task.id TaskStatus.ready none now,
              [Stmt.sqlDeleteDep task.id dep_task.id, Stmt.sqlUpdateTask task.id])
          else
            (.ok (), db1, [Stmt.sqlDeleteDep task.id dep_task.id])
        else
          (.ok (), db1, [Stmt.sqlDeleteDep task.id dep_task.id])

/-! ## Next command (src/cli/next.rs) -/

/-- `run_inner`: report plan completion, otherwise claim (inside one
`BEGIN IMMEDIATE` transaction) or peek (pure read) the next ready task. -/
def run_inner (db : DB) (plan_id : String) (claim : Bool) (agent : Option String)
    (now : String) : Except TaskaiError (Option Task) × DB × List Stmt :=
  let progress := task_progress db plan_id
  let plan_completed :=
    progress.ready = 0 ∧ progress.blocked = 0 ∧ progress.in_progress = 0
  if plan_completed then (.ok none, db, [])
  else if claim then
    match claim_next_task db plan_id agent now with
    | .ok (task, db1, tr) => (.ok task, db1, [Stmt.txBegin] ++ tr ++ [Stmt.txCommit])
    | .error e => (.error e, db, [Stmt.txBegin, Stmt.txRollback])
  else
    (.ok (next_ready_task db plan_id), db, [])

/-! ## Plan bulk load (src/cli/plan.rs) -/

structure TaskInput where
  id : String
  title : String
  description : Option String
  priority : Int
  agent : Option String
  after : List String
deriving DecidableEq, Repr

/-- Bulk-load input (documents carry no dependency semantics and are omitted). -/
structure PlanLoadInput where
  name : String
  title : String
  description : Option String
  tasks : List TaskInput
deriving DecidableEq, Repr

/-- Duplicate/empty temp-id and empty-title scan of `validate_load_input`,
accumulating the ids already seen. -/
def load_check_ids : List String → List TaskInput → Except TaskaiError Unit
  | _, [] => .ok ()
  | seen, t :: rest =>
    if t.id.isEmpty then .error (TaskaiError.validation "Task id is required")
    else if t.title.isEmpty then
      .error (TaskaiError.validation ("Task '" ++ t.id ++ "' has empty title"))
    else if t.id ∈ seen then
      .error (TaskaiError.validation ("Duplicate task id: " ++ t.id))
    else load_check_ids (t.id :: seen) rest

def load_check_task_refs (ids : List String) (tid : String) :
    List String → Except TaskaiError Unit
  | [] => .ok ()
  | dep :: rest =>
    if dep = tid then
      .error (TaskaiError.validation ("Task '" ++ tid ++ "' depends on itself"))
    else if dep ∉ ids then
      .error (TaskaiError.validation
        ("Task '" ++ tid ++ "' references unknown dependency '" ++ dep ++ "'"))
    else load_check_task_refs ids tid rest

def load_check_refs (ids : List String) : List TaskInput → Except TaskaiError Unit
  | [] => .ok ()
  | t :: rest =>
    match load_check_task_refs ids t.id t.after with
    | .error e => .error e
    | .ok () => load_check_refs ids rest

def load_nodes (input : PlanLoadInput) : List String :=
  input.tasks.map (fun t => t.id)

def load_edges (input : PlanLoadInput) : Edges :=
  (input.tasks.map (fun t => t.after.map (fun dep => (t.id, dep)))).flatten

/-- `validate_load_input`: non-empty fields, duplicate temp ids, self references,
unknown references, then whole-graph cycle detection — all before any write. -/
def validate_load_input (input : PlanLoadInput) : Except TaskaiError Unit :=
  if input.name.isEmpty then .error (TaskaiError.validation "Plan name is required")
  else if input.title.isEmpty then .error (TaskaiError.validation "Plan title is required")
  else if input.tasks.isEmpty then
    .error (TaskaiError.validation "At least one task is required")
  else
    match load_check_ids [] input.tasks with
    | .error e => .error e
    | .ok () =>
      match load_check_refs (load_nodes input) input.tasks with
      | .error e => .error e
      | .ok () => detect_cycleT (load_nodes input) (load_edges input)

/-- Task-creation loop of `run_load`: `sort_order` is the enumeration index, the
initial status is ready exactly when `after` is empty, and each temp id is mapped
through the fresh-ULID assignment `gen`. -/
def load_create_go (plan_id : String) (gen : String → String) (now : String) :
    DB → Nat → List TaskInput → Except TaskaiError (DB × List Stmt)
  | db, _, [] => .ok (db, [])
  | db, i, t :: rest =>
    match create_task db (gen t.id) plan_id t.title t.description t.priority
        (Int.ofNat i) (if t.after.isEmpty then TaskStatus.ready else TaskStatus.blocked)
        t.agent now with
    | .error e => .error e
    | .ok db1 =>
      match load_create_go plan_id gen now db1 (i + 1) rest with
      | .error e => .error e
      | .ok (db2, tr) => .ok (db2, Stmt.sqlInsertTask (gen t.id) :: tr)

def load_task_deps_go (gen : String → String) (tid : String) :
    DB → List String → Except TaskaiError (DB × List Stmt)
  | db, [] => .ok (db, [])
  | db, dep :: rest =>
    match add_dependency db (gen tid) (gen dep) with
    | .error e => .error e
    | .ok db1 =>
      match load_task_deps_go gen tid db1 rest with
      | .error e => .error e
      | .ok (db2, tr) => .ok (db2, Stmt.sqlInsertDep (gen tid) (gen dep) :: tr)

def load_deps_go (gen : String → String) :
    DB → List TaskInput → Except TaskaiError (DB × List Stmt)
  | db, [] => .ok (db, [])
  | db, t :: rest =>
    match load_task_deps_go gen t.id db t.after with
    | .error e => .error e
    | .ok (db1, tr1) =>
      match load_deps_go gen db1 rest with
      | .error e => .error e
      | .ok (db2, tr2) => .ok (db2, tr1 ++ tr2)

/-- `run_load`: validate the whole graph, then create the plan's tasks and edges in
one transaction.  The fresh plan id plays no role in the modeled state beyond the
tasks' `plan_id` column; `gen` is the temp-id → fresh-ULID mapping the source keeps
in `id_mapping`. -/
def run_load (db : DB) (input : PlanLoadInput) (plan_id : String)
    (gen : String → String) (now : String) :
    Except TaskaiError Unit × DB × List Stmt :=
  match validate_load_input input with
  | .error e => (.error e, db, [])
  | .ok () =>
    let body : Except TaskaiError (DB × List Stmt) :=
      match load_create_go plan_id gen now db 0 input.tasks with
      | .error e => .error e
      | .ok (db1, tr1) =>
        match load_deps_go gen db1 input.tasks with
        | .error e => .error e
        | .ok (db2, tr2) => .ok (db2, tr1 ++ tr2)
    match body with
    | .ok (db2, tr) => (.ok (), db2, [Stmt.txBegin] ++ tr ++ [Stmt.txCommit])
    | .error e => (.error e, db, [Stmt.txBegin, Stmt.txRollback])

/-! ## Invariants, operations, reachable states -/

/-- Ready tasks of a plan, in table order. -/
def readyTasks (db : DB) (plan_id : String) : List Task :=
  db.tasks.filter (fun t => t.plan_id == plan_id && t.status == TaskStatus.ready)

/-- Store well-formedness: unique task ids (primary key), unique dependency rows
(primary key), both edge endpoints existing (enforced foreign keys), and no
self-edges (`CHECK (task_id != dependency_id)`). -/
def WF (db : DB) : Prop :=
  (db.tasks.map (fun t => t.id)).Nodup ∧
  db.deps.Nodup ∧
  (∀ e ∈ db.deps, (findTask db e.1).isSome ∧ (findTask db e.2).isSome) ∧
  (∀ e ∈ db.deps, e.1 ≠ e.2)

/-- The status/dependency invariant: a ready task has every dependency done (or has
none), a blocked task has at least one dependency not done. -/
def StatusInv (db : DB) : Prop :=
  ∀ t ∈ db.tasks,
    (t.status = TaskStatus.ready → all_dependencies_done db t.id = true) ∧
    (t.status = TaskStatus.blocked → all_dependencies_done db t.id = false)

/-- The graph invariant: every plan's dependency edge set is acyclic. -/
def AcyclicInv (db : DB) : Prop :=
  ∀ plan_id, ¬ HasCycle (get_all_dependencies_for_plan db plan_id)

/-- One committed core operation, with the caller-supplied identity/clock inputs. -/
inductive Op
  | add (plan_id title : String) (description : Option String) (priority : Int)
      (agent : Option String) (after : List String) (new_id now : String)
  | transition (plan_id id action : String) (agent : Option String) (now : String)
  | next (plan_id : String) (claim : Bool) (agent : Option String) (now : String)
  | dep (plan_id : String) (cmd : DepCommands) (now : String)
  | load (input : PlanLoadInput) (plan_id : String) (gen : String → String) (now : String)

/-- The state a command leaves behind (unchanged when it failed and rolled back). -/
def applyOp (db : DB) : Op → DB
  | .add plan_id title description priority agent after new_id now =>
    (run_add db plan_id title description priority agent after new_id now).2.1
  | .transition plan_id id action agent now =>
    (run_transition db plan_id id action agent now).2.1
  | .next plan_id claim agent now => (run_inner db plan_id claim agent now).2.1
  | .dep plan_id cmd now => (run_dep db plan_id cmd now).2.1
  | .load input plan_id gen now => (run_load db input plan_id gen now).2.1

/-- Freshness of the caller-supplied identities: ULIDs do not collide with stored
ids, and a freshly generated plan id is not referenced by any stored task. -/
def OpOK (db : DB) : Op → Prop
  | .add _ _ _ _ _ _ new_id _ => ∀ t ∈ db.tasks, t.id ≠ new_id
  | .load input plan_id gen _ =>
    (∀ a ∈ load_nodes input, ∀ t ∈ db.tasks, gen a ≠ t.id) ∧
    (∀ a ∈ load_nodes input, ∀ b ∈ load_nodes input, gen a = gen b → a = b) ∧
    (∀ t ∈ db.tasks, t.plan_id ≠ plan_id)
  | _ => True

/-- States reachable from the empty store through committed core operations. -/
inductive Reachable : DB → Prop
  | init : Reachable ⟨[], []⟩
  | step {db : DB} (op : Op) (h : Reachable db) (hok : OpOK db op) : Reachable (applyOp db op)

/-- The promotion condition `cascade_unblock` evaluates for a dependent: currently
blocked and all dependencies done. -/
def cascadePromotes (db : DB) (i : String) : Bool :=
  match findTask db i with
  | some t => t.status == TaskStatus.blocked && all_dependencies_done db i
  | none => false

/-- Fixture row for concrete witnesses: a task of plan "p" with default columns. -/
def wTask (id : String) (st : TaskStatus) (pr so : Int) : Task :=
  ⟨id, "p", id, none, st, pr, so, none, none, "t0", "t0", none, none⟩

/-- The JOIN condition of `all_dependencies_done` for one dependency row: the
referenced task exists and is not done. -/
def notDone (db : DB) (y : String) : Bool :=
  match findTask db y with
  | some t => t.status != TaskStatus.done
  | none => false






/-- Fixture store for invariant witnesses: two committed creates give task "a"
(ready) and task "b" (blocked with the edge ("b", "a")). -/
def wDB2 : DB :=
  applyOp (applyOp (⟨[], []⟩ : DB) (Op.add "p" "A" none 0 none [] "a" "t0"))
    (Op.add "p" "B" none 0 none ["a"] "b" "t0")

/-! ## DEFS-MARKER (further definitions are inserted above this line) -/

/-! ## Theorems -/

/-! ### Basic facts about the embedding -/

theorem mem_succs {edges : Edges} {n m : String} :
    m ∈ succs edges n ↔ (n, m) ∈ edges := by
  simp only [succs, List.mem_map, List.mem_filter]
  constructor
  · rintro ⟨⟨a, b⟩, ⟨hmem, heq⟩, rfl⟩
    simp only [beq_iff_eq] at heq
    simpa [heq] using hmem
  · intro h
    exact ⟨(n, m), ⟨h, by simp⟩, rfl⟩

@[simp] theorem cset_self (c : ColorMap) (n : String) (v : Nat) : cset c n v n = v := by
  simp [cset]

theorem cset_other (c : ColorMap) {n x : String} (v : Nat) (h : x ≠ n) :
    cset c n v x = c x := by
  simp [cset, h]


theorem good_cset {c : ColorMap} (h : Good c) {v : Nat} (hv : v ≤ 2) (n : String) :
    Good (cset c n v) := by
  intro x
  by_cases hx : x = n
  · subst hx; simpa using hv
  · rw [cset_other _ _ hx]; exact h x


theorem FalseStep.refl {c : ColorMap} : FalseStep c c :=
  ⟨fun _ => Iff.rfl, fun _ h => h, fun _ h => h, fun h => h⟩

theorem FalseStep.trans {c₁ c₂ c₃ : ColorMap} (h : FalseStep c₁ c₂) (h' : FalseStep c₂ c₃) :
    FalseStep c₁ c₃ :=
  ⟨fun x => (h'.grayIff x).trans (h.grayIff x),
   fun x hx => h'.blackMono x (h.blackMono x hx),
   fun x hx => h.whiteShrink x (h'.whiteShrink x hx),
   fun hg => h'.good (h.good hg)⟩

/-- On a run that reports no cycle, the DFS keeps the gray set, only blackens,
and blackens the visited node and every neighbor it scanned. -/
theorem falseSpec (edges : Edges) : ∀ fuel : Nat,
    (∀ n c c', c n = 0 → visit edges fuel n c = some (false, c') →
      FalseStep c c' ∧ c' n = 2) ∧
    (∀ ns c c', visitList edges fuel ns c = some (false, c') →
      FalseStep c c' ∧ (Good c → ∀ m ∈ ns, c' m = 2)) := by
  have hstepB : ∀ fuel,
      (∀ n c c', c n = 0 → visit edges fuel n c = some (false, c') →
        FalseStep c c' ∧ c' n = 2) →
      (∀ ns c c', visitList edges fuel ns c = some (false, c') →
        FalseStep c c' ∧ (Good c → ∀ m ∈ ns, c' m = 2)) := by
    intro fuel hA ns
    induction ns with
    | nil =>
      intro c c' hv
      rw [visitList] at hv
      simp only [Option.some.injEq, Prod.mk.injEq, true_and] at hv
      subst hv
      exact ⟨FalseStep.refl, fun _ m hm => absurd hm (List.not_mem_nil m)⟩
    | cons n rest ih =>
      intro c c' hv
      rw [visitList] at hv
      by_cases h1 : c n = 1
      · simp [h1] at hv
      · by_cases h0 : c n = 0
        · simp only [h1, if_false, h0, if_true] at hv
          cases hV : visit edges fuel n c with
          | none => simp [hV] at hv
          | some r =>
            obtain ⟨b, c2⟩ := r
            cases b with
            | true => simp [hV] at hv
            | false =>
              simp only [hV] at hv
              obtain ⟨hs1, hn2⟩ := hA n c c2 h0 hV
              obtain ⟨hs2, hblack⟩ := ih c2 c' hv
              refine ⟨hs1.trans hs2, fun hg m hm => ?_⟩
              rcases List.mem_cons.mp hm with rfl | hm'
              · exact hs2.blackMono m hn2
              · exact hblack (hs1.good hg) m hm'
        · simp only [h1, h0, if_false] at hv
          obtain ⟨hstep, hblack⟩ := ih c c' hv
          refine ⟨hstep, fun hg m hm => ?_⟩
          rcases List.mem_cons.mp hm with rfl | hm'
          · have hm2 : c m = 2 := by have := hg m; omega
            exact hstep.blackMono m hm2
          · exact hblack hg m hm'
  intro fuel
  induction fuel with
  | zero =>
    have hA : ∀ n c c', c n = 0 → visit edges 0 n c = some (false, c') →
        FalseStep c c' ∧ c' n = 2 := by
      intro n c c' _ hv
      rw [visit] at hv
      cases hv
    exact ⟨hA, hstepB 0 hA⟩
  | succ fuel ih =>
    have hA : ∀ n c c', c n = 0 → visit edges (fuel + 1) n c = some (false, c') →
        FalseStep c c' ∧ c' n = 2 := by
      intro n c c' h0 hv
      rw [visit] at hv
      cases hL : visitList edges fuel (succs edges n) (cset c n 1) with
      | none => simp [hL] at hv
      | some r =>
        obtain ⟨b, c2⟩ := r
        cases b with
        | true => simp [hL] at hv
        | false =>
          simp only [hL, Option.some.injEq, Prod.mk.injEq, true_and] at hv
          subst hv
          obtain ⟨hstep, _⟩ := hstepB fuel ih.1 (succs edges n) (cset c n 1) c2 hL
          refine ⟨⟨?_, ?_, ?_, ?_⟩, by simp⟩
          · intro x
            by_cases hx : x = n
            · subst hx; simp [h0]
            · rw [cset_other _ _ hx]
              rw [hstep.grayIff x, cset_other _ _ hx]
          · intro x hx
            have hxn : x ≠ n := fun h => by subst h; omega
            rw [cset_other _ _ hxn]
            exact hstep.blackMono x (by rw [cset_other _ _ hxn]; exact hx)
          · intro x hx
            have hxn : x ≠ n := fun h => by subst h; simp at hx
            rw [cset_other _ _ hxn] at hx
            have := hstep.whiteShrink x hx
            rw [cset_other _ _ hxn] at this
            exact this
          · intro hg
            have h1 : Good (cset c n 1) := good_cset hg (by omega) n
            exact good_cset (hstep.good h1) (by omega) n
    exact ⟨hA, hstepB (fuel + 1) hA⟩

/-- On a run that reports a cycle, the graph really has a directed cycle:
every gray node has a path to the node currently being visited, so hitting a
gray neighbor closes a loop. -/
theorem soundSpec (edges : Edges) : ∀ fuel : Nat,
    (∀ n c c', (∀ g, c g = 1 → Relation.ReflTransGen (EdgeIn edges) g n) →
      visit edges fuel n c = some (true, c') → HasCycle edges) ∧
    (∀ ns p c c', (∀ g, c g = 1 → Relation.ReflTransGen (EdgeIn edges) g p) →
      (∀ m ∈ ns, EdgeIn edges p m) →
      visitList edges fuel ns c = some (true, c') → HasCycle edges) := by
  have hB : ∀ fuel,
      (∀ n c c', (∀ g, c g = 1 → Relation.ReflTransGen (EdgeIn edges) g n) →
        visit edges fuel n c = some (true, c') → HasCycle edges) →
      (∀ ns p c c', (∀ g, c g = 1 → Relation.ReflTransGen (EdgeIn edges) g p) →
        (∀ m ∈ ns, EdgeIn edges p m) →
        visitList edges fuel ns c = some (true, c') → HasCycle edges) := by
    intro fuel hA ns
    induction ns with
    | nil =>
      intro p c c' _ _ hv
      rw [visitList] at hv
      simp at hv
    | cons n rest ih =>
      intro p c c' hreach hedge hv
      rw [visitList] at hv
      by_cases h1 : c n = 1
      · exact ⟨n, Relation.TransGen.tail' (hreach n h1) (hedge n (by simp))⟩
      · by_cases h0 : c n = 0
        · simp only [h1, if_false, h0, if_true] at hv
          cases hV : visit edges fuel n c with
          | none => simp [hV] at hv
          | some r =>
            obtain ⟨b, c2⟩ := r
            cases b with
            | true =>
              refine hA n c c2 (fun g hg => ?_) hV
              exact Relation.ReflTransGen.tail (hreach g hg) (hedge n (by simp))
            | false =>
              simp only [hV] at hv
              obtain ⟨hstep, _⟩ := (falseSpec edges fuel).1 n c c2 h0 hV
              refine ih p c2 c' (fun g hg => hreach g ((hstep.grayIff g).mp hg))
                (fun m hm => hedge m (by simp [hm])) hv
        · simp only [h1, h0, if_false] at hv
          exact ih p c c' hreach (fun m hm => hedge m (by simp [hm])) hv
  intro fuel
  induction fuel with
  | zero =>
    have hA : ∀ n c c', (∀ g, c g = 1 → Relation.ReflTransGen (EdgeIn edges) g n) →
        visit edges 0 n c = some (true, c') → HasCycle edges := by
      intro n c c' _ hv
      rw [visit] at hv
      cases hv
    exact ⟨hA, hB 0 hA⟩
  | succ fuel ih =>
    have hA : ∀ n c c', (∀ g, c g = 1 → Relation.ReflTransGen (EdgeIn edges) g n) →
        visit edges (fuel + 1) n c = some (true, c') → HasCycle edges := by
      intro n c c' hreach hv
      rw [visit] at hv
      cases hL : visitList edges fuel (succs edges n) (cset c n 1) with
      | none => simp [hL] at hv
      | some r =>
        obtain ⟨b, c2⟩ := r
        cases b with
        | false => simp [hL] at hv
        | true =>
          refine ih.2 (succs edges n) n (cset c n 1) c2 (fun g hg => ?_)
            (fun m hm => mem_succs.mp hm) hL
          by_cases hgn : g = n
          · subst hgn; exact Relation.ReflTransGen.refl
          · rw [cset_other _ _ hgn] at hg
            exact hreach g hg
    exact ⟨hA, hB (fuel + 1) hA⟩


/-- On a run that reports no cycle, blackened nodes are never on a cycle: a node is
blackened only after all of its successors are black. -/
theorem compSpec (edges : Edges) : ∀ fuel : Nat,
    (∀ n c c', c n = 0 → Good c → NoCyc edges c →
      visit edges fuel n c = some (false, c') → NoCyc edges c') ∧
    (∀ ns c c', Good c → NoCyc edges c →
      visitList edges fuel ns c = some (false, c') → NoCyc edges c') := by
  have hB : ∀ fuel,
      (∀ n c c', c n = 0 → Good c → NoCyc edges c →
        visit edges fuel n c = some (false, c') → NoCyc edges c') →
      (∀ ns c c', Good c → NoCyc edges c →
        visitList edges fuel ns c = some (false, c') → NoCyc edges c') := by
    intro fuel hA ns
    induction ns with
    | nil =>
      intro c c' _ hnc hv
      rw [visitList] at hv
      simp only [Option.some.injEq, Prod.mk.injEq, true_and] at hv
      exact hv ▸ hnc
    | cons n rest ih =>
      intro c c' hg hnc hv
      rw [visitList] at hv
      by_cases h1 : c n = 1
      · simp [h1] at hv
      · by_cases h0 : c n = 0
        · simp only [h1, if_false, h0, if_true] at hv
          cases hV : visit edges fuel n c with
          | none => simp [hV] at hv
          | some r =>
            obtain ⟨b, c2⟩ := r
            cases b with
            | true => simp [hV] at hv
            | false =>
              simp only [hV] at hv
              obtain ⟨hstep, _⟩ := (falseSpec edges fuel).1 n c c2 h0 hV
              exact ih c2 c' (hstep.good hg) (hA n c c2 h0 hg hnc hV) hv
        · simp only [h1, h0, if_false] at hv
          exact ih c c' hg hnc hv
  intro fuel
  induction fuel with
  | zero =>
    have hA : ∀ n c c', c n = 0 → Good c → NoCyc edges c →
        visit edges 0 n c = some (false, c') → NoCyc edges c' := by
      intro n c c' _ _ _ hv
      rw [visit] at hv
      cases hv
    exact ⟨hA, hB 0 hA⟩
  | succ fuel ih =>
    have hA : ∀ n c c', c n = 0 → Good c → NoCyc edges c →
        visit edges (fuel + 1) n c = some (false, c') → NoCyc edges c' := by
      intro n c c' h0 hg hnc hv
      rw [visit] at hv
      cases hL : visitList edges fuel (succs edges n) (cset c n 1) with
      | none => simp [hL] at hv
      | some r =>
        obtain ⟨b, c2⟩ := r
        cases b with
        | true => simp [hL] at hv
        | false =>
          simp only [hL, Option.some.injEq, Prod.mk.injEq, true_and] at hv
          subst hv
          have hg1 : Good (cset c n 1) := good_cset hg (by omega) n
          have hnc1 : NoCyc edges (cset c n 1) := by
            intro x hx
            by_cases hxn : x = n
            · subst hxn; simp at hx
            · rw [cset_other _ _ hxn] at hx
              exact hnc x hx
          have hnc2 : NoCyc edges c2 := ih.2 (succs edges n) (cset c n 1) c2 hg1 hnc1 hL
          obtain ⟨_, hblack⟩ := (falseSpec edges fuel).2 (succs edges n) (cset c n 1) c2 hL
          intro x hx hcyc
          by_cases hxn : x = n
          · subst hxn
            obtain ⟨m, hedge, hpath⟩ := Relation.TransGen.head'_iff.mp hcyc
            have hm : m ∈ succs edges x := mem_succs.mpr hedge
            have hm2 : c2 m = 2 := hblack hg1 m hm
            have : Relation.TransGen (EdgeIn edges) m m :=
              Relation.TransGen.tail' hpath hedge
            exact hnc2 m hm2 this
          · rw [cset_other _ _ hxn] at hx
            exact hnc2 x hx hcyc
    exact ⟨hA, hB (fuel + 1) hA⟩


theorem wcount_pos {U : List String} {c : ColorMap} {n : String}
    (hn : n ∈ U) (h0 : c n = 0) : 0 < wcount U c :=
  List.countP_pos_iff.mpr ⟨n, hn, by simp [h0]⟩

theorem wcount_mono {U : List String} {c c' : ColorMap}
    (h : ∀ x, c' x = 0 → c x = 0) : wcount U c' ≤ wcount U c :=
  List.countP_mono_left (fun a _ ha => by
    simp only [beq_iff_eq] at ha ⊢
    exact h a ha)

theorem countP_lt_of_strict {l : List String} {p q : String → Bool}
    (hmono : ∀ a ∈ l, p a = true → q a = true) {x : String} (hx : x ∈ l)
    (hqx : q x = true) (hpx : p x = false) : l.countP p < l.countP q := by
  induction l with
  | nil => cases hx
  | cons a tl ih =>
    rw [List.countP_cons, List.countP_cons]
    rcases List.mem_cons.mp hx with rfl | hx'
    · have hle : tl.countP p ≤ tl.countP q :=
        List.countP_mono_left (fun b hb => hmono b (List.mem_cons_of_mem _ hb))
      simp only [hpx, hqx, Bool.false_eq_true, if_false, if_true]
      omega
    · have hlt : tl.countP p < tl.countP q :=
        ih (fun b hb => hmono b (List.mem_cons_of_mem _ hb)) hx'
      by_cases hpa : p a = true
      · have hqa := hmono a (List.mem_cons_self a tl) hpa
        simp only [hpa, hqa, if_true]
        omega
      · simp only [Bool.not_eq_true] at hpa
        simp only [hpa, Bool.false_eq_true, if_false]
        split <;> omega

theorem wcount_gray_lt {U : List String} {c : ColorMap} {n : String}
    (hn : n ∈ U) (h0 : c n = 0) : wcount U (cset c n 1) < wcount U c := by
  refine countP_lt_of_strict (fun a _ ha => ?_) hn (by simp [h0]) (by simp)
  simp only [beq_iff_eq] at ha ⊢
  by_cases han : a = n
  · subst han; simp at ha
  · rwa [cset_other _ _ han] at ha

/-- With fuel at least the number of white nodes of the universe, the DFS never
runs out of fuel. -/
theorem totalSpec (edges : Edges) (U : List String)
    (hU : ∀ a b, (a, b) ∈ edges → b ∈ U) : ∀ fuel : Nat,
    (∀ n c, n ∈ U → c n = 0 → wcount U c ≤ fuel → visit edges fuel n c ≠ none) ∧
    (∀ ns c, (∀ m ∈ ns, m ∈ U) → wcount U c ≤ fuel → visitList edges fuel ns c ≠ none) := by
  have hB : ∀ fuel,
      (∀ n c, n ∈ U → c n = 0 → wcount U c ≤ fuel → visit edges fuel n c ≠ none) →
      (∀ ns c, (∀ m ∈ ns, m ∈ U) → wcount U c ≤ fuel →
        visitList edges fuel ns c ≠ none) := by
    intro fuel hA ns
    induction ns with
    | nil =>
      intro c _ _
      rw [visitList]
      simp
    | cons n rest ih =>
      intro c hns hw
      rw [visitList]
      by_cases h1 : c n = 1
      · simp [h1]
      · by_cases h0 : c n = 0
        · simp only [h1, if_false, h0, if_true]
          cases hV : visit edges fuel n c with
          | none => exact absurd hV (hA n c (hns n (by simp)) h0 hw)
          | some r =>
            obtain ⟨b, c2⟩ := r
            cases b with
            | true => simp
            | false =>
              obtain ⟨hstep, _⟩ := (falseSpec edges fuel).1 n c c2 h0 hV
              exact ih c2 (fun m hm => hns m (by simp [hm]))
                (le_trans (wcount_mono hstep.whiteShrink) hw)
        · simp only [h1, h0, if_false]
          exact ih c (fun m hm => hns m (by simp [hm])) hw
  intro fuel
  induction fuel with
  | zero =>
    have hA : ∀ n c, n ∈ U → c n = 0 → wcount U c ≤ 0 → visit edges 0 n c ≠ none := by
      intro n c hn h0 hw
      have := wcount_pos hn h0
      omega
    exact ⟨hA, hB 0 hA⟩
  | succ fuel ih =>
    have hA : ∀ n c, n ∈ U → c n = 0 → wcount U c ≤ fuel + 1 →
        visit edges (fuel + 1) n c ≠ none := by
      intro n c hn h0 hw
      rw [visit]
      have hlt : wcount U (cset c n 1) < wcount U c := wcount_gray_lt hn h0
      have hsub : ∀ m ∈ succs edges n, m ∈ U := fun m hm => hU n m (mem_succs.mp hm)
      have hmain := hB fuel ih.1 (succs edges n) (cset c n 1) hsub (by omega)
      cases hL : visitList edges fuel (succs edges n) (cset c n 1) with
      | none => exact absurd hL hmain
      | some r =>
        obtain ⟨b, c2⟩ := r
        cases b <;> simp
    exact ⟨hA, hB (fuel + 1) hA⟩

/-- Behavior of the outer loop of `detect_cycle`: it never runs out of fuel, reports
`true` only on really-cyclic graphs, and on `false` leaves every key black with no
black node on a cycle. -/
theorem loopSpec (edges : Edges) (U : List String)
    (hU : ∀ a b, (a, b) ∈ edges → b ∈ U) (fuel : Nat) : ∀ ks c,
    (∀ k ∈ ks, k ∈ U) → Good c → NoCyc edges c → (∀ x, c x ≠ 1) → wcount U c ≤ fuel →
    (detectLoop edges fuel ks c ≠ none) ∧
    (∀ c', detectLoop edges fuel ks c = some (true, c') → HasCycle edges) ∧
    (∀ c', detectLoop edges fuel ks c = some (false, c') →
      Good c' ∧ NoCyc edges c' ∧ (∀ x, c' x ≠ 1) ∧ (∀ k ∈ ks, c' k = 2) ∧
      (∀ x, c x = 2 → c' x = 2)) := by
  intro ks
  induction ks with
  | nil =>
    intro c _ hg hnc hng _
    rw [detectLoop]
    refine ⟨by simp, by simp, ?_⟩
    intro c' hv
    simp only [Option.some.injEq, Prod.mk.injEq, true_and] at hv
    subst hv
    exact ⟨hg, hnc, hng, by simp, fun _ h => h⟩
  | cons k rest ih =>
    intro c hks hg hnc hng hw
    rw [detectLoop]
    by_cases h0 : c k = 0
    · simp only [h0, if_true]
      cases hV : visit edges fuel k c with
      | none =>
        exact absurd hV ((totalSpec edges U hU fuel).1 k c (hks k (by simp)) h0 hw)
      | some r =>
        obtain ⟨b, c2⟩ := r
        cases b with
        | true =>
          refine ⟨by simp, ?_, by simp⟩
          intro c' _
          refine (soundSpec edges fuel).1 k c c2 (fun g hgr => absurd hgr (hng g)) hV
        | false =>
          obtain ⟨hstep, hk2⟩ := (falseSpec edges fuel).1 k c c2 h0 hV
          have hg2 : Good c2 := hstep.good hg
          have hnc2 : NoCyc edges c2 := (compSpec edges fuel).1 k c c2 h0 hg hnc hV
          have hng2 : ∀ x, c2 x ≠ 1 := fun x hx => hng x ((hstep.grayIff x).mp hx)
          have hw2 : wcount U c2 ≤ fuel := le_trans (wcount_mono hstep.whiteShrink) hw
          obtain ⟨hn, ht, hf⟩ := ih c2 (fun m hm => hks m (by simp [hm])) hg2 hnc2 hng2 hw2
          refine ⟨hn, ht, ?_⟩
          intro c' hv
          obtain ⟨hg', hnc', hng', hrest, hmono⟩ := hf c' hv
          refine ⟨hg', hnc', hng', ?_, fun x hx => hmono x (hstep.blackMono x hx)⟩
          intro k' hk'
          rcases List.mem_cons.mp hk' with rfl | hk''
          · exact hmono k' hk2
          · exact hrest k' hk''
    · simp only [h0, if_false]
      have hk2 : c k = 2 := by
        have := hg k
        have := hng k
        omega
      obtain ⟨hn, ht, hf⟩ := ih c (fun m hm => hks m (by simp [hm])) hg hnc hng hw
      refine ⟨hn, ht, ?_⟩
      intro c' hv
      obtain ⟨hg', hnc', hng', hrest, hmono⟩ := hf c' hv
      refine ⟨hg', hnc', hng', ?_, hmono⟩
      intro k' hk'
      rcases List.mem_cons.mp hk' with rfl | hk''
      · exact hmono k' hk2
      · exact hrest k' hk''

/-- Full behavior of one `detect_cycle` traversal: it always terminates within its
fuel and its boolean verdict is exactly the presence of a directed cycle. -/
theorem detect_cycle_run_spec (nodes : List String) (edges : Edges) :
    (∃ b c', detect_cycle_run nodes edges = some (b, c')) ∧
    (∀ c', detect_cycle_run nodes edges = some (true, c') → HasCycle edges) ∧
    (∀ c', detect_cycle_run nodes edges = some (false, c') → ¬ HasCycle edges) := by
  have hU : ∀ a b, (a, b) ∈ edges → b ∈ graphUniv nodes edges := by
    intro a b hab
    refine List.mem_dedup.mpr ?_
    refine List.mem_append.mpr (Or.inr ?_)
    exact List.mem_map.mpr ⟨(a, b), hab, rfl⟩
  have hks : ∀ k ∈ graphKeys nodes edges, k ∈ graphUniv nodes edges := by
    intro k hk
    rcases List.mem_append.mp (List.mem_dedup.mp hk) with h | h
    · exact List.mem_dedup.mpr (List.mem_append.mpr (Or.inl (List.mem_append.mpr (Or.inl h))))
    · exact List.mem_dedup.mpr (List.mem_append.mpr (Or.inl (List.mem_append.mpr (Or.inr h))))
  have hw : wcount (graphUniv nodes edges) (fun _ => 0) ≤ (graphUniv nodes edges).length + 1 :=
    Nat.le_succ_of_le (List.countP_le_length _)
  obtain ⟨hn, ht, hf⟩ := loopSpec edges (graphUniv nodes edges) hU
    ((graphUniv nodes edges).length + 1) (graphKeys nodes edges) (fun _ => 0)
    hks (fun _ => by simp) (fun x hx => by cases hx) (fun x => by simp) hw
  refine ⟨?_, ?_, ?_⟩
  · cases hrun : detect_cycle_run nodes edges with
    | none => exact absurd hrun hn
    | some r =>
      obtain ⟨b, c'⟩ := r
      exact ⟨b, c', rfl⟩
  · exact ht
  · intro c' hrun hcyc
    obtain ⟨hg', hnc', hng', hkeys, _⟩ := hf c' hrun
    obtain ⟨a, hcyca⟩ := hcyc
    obtain ⟨b, hedge, _⟩ := Relation.TransGen.head'_iff.mp hcyca
    have ha : a ∈ graphKeys nodes edges := by
      refine List.mem_dedup.mpr (List.mem_append.mpr (Or.inr ?_))
      exact List.mem_map.mpr ⟨(a, b), hedge, rfl⟩
    exact hnc' a (hkeys a ha) hcyca

/-- `detect_cycle` never exhausts its fuel. -/
theorem detect_cycle_total (nodes : List String) (edges : Edges) :
    ∃ r, detect_cycle nodes edges = some r := by
  obtain ⟨b, c', h⟩ := (detect_cycle_run_spec nodes edges).1
  cases b with
  | false => exact ⟨.ok (), by simp [detect_cycle, h]⟩
  | true => exact ⟨.error TaskaiError.cycle_detected, by simp [detect_cycle, h]⟩

theorem detect_cycle_ok_iff (nodes : List String) (edges : Edges) :
    detect_cycle nodes edges = some (Except.ok ()) ↔ ¬ HasCycle edges := by
  obtain ⟨b, c', h⟩ := (detect_cycle_run_spec nodes edges).1
  cases b with
  | false =>
    exact iff_of_true (by simp [detect_cycle, h]) ((detect_cycle_run_spec nodes edges).2.2 c' h)
  | true =>
    refine iff_of_false (by simp [detect_cycle, h]) ?_
    exact fun hno => absurd ((detect_cycle_run_spec nodes edges).2.1 c' h) hno

theorem detect_cycle_err_iff (nodes : List String) (edges : Edges) :
    detect_cycle nodes edges = some (Except.error TaskaiError.cycle_detected) ↔
      HasCycle edges := by
  obtain ⟨b, c', h⟩ := (detect_cycle_run_spec nodes edges).1
  cases b with
  | true =>
    exact iff_of_true (by simp [detect_cycle, h]) ((detect_cycle_run_spec nodes edges).2.1 c' h)
  | false =>
    exact iff_of_false (by simp [detect_cycle, h]) ((detect_cycle_run_spec nodes edges).2.2 c' h)

theorem would_create_cycle_ok_iff (nodes : List String) (existing_edges : Edges)
    (t d : String) :
    would_create_cycle nodes existing_edges t d = some (Except.ok ()) ↔
      ¬ HasCycle (existing_edges ++ [(t, d)]) :=
  detect_cycle_ok_iff nodes (existing_edges ++ [(t, d)])

theorem would_create_cycle_err_iff (nodes : List String) (existing_edges : Edges)
    (t d : String) :
    would_create_cycle nodes existing_edges t d =
        some (Except.error TaskaiError.cycle_detected) ↔
      HasCycle (existing_edges ++ [(t, d)]) :=
  detect_cycle_err_iff nodes (existing_edges ++ [(t, d)])

/-- C1: for every node list and edge list, `detect_cycle` terminates within its fuel
and returns ok exactly when the directed graph of the edge list (edge (A, B) read as
arrow A→B) is acyclic, and returns the CycleDetected error exactly when the edge list
contains a directed cycle — in particular whenever a single self-loop edge (A, A) is
present. -/
theorem C1_detect_cycle_ok_iff_acyclic (nodes : List String) (edges : Edges) :
    (detect_cycle nodes edges = some (Except.ok ()) ↔ ¬ HasCycle edges) ∧
    (detect_cycle nodes edges = some (Except.error TaskaiError.cycle_detected) ↔
      HasCycle edges) ∧
    (∀ a, (a, a) ∈ edges →
      detect_cycle nodes edges = some (Except.error TaskaiError.cycle_detected)) := by
  refine ⟨detect_cycle_ok_iff nodes edges, detect_cycle_err_iff nodes edges, ?_⟩
  intro a ha
  exact (detect_cycle_err_iff nodes edges).mpr ⟨a, Relation.TransGen.single ha⟩

/-- Witness for C1 at concrete inputs: the self-loop graph is reported cyclic and a
two-node chain is reported acyclic. -/
theorem C1_detect_cycle_ok_iff_acyclic_witness :
    detect_cycle ["a"] [("a", "a")] = some (Except.error TaskaiError.cycle_detected) ∧
    detect_cycle ["a", "b"] [("b", "a")] = some (Except.ok ()) := by
  constructor
  · exact (C1_detect_cycle_ok_iff_acyclic ["a"] [("a", "a")]).2.2 "a" (by simp)
  · refine (C1_detect_cycle_ok_iff_acyclic ["a", "b"] [("b", "a")]).1.mpr ?_
    refine (detect_cycle_ok_iff ["a", "b"] [("b", "a")]).mp ?_
    simp [detect_cycle, detect_cycle_run, detectLoop, visit, visitList, graphKeys,
      graphUniv, succs, cset, List.dedup]

/-! ### Store lemmas -/

theorem setStatusRow_id (status : TaskStatus) (assigned_to : Option String) (now : String)
    (t : Task) : (setStatusRow status assigned_to now t).id = t.id := rfl

theorem setStatusRow_plan (status : TaskStatus) (assigned_to : Option String) (now : String)
    (t : Task) : (setStatusRow status assigned_to now t).plan_id = t.plan_id := rfl

theorem setStatusRow_status (status : TaskStatus) (assigned_to : Option String) (now : String)
    (t : Task) : (setStatusRow status assigned_to now t).status = status := rfl

theorem findTask_mem {db : DB} {i : String} {t : Task} (h : findTask db i = some t) :
    t ∈ db.tasks ∧ t.id = i := by
  refine ⟨List.mem_of_find?_eq_some h, ?_⟩
  have := List.find?_some h
  simpa using this

theorem get_task_by_id_ok {db : DB} {i : String} {t : Task}
    (h : get_task_by_id db i = .ok t) : findTask db i = some t := by
  unfold get_task_by_id at h
  cases hf : findTask db i with
  | none => rw [hf] at h; cases h
  | some u => rw [hf] at h; cases h; rfl

theorem resolve_task_ok {db : DB} {p r : String} {t : Task}
    (h : resolve_task db p r = .ok t) : t ∈ db.tasks ∧ t.plan_id = p := by
  unfold resolve_task at h
  cases hf : findTask db r with
  | some u =>
    rw [hf] at h
    by_cases hp : u.plan_id = p
    · simp only [hp, if_true] at h
      cases h
      exact ⟨(findTask_mem hf).1, hp⟩
    · simp only [hp, if_false] at h
      cases hm : db.tasks.filter (fun t => t.plan_id == p && t.id.startsWith r) with
      | nil => rw [hm] at h; cases h
      | cons a l =>
        cases l with
        | nil =>
          rw [hm] at h
          cases h
          have ha : t ∈ db.tasks.filter (fun t => t.plan_id == p && t.id.startsWith r) := by
            rw [hm]; exact List.mem_singleton.mpr rfl
          have hmf := List.mem_filter.mp ha
          have h2 := hmf.2
          simp only [Bool.and_eq_true, beq_iff_eq] at h2
          exact ⟨hmf.1, h2.1⟩
        | cons b l2 => rw [hm] at h; cases h
  | none =>
    rw [hf] at h
    cases hm : db.tasks.filter (fun t => t.plan_id == p && t.id.startsWith r) with
    | nil => rw [hm] at h; cases h
    | cons a l =>
      cases l with
      | nil =>
        rw [hm] at h
        cases h
        have ha : t ∈ db.tasks.filter (fun t => t.plan_id == p && t.id.startsWith r) := by
          rw [hm]; exact List.mem_singleton.mpr rfl
        have hmf := List.mem_filter.mp ha
        have h2 := hmf.2
        simp only [Bool.and_eq_true, beq_iff_eq] at h2
        exact ⟨hmf.1, h2.1⟩
      | cons b l2 => rw [hm] at h; cases h

theorem update_deps (db : DB) (i : String) (st : TaskStatus) (ag : Option String)
    (now : String) : (update_task_status db i st ag now).deps = db.deps := rfl

theorem mem_update_status {db : DB} {i : String} {st : TaskStatus} {ag : Option String}
    {now : String} {u : Task} (h : u ∈ (update_task_status db i st ag now).tasks) :
    ∃ t ∈ db.tasks, u = (if t.id == i then setStatusRow st ag now t else t) := by
  obtain ⟨t, ht, hu⟩ := List.mem_map.mp h
  exact ⟨t, ht, hu.symm⟩

theorem update_status_of_id {db : DB} {i : String} {st : TaskStatus} {ag : Option String}
    {now : String} {u : Task} (h : u ∈ (update_task_status db i st ag now).tasks)
    (hid : u.id = i) : u.status = st := by
  obtain ⟨t, _, rfl⟩ := mem_update_status h
  by_cases hti : t.id = i
  · simp only [hti, beq_self_eq_true, if_true]
    exact setStatusRow_status st ag now t
  · rw [if_neg (by simpa using hti)] at hid
    exact absurd hid hti

theorem update_keeps_of_ne {db : DB} {i : String} {st : TaskStatus} {ag : Option String}
    {now : String} {u : Task} (h : u ∈ (update_task_status db i st ag now).tasks)
    (hid : u.id ≠ i) : u ∈ db.tasks := by
  obtain ⟨t, ht, rfl⟩ := mem_update_status h
  by_cases hti : t.id = i
  · exfalso
    apply hid
    simp only [hti, beq_self_eq_true, if_true]
    rw [setStatusRow_id]
    exact hti
  · simpa [hti] using ht

theorem findTask_update (db : DB) (i j : String) (st : TaskStatus) (ag : Option String)
    (now : String) :
    findTask (update_task_status db i st ag now) j =
      (findTask db j).map (fun t => if t.id == i then setStatusRow st ag now t else t) := by
  unfold findTask update_task_status
  rw [List.find?_map]
  have hp : ((fun t : Task => t.id == j) ∘
      fun t => if (t.id == i) = true then setStatusRow st ag now t else t) =
      (fun t : Task => t.id == j) := by
    funext t
    by_cases hti : t.id = i <;> simp [Function.comp, hti, setStatusRow_id]
  rw [hp]

/-- C2: the transition operation succeeds exactly for the pairs of the
legal-transition table (with the listed resulting state), and rejects every other
(state, action) pair — in particular every action out of a terminal state — with the
invalid-transition error built from the current state and the requested action. -/
theorem C2_validate_transition_table (current : TaskStatus) (action : String) :
    (∀ s, validate_transition current action = Except.ok s ↔
      ((current = TaskStatus.ready ∧ action = "start" ∧ s = TaskStatus.in_progress) ∨
       (current = TaskStatus.ready ∧ action = "done" ∧ s = TaskStatus.done) ∨
       (current = TaskStatus.in_progress ∧ action = "done" ∧ s = TaskStatus.done) ∨
       (current = TaskStatus.in_progress ∧ action = "fail" ∧ s = TaskStatus.ready) ∨
       ((current = TaskStatus.ready ∨ current = TaskStatus.blocked) ∧ action = "skip" ∧
         s = TaskStatus.skipped) ∨
       ((current = TaskStatus.ready ∨ current = TaskStatus.blocked ∨
          current = TaskStatus.in_progress) ∧ action = "cancel" ∧
         s = TaskStatus.cancelled))) ∧
    ((∃ s, validate_transition current action = Except.ok s) ∨
      validate_transition current action =
        Except.error (TaskaiError.invalid_transition current.as_str action)) ∧
    (current.is_terminal = true →
      validate_transition current action =
        Except.error (TaskaiError.invalid_transition current.as_str action)) := by
  refine ⟨?_, ?_, ?_⟩
  · intro s
    unfold validate_transition
    cases current <;> simp [TaskStatus.as_str] <;> split <;> simp_all [eq_comm]
  · unfold validate_transition
    cases current <;> simp [TaskStatus.as_str] <;> split <;> simp_all
  · intro ht
    unfold validate_transition
    cases current <;> simp_all [TaskStatus.is_terminal, TaskStatus.as_str]

/-- Witness for C2: a legal pair succeeds as the table says, and a terminal state
rejects an action with the identifying error. -/
theorem C2_validate_transition_table_witness :
    validate_transition TaskStatus.ready "start" = Except.ok TaskStatus.in_progress ∧
    validate_transition TaskStatus.done "start" =
      Except.error (TaskaiError.invalid_transition "done" "start") := by
  constructor
  · exact (C2_validate_transition_table TaskStatus.ready "start").1
      TaskStatus.in_progress |>.mpr (by simp)
  · exact (C2_validate_transition_table TaskStatus.done "start").2.2 (by decide)

/-- C10: inserting a dependency edge that is already present succeeds (ok, not an
error) and leaves the whole store — in particular the dependency edge set —
unchanged: the duplicate insertion is silently ignored. -/
theorem C10_add_dependency_idempotent (db : DB) (t d : String)
    (hmem : (t, d) ∈ db.deps) : add_dependency db t d = .ok db := by
  unfold add_dependency
  by_cases htd : t = d
  · simp [htd]
  · simp [htd, hmem]

/-- Witness for C10 at a concrete store. -/
theorem C10_add_dependency_idempotent_witness :
    ("a", "b") ∈ (⟨[], [("a", "b")]⟩ : DB).deps ∧
    add_dependency ⟨[], [("a", "b")]⟩ "a" "b" = .ok (⟨[], [("a", "b")]⟩ : DB) :=
  ⟨by simp, C10_add_dependency_idempotent ⟨[], [("a", "b")]⟩ "a" "b" (by simp)⟩

/-! ### Selection lemmas (`next_ready_task`) -/

theorem betterTask_trans {a b c : Task} (h1 : BetterTask a b) (h2 : BetterTask b c) :
    BetterTask a c := by
  unfold BetterTask at *
  omega

theorem notBetter_trans {a b c : Task} (h1 : ¬ BetterTask a b) (h2 : ¬ BetterTask b c) :
    ¬ BetterTask a c := by
  unfold BetterTask at *
  omega

theorem nextFold_spec (l : List Task) : ∀ acc : Option Task,
    (l.foldl nextReadyStep acc = none → acc = none ∧ l = []) ∧
    (∀ r, l.foldl nextReadyStep acc = some r →
      (r ∈ l ∨ acc = some r) ∧ (∀ u ∈ l, ¬ BetterTask u r) ∧
      (∀ b, acc = some b → ¬ BetterTask b r)) := by
  induction l with
  | nil =>
    intro acc
    constructor
    · intro h
      exact ⟨h, rfl⟩
    · intro r h
      simp only [List.foldl_nil] at h
      exact ⟨Or.inr h, by simp, fun b hb => by rw [hb] at h; cases h; simp [BetterTask]⟩
  | cons t rest ih =>
    intro acc
    constructor
    · intro h
      rw [List.foldl_cons] at h
      obtain ⟨hstep, -⟩ := (ih (nextReadyStep acc t)).1 h
      exfalso
      cases acc with
      | none => simp [nextReadyStep] at hstep
      | some b =>
        unfold nextReadyStep at hstep
        by_cases hb : BetterTask t b <;> simp [hb] at hstep
    · intro r h
      rw [List.foldl_cons] at h
      obtain ⟨hmem, hbest, hacc⟩ := (ih (nextReadyStep acc t)).2 r h
      cases acc with
      | none =>
        simp only [nextReadyStep] at hmem hacc
        have hnt : ¬ BetterTask t r := hacc t rfl
        refine ⟨?_, ?_, ?_⟩
        · rcases hmem with hm | hm
          · exact Or.inl (List.mem_cons_of_mem _ hm)
          · cases hm
            exact Or.inl (List.mem_cons_self _ _)
        · intro u hu
          rcases List.mem_cons.mp hu with rfl | hu'
          · exact hnt
          · exact hbest u hu'
        · intro b hb
          cases hb
      | some b =>
        unfold nextReadyStep at hmem hacc
        by_cases hbt : BetterTask t b
        · simp only [hbt, if_true] at hmem hacc
          have hnt : ¬ BetterTask t r := hacc t rfl
          refine ⟨?_, ?_, ?_⟩
          · rcases hmem with hm | hm
            · exact Or.inl (List.mem_cons_of_mem _ hm)
            · cases hm
              exact Or.inl (List.mem_cons_self _ _)
          · intro u hu
            rcases List.mem_cons.mp hu with rfl | hu'
            · exact hnt
            · exact hbest u hu'
          · intro b' hb'
            cases hb'
            intro hbr
            exact hnt (betterTask_trans hbt hbr)
        · simp only [hbt, if_false] at hmem hacc
          have hnb : ¬ BetterTask b r := hacc b rfl
          refine ⟨?_, ?_, ?_⟩
          · rcases hmem with hm | hm
            · exact Or.inl (List.mem_cons_of_mem _ hm)
            · exact Or.inr hm
          · intro u hu
            rcases List.mem_cons.mp hu with rfl | hu'
            · exact notBetter_trans hbt hnb
            · exact hbest u hu'
          · intro b' hb'
            cases hb'
            exact hnb
theorem next_ready_none_iff (db : DB) (plan_id : String) :
    next_ready_task db plan_id = none ↔ readyTasks db plan_id = [] := by
  constructor
  · intro h
    exact ((nextFold_spec (readyTasks db plan_id) none).1 h).2
  · intro h
    show (readyTasks db plan_id).foldl nextReadyStep none = none
    rw [h]
    rfl

theorem next_ready_some_spec (db : DB) (plan_id : String) (r : Task)
    (h : next_ready_task db plan_id = some r) :
    r ∈ readyTasks db plan_id ∧ ∀ u ∈ readyTasks db plan_id, ¬ BetterTask u r := by
  obtain ⟨hmem, hbest, -⟩ := (nextFold_spec (readyTasks db plan_id) none).2 r h
  rcases hmem with hm | hm
  · exact ⟨hm, hbest⟩
  · cases hm

theorem readyTasks_mem_iff (db : DB) (plan_id : String) (t : Task) :
    t ∈ readyTasks db plan_id ↔
      t ∈ db.tasks ∧ t.plan_id = plan_id ∧ t.status = TaskStatus.ready := by
  unfold readyTasks
  rw [List.mem_filter]
  simp

theorem find?_id_of_nodup {l : List Task} (h : (l.map (fun t => t.id)).Nodup)
    {t : Task} (ht : t ∈ l) : l.find? (fun u => u.id == t.id) = some t := by
  induction l with
  | nil => cases ht
  | cons a rest ih =>
    rw [List.map_cons, List.nodup_cons] at h
    rcases List.mem_cons.mp ht with rfl | ht'
    · simp [List.find?_cons]
    · rw [List.find?_cons]
      have hne : (a.id == t.id) = false := by
        refine beq_eq_false_iff_ne.mpr (fun heq => h.1 ?_)
        rw [heq]
        exact List.mem_map.mpr ⟨t, ht', rfl⟩
      rw [hne]
      exact ih h.2 ht'

theorem findTask_of_mem {db : DB} (hids : (db.tasks.map (fun t => t.id)).Nodup)
    {t : Task} (ht : t ∈ db.tasks) : findTask db t.id = some t :=
  find?_id_of_nodup hids ht

/-- Shape of a successful claim: the selected task is updated to in_progress and the
re-fetched record is returned. -/
theorem claim_next_task_some {db : DB} {plan_id : String} {r : Task}
    (hids : (db.tasks.map (fun t => t.id)).Nodup)
    (hsel : next_ready_task db plan_id = some r) (agent : Option String) (now : String) :
    claim_next_task db plan_id agent now =
      .ok (some (setStatusRow TaskStatus.in_progress agent now r),
        update_task_status db r.id TaskStatus.in_progress agent now,
        [Stmt.sqlUpdateTask r.id]) := by
  have hr : r ∈ db.tasks := by
    have := (next_ready_some_spec db plan_id r hsel).1
    exact ((readyTasks_mem_iff db plan_id r).mp this).1
  unfold claim_next_task
  rw [hsel]
  have hfind : findTask (update_task_status db r.id TaskStatus.in_progress agent now) r.id
      = some (setStatusRow TaskStatus.in_progress agent now r) := by
    rw [findTask_update, findTask_of_mem hids hr]
    simp
  simp only [get_task_by_id, hfind]

theorem claim_next_task_none {db : DB} {plan_id : String}
    (hsel : next_ready_task db plan_id = none) (agent : Option String) (now : String) :
    claim_next_task db plan_id agent now = .ok (none, db, []) := by
  unfold claim_next_task
  rw [hsel]

/-- The ready rows of a plan after claiming task id `i`: exactly the previously
ready rows with a different id. -/
theorem readyTasks_update_in_progress (db : DB) (plan_id i : String)
    (agent : Option String) (now : String) :
    readyTasks (update_task_status db i TaskStatus.in_progress agent now) plan_id =
      (readyTasks db plan_id).filter (fun t => !(t.id == i)) := by
  unfold readyTasks update_task_status
  rw [List.filter_map]
  have hsame : ∀ t ∈ db.tasks.filter (((fun t : Task =>
      t.plan_id == plan_id && t.status == TaskStatus.ready)) ∘
      (fun t => if (t.id == i) = true then setStatusRow TaskStatus.in_progress agent now t else t)),
      (if (t.id == i) = true then setStatusRow TaskStatus.in_progress agent now t else t) = t := by
    intro t htm
    have hp := (List.mem_filter.mp htm).2
    by_cases hti : t.id = i
    · exfalso
      simp [Function.comp, hti, setStatusRow] at hp
    · simp [hti]
  rw [List.map_congr_left hsame, List.map_id'']
  rw [List.filter_filter]
  congr 1
  funext t
  by_cases hti : t.id = i <;> simp [Function.comp, hti, setStatusRow]
  exact fun _ => rfl

theorem progress_ready_eq (db : DB) (plan_id : String) :
    (task_progress db plan_id).ready = ((readyTasks db plan_id).length : Int) := by
  simp only [task_progress, readyTasks]
  rw [List.filter_filter]
  congr 2
  apply List.filter_congr
  intro t _
  rw [Bool.and_comm]

theorem run_inner_peek (db : DB) (plan_id : String) (agent : Option String) (now : String) :
    run_inner db plan_id false agent now = (.ok (next_ready_task db plan_id), db, []) := by
  unfold run_inner
  by_cases hpc : (task_progress db plan_id).ready = 0 ∧ (task_progress db plan_id).blocked = 0 ∧
      (task_progress db plan_id).in_progress = 0
  · rw [if_pos hpc]
    have hlen : readyTasks db plan_id = [] := by
      have hq := progress_ready_eq db plan_id
      rw [hpc.1] at hq
      have hl : (readyTasks db plan_id).length = 0 := by exact_mod_cast hq.symm
      exact List.length_eq_zero.mp hl
    rw [(next_ready_none_iff db plan_id).mpr hlen]
  · rw [if_neg hpc]
    simp

/-- C5: `claim_next` and `peek_next` select, among the ready tasks of the plan, one
with the highest priority and, among those, the lowest sort_order, and return none
exactly when no ready task exists; a claim transitions the selected task to
in_progress inside the store (recording the optional actor) and returns the updated
record, while a peek performs no mutation and executes no statement. -/
theorem C5_claim_and_peek_selection (db : DB) (plan_id : String) (agent : Option String)
    (now : String) (hids : (db.tasks.map (fun t => t.id)).Nodup) :
    (∀ r, next_ready_task db plan_id = some r →
      r ∈ db.tasks ∧ r.plan_id = plan_id ∧ r.status = TaskStatus.ready ∧
      (∀ u ∈ db.tasks, u.plan_id = plan_id → u.status = TaskStatus.ready →
        u.priority ≤ r.priority ∧ (u.priority = r.priority → r.sort_order ≤ u.sort_order))) ∧
    (next_ready_task db plan_id = none ↔
      ¬ ∃ u ∈ db.tasks, u.plan_id = plan_id ∧ u.status = TaskStatus.ready) ∧
    (run_inner db plan_id false agent now = (.ok (next_ready_task db plan_id), db, [])) ∧
    (∀ r, next_ready_task db plan_id = some r →
      ∃ upd, claim_next_task db plan_id agent now =
          .ok (some upd, update_task_status db r.id TaskStatus.in_progress agent now,
            [Stmt.sqlUpdateTask r.id]) ∧
        upd.id = r.id ∧ upd.status = TaskStatus.in_progress ∧
        (∀ a, agent = some a → upd.assigned_to = some a) ∧
        (agent = none → upd.assigned_to = r.assigned_to)) ∧
    (next_ready_task db plan_id = none →
      claim_next_task db plan_id agent now = .ok (none, db, [])) := by
  refine ⟨?_, ?_, run_inner_peek db plan_id agent now, ?_, ?_⟩
  · intro r hr
    obtain ⟨hmem, hbest⟩ := next_ready_some_spec db plan_id r hr
    obtain ⟨hrt, hrp, hrs⟩ := (readyTasks_mem_iff db plan_id r).mp hmem
    refine ⟨hrt, hrp, hrs, ?_⟩
    intro u hu hup hus
    have hnb := hbest u ((readyTasks_mem_iff db plan_id u).mpr ⟨hu, hup, hus⟩)
    unfold BetterTask at hnb
    constructor
    · omega
    · intro h
      omega
  · rw [next_ready_none_iff]
    constructor
    · intro h hex
      obtain ⟨u, hu, hup, hus⟩ := hex
      have : u ∈ readyTasks db plan_id := (readyTasks_mem_iff db plan_id u).mpr ⟨hu, hup, hus⟩
      rw [h] at this
      cases this
    · intro h
      by_contra hne
      obtain ⟨u, hu⟩ := List.exists_mem_of_ne_nil _ hne
      obtain ⟨h1, h2, h3⟩ := (readyTasks_mem_iff db plan_id u).mp hu
      exact h ⟨u, h1, h2, h3⟩
  · intro r hr
    refine ⟨setStatusRow TaskStatus.in_progress agent now r,
      claim_next_task_some hids hr agent now, rfl, rfl, ?_, ?_⟩
    · intro a ha
      simp [setStatusRow, ha]
    · intro ha
      simp [setStatusRow, ha]
  · intro hnone
    exact claim_next_task_none hnone agent now

/-- Witness for C5: on a store with one ready and one blocked task the ready one is
selected and claimed with the actor recorded. -/
theorem C5_claim_and_peek_selection_witness :
    ∃ upd,
      claim_next_task
          (⟨[⟨"a", "p", "A", none, TaskStatus.ready, 5, 0, none, none, "t0", "t0", none, none⟩,
             ⟨"b", "p", "B", none, TaskStatus.blocked, 9, 1, none, none, "t0", "t0", none, none⟩],
            [("b", "a")]⟩ : DB) "p" (some "agent7") "t1" =
        .ok (some upd,
          update_task_status
            (⟨[⟨"a", "p", "A", none, TaskStatus.ready, 5, 0, none, none, "t0", "t0", none, none⟩,
               ⟨"b", "p", "B", none, TaskStatus.blocked, 9, 1, none, none, "t0", "t0", none, none⟩],
              [("b", "a")]⟩ : DB) "a" TaskStatus.in_progress (some "agent7") "t1",
          [Stmt.sqlUpdateTask "a"]) ∧
      upd.id = "a" ∧ upd.status = TaskStatus.in_progress ∧
      (∀ a, (some "agent7" : Option String) = some a → upd.assigned_to = some a) ∧
      ((some "agent7" : Option String) = none → upd.assigned_to = none) := by
  obtain ⟨upd, h1, h2, h3, h4, -⟩ :=
    (C5_claim_and_peek_selection
      (⟨[⟨"a", "p", "A", none, TaskStatus.ready, 5, 0, none, none, "t0", "t0", none, none⟩,
         ⟨"b", "p", "B", none, TaskStatus.blocked, 9, 1, none, none, "t0", "t0", none, none⟩],
        [("b", "a")]⟩ : DB) "p" (some "agent7") "t1" (by decide)).2.2.2.1
      ⟨"a", "p", "A", none, TaskStatus.ready, 5, 0, none, none, "t0", "t0", none, none⟩
      (by decide)
  exact ⟨upd, h1, h2, h3, h4, by intro h; cases h⟩

theorem update_ids (db : DB) (i : String) (st : TaskStatus) (ag : Option String)
    (now : String) :
    (update_task_status db i st ag now).tasks.map (fun t => t.id) =
      db.tasks.map (fun t => t.id) := by
  unfold update_task_status
  rw [List.map_map]
  apply List.map_congr_left
  intro t _
  by_cases hti : t.id = i <;> simp [Function.comp, hti, setStatusRow_id]

theorem filter_id_len_le_one {l : List Task} (h : (l.map (fun t => t.id)).Nodup)
    (x : String) : (l.filter (fun t => t.id == x)).length ≤ 1 := by
  induction l with
  | nil => simp
  | cons a rest ih =>
    rw [List.map_cons, List.nodup_cons] at h
    by_cases ha : a.id = x
    · have hnone : rest.filter (fun t => t.id == x) = [] := by
        rw [List.filter_eq_nil_iff]
        intro t ht hbeq
        apply h.1
        rw [ha, ← (beq_iff_eq.mp hbeq)]
        exact List.mem_map.mpr ⟨t, ht, rfl⟩
      simp [ha, hnone]
    · simpa [ha] using ih h.2

theorem length_filter_not_id (l : List Task) (x : String) :
    (l.filter (fun t => !(t.id == x))).length =
      l.length - (l.filter (fun t => t.id == x)).length := by
  induction l with
  | nil => rfl
  | cons a rest ih =>
    have hle := List.length_filter_le (fun t : Task => t.id == x) rest
    by_cases ha : a.id = x <;> simp [ha, ih] <;> omega

theorem readyTasks_nodup_ids {db : DB} (hids : (db.tasks.map (fun t => t.id)).Nodup)
    (plan_id : String) : ((readyTasks db plan_id).map (fun t => t.id)).Nodup :=
  ((List.filter_sublist db.tasks).map (fun t => t.id)).nodup hids

/-- C9: claims on the same plan never hand out the same task.  The store serializes
the two write transactions (`BEGIN IMMEDIATE` with a busy timeout), so two
concurrent `claim_next` calls are modeled as the two serialization orders of the
sequential composition; the claim trace keeps its one write inside the transaction
markers.  With at least two ready tasks the two claims return distinct tasks; with
exactly one, the first claim gets it and the second gets none. -/
theorem C9_concurrent_claims_distinct (db : DB) (plan_id : String)
    (ag1 ag2 : Option String) (now1 now2 : String)
    (hids : (db.tasks.map (fun t => t.id)).Nodup) :
    (∀ t1 db1 tr1 t2 db2 tr2,
      claim_next_task db plan_id ag1 now1 = .ok (some t1, db1, tr1) →
      claim_next_task db1 plan_id ag2 now2 = .ok (some t2, db2, tr2) →
      t1.id ≠ t2.id) ∧
    (2 ≤ (readyTasks db plan_id).length →
      ∃ t1 db1 t2 db2,
        claim_next_task db plan_id ag1 now1 =
          .ok (some t1, db1, [Stmt.sqlUpdateTask t1.id]) ∧
        claim_next_task db1 plan_id ag2 now2 =
          .ok (some t2, db2, [Stmt.sqlUpdateTask t2.id]) ∧
        t1.id ≠ t2.id) ∧
    ((readyTasks db plan_id).length = 1 →
      ∃ t1 db1,
        claim_next_task db plan_id ag1 now1 =
          .ok (some t1, db1, [Stmt.sqlUpdateTask t1.id]) ∧
        claim_next_task db1 plan_id ag2 now2 = .ok (none, db1, [])) ∧
    (writesOutsideTx (run_inner db plan_id true ag1 now1).2.2 0 = 0) := by
  have hready1 : ∀ r1, next_ready_task db plan_id = some r1 →
      readyTasks (update_task_status db r1.id TaskStatus.in_progress ag1 now1) plan_id =
        (readyTasks db plan_id).filter (fun t => !(t.id == r1.id)) := by
    intro r1 _
    exact readyTasks_update_in_progress db plan_id r1.id ag1 now1
  refine ⟨?_, ?_, ?_, ?_⟩
  · intro t1 db1 tr1 t2 db2 tr2 h1 h2
    cases hsel1 : next_ready_task db plan_id with
    | none => rw [claim_next_task_none hsel1] at h1; cases h1
    | some r1 =>
      rw [claim_next_task_some hids hsel1 ag1 now1] at h1
      injection h1 with h1'
      have ht1 : some (setStatusRow TaskStatus.in_progress ag1 now1 r1) = some t1 :=
        congrArg (fun x => x.1) h1'
      have hdb1 : update_task_status db r1.id TaskStatus.in_progress ag1 now1 = db1 :=
        congrArg (fun x => x.2.1) h1'
      have ht1id : t1.id = r1.id := by
        cases ht1
        exact setStatusRow_id _ _ _ _
      have hids1 : (db1.tasks.map (fun t => t.id)).Nodup := by
        rw [← hdb1, update_ids]
        exact hids
      cases hsel2 : next_ready_task db1 plan_id with
      | none => rw [claim_next_task_none hsel2] at h2; cases h2
      | some r2 =>
        rw [claim_next_task_some hids1 hsel2 ag2 now2] at h2
        injection h2 with h2'
        have ht2 : some (setStatusRow TaskStatus.in_progress ag2 now2 r2) = some t2 :=
          congrArg (fun x => x.1) h2'
        have ht2id : t2.id = r2.id := by
          cases ht2
          exact setStatusRow_id _ _ _ _
        have hr2m : r2 ∈ readyTasks db1 plan_id :=
          (next_ready_some_spec db1 plan_id r2 hsel2).1
        rw [← hdb1, hready1 r1 hsel1] at hr2m
        have := (List.mem_filter.mp hr2m).2
        rw [ht1id, ht2id]
        intro heq
        rw [heq] at this
        simp at this
  · intro hlen
    cases hsel1 : next_ready_task db plan_id with
    | none =>
      rw [next_ready_none_iff] at hsel1
      rw [hsel1] at hlen
      simp at hlen
    | some r1 =>
      have hr1m := (next_ready_some_spec db plan_id r1 hsel1).1
      have hrn := readyTasks_nodup_ids hids plan_id
      have hmost := filter_id_len_le_one hrn r1.id
      have hflen := length_filter_not_id (readyTasks db plan_id) r1.id
      have hlen1 : 1 ≤ ((readyTasks db plan_id).filter (fun t => !(t.id == r1.id))).length := by
        omega
      have hne : (readyTasks (update_task_status db r1.id TaskStatus.in_progress ag1 now1)
          plan_id) ≠ [] := by
        rw [hready1 r1 hsel1]
        intro hnil
        rw [hnil] at hlen1
        simp at hlen1
      cases hsel2 : next_ready_task
          (update_task_status db r1.id TaskStatus.in_progress ag1 now1) plan_id with
      | none =>
        rw [next_ready_none_iff] at hsel2
        exact absurd hsel2 hne
      | some r2 =>
        have hids1 : ((update_task_status db r1.id TaskStatus.in_progress ag1
            now1).tasks.map (fun t => t.id)).Nodup := by
          rw [update_ids]
          exact hids
        refine ⟨setStatusRow TaskStatus.in_progress ag1 now1 r1,
          update_task_status db r1.id TaskStatus.in_progress ag1 now1,
          setStatusRow TaskStatus.in_progress ag2 now2 r2,
          update_task_status (update_task_status db r1.id TaskStatus.in_progress ag1 now1)
            r2.id TaskStatus.in_progress ag2 now2, ?_, ?_, ?_⟩
        · rw [claim_next_task_some hids hsel1 ag1 now1, setStatusRow_id]
        · rw [claim_next_task_some hids1 hsel2 ag2 now2, setStatusRow_id]
        · rw [setStatusRow_id, setStatusRow_id]
          have hr2m := (next_ready_some_spec _ plan_id r2 hsel2).1
          rw [hready1 r1 hsel1] at hr2m
          have := (List.mem_filter.mp hr2m).2
          intro heq
          rw [heq] at this
          simp at this
  · intro hlen
    obtain ⟨x, hx⟩ := List.length_eq_one.mp hlen
    cases hsel1 : next_ready_task db plan_id with
    | none =>
      rw [next_ready_none_iff, hx] at hsel1
      cases hsel1
    | some r1 =>
      have hr1m := (next_ready_some_spec db plan_id r1 hsel1).1
      rw [hx] at hr1m
      have hr1x : r1 = x := by
        rcases List.mem_singleton.mp hr1m with h
        exact h
      have hempty : readyTasks (update_task_status db r1.id TaskStatus.in_progress ag1 now1)
          plan_id = [] := by
        rw [hready1 r1 hsel1, hx, hr1x]
        simp
      refine ⟨setStatusRow TaskStatus.in_progress ag1 now1 r1,
        update_task_status db r1.id TaskStatus.in_progress ag1 now1, ?_, ?_⟩
      · rw [claim_next_task_some hids hsel1 ag1 now1, setStatusRow_id]
      · exact claim_next_task_none ((next_ready_none_iff _ plan_id).mpr hempty) ag2 now2
  · unfold run_inner
    by_cases hpc : (task_progress db plan_id).ready = 0 ∧
        (task_progress db plan_id).blocked = 0 ∧ (task_progress db plan_id).in_progress = 0
    · rw [if_pos hpc]
      rfl
    · rw [if_neg hpc]
      simp only [if_true]
      cases hsel : next_ready_task db plan_id with
      | none =>
        rw [claim_next_task_none hsel ag1 now1]
        rfl
      | some r =>
        unfold claim_next_task
        rw [hsel]
        cases hget : get_task_by_id
            (update_task_status db r.id TaskStatus.in_progress ag1 now1) r.id with
        | ok u => simp [hget, writesOutsideTx]
        | error e => simp [hget, writesOutsideTx]

/-- Witness for C9: on a store with two ready tasks, two serialized claims return two
distinct tasks. -/
theorem C9_concurrent_claims_distinct_witness :
    ∃ t1 db1 t2 db2,
      claim_next_task
          (⟨[⟨"a", "p", "A", none, TaskStatus.ready, 1, 0, none, none, "t0", "t0", none, none⟩,
             ⟨"b", "p", "B", none, TaskStatus.ready, 2, 1, none, none, "t0", "t0", none, none⟩],
            []⟩ : DB) "p" none "n1" = .ok (some t1, db1, [Stmt.sqlUpdateTask t1.id]) ∧
      claim_next_task db1 "p" none "n2" = .ok (some t2, db2, [Stmt.sqlUpdateTask t2.id]) ∧
      t1.id ≠ t2.id :=
  (C9_concurrent_claims_distinct
    (⟨[⟨"a", "p", "A", none, TaskStatus.ready, 1, 0, none, none, "t0", "t0", none, none⟩,
       ⟨"b", "p", "B", none, TaskStatus.ready, 2, 1, none, none, "t0", "t0", none, none⟩],
      []⟩ : DB) "p" none none "n1" "n2" (by decide)).2.1 (by decide)

/-! ### Cascade lemmas -/

theorem all_done_update_irrelevant (db : DB) (i : String) (st : TaskStatus)
    (ag : Option String) (now : String) (x : String) (hst : st ≠ TaskStatus.done)
    (hold : ∀ t, findTask db i = some t → t.status ≠ TaskStatus.done) :
    all_dependencies_done (update_task_status db i st ag now) x =
      all_dependencies_done db x := by
  unfold all_dependencies_done
  rw [update_deps]
  congr 1
  congr 1
  apply List.filter_congr
  intro e _
  congr 1
  rw [findTask_update]
  cases hf : findTask db e.2 with
  | none => rfl
  | some u =>
    simp only [Option.map_some']
    by_cases hui : u.id = i
    · rw [if_pos (by simpa using hui)]
      have hu_is : findTask db i = some u := by
        rw [← hui, (findTask_mem hf).2]
        exact hf
      have h1 : (setStatusRow st ag now u).status = st := setStatusRow_status st ag now u
      rw [h1]
      have h2 := hold u hu_is
      simp [bne, hst, h2]
    · rw [if_neg (by simpa using hui)]

theorem findTask_isSome_update (db : DB) (i x : String) (st : TaskStatus)
    (ag : Option String) (now : String) :
    (findTask (update_task_status db i st ag now) x).isSome = (findTask db x).isSome := by
  rw [findTask_update]
  cases findTask db x <;> rfl

theorem cascadePromotes_update_irrelevant (db : DB) (i x : String)
    (ag : Option String) (now : String) (hx : x ≠ i)
    (hold : ∀ t, findTask db i = some t → t.status ≠ TaskStatus.done) :
    cascadePromotes (update_task_status db i TaskStatus.ready ag now) x =
      cascadePromotes db x := by
  unfold cascadePromotes
  rw [findTask_update]
  cases hf : findTask db x with
  | none => rfl
  | some u =>
    have hui : u.id ≠ i := by
      intro h
      exact hx (((findTask_mem hf).2 ▸ h : x = i))
    simp only [Option.map_some']
    rw [if_neg (by simpa using hui)]
    congr 1
    exact all_done_update_irrelevant db i TaskStatus.ready ag now x (by simp) hold


theorem exceptBind_ok {α β : Type} (a : α) (k : α → Except TaskaiError β) :
    (Except.ok a >>= k) = k a := rfl

theorem exceptBind_error {α β : Type} (e : TaskaiError) (k : α → Except TaskaiError β) :
    ((Except.error e : Except TaskaiError α) >>= k) = Except.error e := rfl

/-- Full characterization of the cascade loop: it promotes exactly the listed
dependents that are currently blocked with all dependencies done — judged on the
state at entry, with no recursion into further dependents — and returns their
re-fetched records; the promotion (`setStatusRow` with ready) sets no start
timestamp. -/
theorem cascade_go_char (now : String) : ∀ (l : List String) (db : DB),
    (∀ i ∈ l, (findTask db i).isSome) →
    (db.tasks.map (fun t => t.id)).Nodup →
    l.Nodup →
    ∃ newly db2 tr,
      cascade_go now db l = .ok (newly, db2, tr) ∧
      db2.deps = db.deps ∧
      db2.tasks = db.tasks.map (fun t =>
        if t.id ∈ l ∧ cascadePromotes db t.id = true then
          setStatusRow TaskStatus.ready none now t
        else t) ∧
      newly.map (fun t => t.id) = l.filter (fun i => cascadePromotes db i) ∧
      (∀ t ∈ newly, ∃ orig ∈ db.tasks,
        t = setStatusRow TaskStatus.ready none now orig) := by
  intro l
  induction l with
  | nil =>
    intro db _ _ _
    refine ⟨[], db, [], rfl, rfl, ?_, by simp, by simp⟩
    have hs : ∀ t ∈ db.tasks,
        (if t.id ∈ ([] : List String) ∧ cascadePromotes db t.id = true then
          setStatusRow TaskStatus.ready none now t else t) = t := by
      intro t _
      simp
    rw [List.map_congr_left hs, List.map_id'']
    exact fun _ => rfl
  | cons i rest ih =>
    intro db hfind hids hnodup
    rw [List.nodup_cons] at hnodup
    obtain ⟨t, hget⟩ := Option.isSome_iff_exists.mp (hfind i (List.mem_cons_self i rest))
    have htid : t.id = i := (findTask_mem hget).2
    have htm : t ∈ db.tasks := (findTask_mem hget).1
    have hok : get_task_by_id db i = .ok t := by
      unfold get_task_by_id
      rw [hget]
    have huniq : ∀ u ∈ db.tasks, u.id = i → u = t := by
      intro u hu hui
      have h1 : findTask db u.id = some u := findTask_of_mem hids hu
      rw [hui, hget] at h1
      exact (Option.some.injEq .. ▸ h1).symm
    by_cases hbl : t.status = TaskStatus.blocked
    · by_cases hdone : all_dependencies_done db i = true
      · -- promoted
        have hprom : cascadePromotes db i = true := by
          unfold cascadePromotes
          rw [hget]
          simp [hbl, hdone]
        have hup : get_task_by_id (update_task_status db i TaskStatus.ready none now) i
            = .ok (setStatusRow TaskStatus.ready none now t) := by
          unfold get_task_by_id
          rw [findTask_update, hget]
          simp [htid]
        have hstable : ∀ x, x ≠ i → cascadePromotes
            (update_task_status db i TaskStatus.ready none now) x = cascadePromotes db x := by
          intro x hx
          refine cascadePromotes_update_irrelevant db i x none now hx ?_
          intro u hu
          rw [hget] at hu
          cases hu
          rw [hbl]
          simp
        obtain ⟨newly', db2, tr', heq', hdeps', hchar', hmapids', hmem'⟩ :=
          ih (update_task_status db i TaskStatus.ready none now)
            (fun x hx => by rw [findTask_isSome_update]; exact hfind x (List.mem_cons_of_mem _ hx))
            (by rw [update_ids]; exact hids) hnodup.2
        refine ⟨setStatusRow TaskStatus.ready none now t :: newly', db2,
          Stmt.sqlUpdateTask i :: tr', ?_, ?_, ?_, ?_, ?_⟩
        · simp only [cascade_go, hok, hbl, hdone, hup, heq']
          simp
        · rw [hdeps', update_deps]
        · rw [hchar']
          have hdb1 : (update_task_status db i TaskStatus.ready none now).tasks =
              db.tasks.map (fun t => if t.id == i then setStatusRow TaskStatus.ready none now t
                else t) := rfl
          rw [hdb1, List.map_map]
          apply List.map_congr_left
          intro u hu
          simp only [Function.comp]
          by_cases hui : u.id = i
          · simp [hui, hprom, hnodup.1, setStatusRow_id]
          · simp only [beq_iff_eq, hui, if_false]
            by_cases hr : u.id ∈ rest
            · simp [hui, hr, hstable u.id hui]
            · simp [hui, hr, hstable u.id hui]
        · rw [List.map_cons, setStatusRow_id, htid]
          rw [List.filter_cons_of_pos (by simpa using hprom)]
          congr 1
          rw [hmapids']
          apply List.filter_congr
          intro x hx
          rw [hstable x (fun h => hnodup.1 (h ▸ hx))]
        · intro u hu
          rcases List.mem_cons.mp hu with rfl | hu'
          · exact ⟨t, htm, rfl⟩
          · obtain ⟨orig, horig, hueq⟩ := hmem' u hu'
            obtain ⟨w, hw, hweq⟩ := mem_update_status horig
            by_cases hwi : w.id = i
            · rw [if_pos (by simpa using hwi)] at hweq
              refine ⟨w, hw, ?_⟩
              rw [hueq, hweq]
              rfl
            · rw [if_neg (by simpa using hwi)] at hweq
              exact ⟨w, hw, by rw [hueq, hweq]⟩
      · -- blocked but dependencies unfinished
        have hprom : cascadePromotes db i = false := by
          unfold cascadePromotes
          rw [hget]
          simp [hdone]
        obtain ⟨newly', db2, tr', heq', hdeps', hchar', hmapids', hmem'⟩ :=
          ih db (fun x hx => hfind x (List.mem_cons_of_mem _ hx)) hids hnodup.2
        refine ⟨newly', db2, tr', ?_, hdeps', ?_, ?_, hmem'⟩
        · simp only [cascade_go, hok, hbl, hdone]
          simp only [heq']
          simp
        · rw [hchar']
          apply List.map_congr_left
          intro u hu
          by_cases hui : u.id = i
          · simp [hui, hprom, hnodup.1]
          · simp [hui]
        · rw [hmapids', List.filter_cons_of_neg (by simp [hprom])]
    · -- dependent not blocked
      have hprom : cascadePromotes db i = false := by
        unfold cascadePromotes
        rw [hget]
        simp [hbl]
      obtain ⟨newly', db2, tr', heq', hdeps', hchar', hmapids', hmem'⟩ :=
        ih db (fun x hx => hfind x (List.mem_cons_of_mem _ hx)) hids hnodup.2
      refine ⟨newly', db2, tr', ?_, hdeps', ?_, ?_, hmem'⟩
      · simp only [cascade_go, hok]
        rw [if_pos (by simp [hbl])]
        exact heq'
      · rw [hchar']
        apply List.map_congr_left
        intro u hu
        by_cases hui : u.id = i
        · simp [hui, hprom, hnodup.1]
        · simp [hui]
      · rw [hmapids', List.filter_cons_of_neg (by simp [hprom])]

theorem get_task_after_update {db : DB} (hids : (db.tasks.map (fun t => t.id)).Nodup)
    {task : Task} (htm : task ∈ db.tasks) (act : TaskStatus) (agent : Option String)
    (now : String) :
    get_task_by_id (update_task_status db task.id act agent now) task.id =
      .ok (setStatusRow act agent now task) := by
  unfold get_task_by_id
  rw [findTask_update, findTask_of_mem hids htm]
  simp

/-- Shape of a successful transition whose resulting status is not done: one
status update, no cascade. -/
theorem run_transition_no_cascade {db : DB} {plan_id id action : String}
    {agent : Option String} {now : String} {task : Task} {s act : TaskStatus}
    (hids : (db.tasks.map (fun t => t.id)).Nodup)
    (hres : resolve_task db plan_id id = .ok task)
    (hval : validate_transition task.status action = .ok s)
    (hact : (if s = TaskStatus.ready ∧ action = "fail" ∧
        ¬ all_dependencies_done db task.id then TaskStatus.blocked else s) = act)
    (hnd : act ≠ TaskStatus.done) :
    run_transition db plan_id id action agent now =
      (.ok (setStatusRow act agent now task, []),
       update_task_status db task.id act agent now,
       [Stmt.txBegin, Stmt.sqlUpdateTask task.id, Stmt.txCommit]) := by
  have htm : task ∈ db.tasks := (resolve_task_ok hres).1
  unfold run_transition
  simp only [hres, hval, hact]
  rw [if_neg hnd]
  simp only [get_task_after_update hids htm act agent now]
  rfl

theorem find?_map_id_pres {l : List Task} {f : Task → Task} (hf : ∀ t, (f t).id = t.id)
    (j : String) :
    (l.map f).find? (fun t => t.id == j) = (l.find? (fun t => t.id == j)).map f := by
  rw [List.find?_map]
  have hp : ((fun t : Task => t.id == j) ∘ f) = fun t : Task => t.id == j := by
    funext t
    simp [Function.comp, hf t]
  rw [hp]

theorem get_dependents_nodup {db : DB} (h : db.deps.Nodup) (c : String) :
    (get_dependents db c).Nodup := by
  unfold get_dependents
  refine List.Nodup.map_on ?_ (h.filter _)
  intro e1 h1 e2 h2 heq
  have hc1 := (List.mem_filter.mp h1).2
  have hc2 := (List.mem_filter.mp h2).2
  simp only [beq_iff_eq] at hc1 hc2
  cases e1
  cases e2
  simp_all

theorem mem_get_dependents {db : DB} {c x : String} :
    x ∈ get_dependents db c ↔ (x, c) ∈ db.deps := by
  unfold get_dependents
  simp only [List.mem_map, List.mem_filter]
  constructor
  · rintro ⟨⟨a, b⟩, ⟨hm, hb⟩, rfl⟩
    simp only [beq_iff_eq] at hb
    simpa [hb] using hm
  · intro h
    exact ⟨(x, c), ⟨h, by simp⟩, rfl⟩

/-- Shape of a successful `done` transition: the task is completed and the cascade
promotes exactly its currently blocked direct dependents whose dependencies are all
done in the completed state. -/
theorem run_transition_done_char {db : DB} {plan_id id action : String}
    {agent : Option String} {now : String} {task : Task}
    (hids : (db.tasks.map (fun t => t.id)).Nodup)
    (hdeps : db.deps.Nodup)
    (hdepwf : ∀ e ∈ db.deps, (findTask db e.1).isSome)
    (hres : resolve_task db plan_id id = .ok task)
    (hval : validate_transition task.status action = .ok TaskStatus.done) :
    ∃ newly db2 tr,
      run_transition db plan_id id action agent now =
        (.ok (setStatusRow TaskStatus.done agent now task, newly), db2,
         [Stmt.txBegin, Stmt.sqlUpdateTask task.id] ++ tr ++ [Stmt.txCommit]) ∧
      db2.deps = db.deps ∧
      db2.tasks = (update_task_status db task.id TaskStatus.done agent now).tasks.map
        (fun t => if t.id ∈ get_dependents db task.id ∧
            cascadePromotes (update_task_status db task.id TaskStatus.done agent now) t.id
              = true then
          setStatusRow TaskStatus.ready none now t
        else t) ∧
      newly.map (fun t => t.id) = (get_dependents db task.id).filter
        (fun i => cascadePromotes (update_task_status db task.id TaskStatus.done agent now) i) ∧
      (∀ t ∈ newly, ∃ orig ∈ (update_task_status db task.id TaskStatus.done agent now).tasks,
        t = setStatusRow TaskStatus.ready none now orig) := by
  have htm : task ∈ db.tasks := (resolve_task_ok hres).1
  obtain ⟨newly, db2, tr, heq, hdeps2, hchar, hmapids, hmem⟩ :=
    cascade_go_char now (get_dependents db task.id)
      (update_task_status db task.id TaskStatus.done agent now)
      (fun x hx => by
        rw [findTask_isSome_update]
        exact hdepwf (x, task.id) (mem_get_dependents.mp hx))
      (by rw [update_ids]; exact hids)
      (get_dependents_nodup hdeps task.id)
  have hfind2 : findTask db2 task.id = some (setStatusRow TaskStatus.done agent now task) := by
    unfold findTask
    rw [hchar]
    rw [find?_map_id_pres (fun t => by
      by_cases hc : t.id ∈ get_dependents db task.id ∧
          cascadePromotes (update_task_status db task.id TaskStatus.done agent now) t.id = true
      · rw [if_pos hc, setStatusRow_id]
      · rw [if_neg hc])]
    have h1 : findTask (update_task_status db task.id TaskStatus.done agent now) task.id =
        some (setStatusRow TaskStatus.done agent now task) := by
      rw [findTask_update, findTask_of_mem hids htm]
      simp
    rw [show (update_task_status db task.id TaskStatus.done agent now).tasks.find?
        (fun t => t.id == task.id) = some (setStatusRow TaskStatus.done agent now task)
      from h1]
    simp only [Option.map_some']
    have hnp : ¬ ((setStatusRow TaskStatus.done agent now task).id ∈
        get_dependents db task.id ∧
        cascadePromotes (update_task_status db task.id TaskStatus.done agent now)
          (setStatusRow TaskStatus.done agent now task).id = true) := by
      intro hc
      have hp := hc.2
      unfold cascadePromotes at hp
      rw [setStatusRow_id] at hp
      rw [findTask_update, findTask_of_mem hids htm] at hp
      simp [setStatusRow_status] at hp
    rw [if_neg hnp]
  have hget2 : get_task_by_id db2 task.id =
      .ok (setStatusRow TaskStatus.done agent now task) := by
    unfold get_task_by_id
    rw [hfind2]
  refine ⟨newly, db2, tr, ?_, by rw [hdeps2, update_deps], hchar, hmapids, hmem⟩
  unfold run_transition
  simp only [hres, hval]
  have hact : (if TaskStatus.done = TaskStatus.ready ∧ action = "fail" ∧
      ¬ all_dependencies_done db task.id then TaskStatus.blocked
    else TaskStatus.done) = TaskStatus.done := by simp
  simp only [hact, reduceIte]
  unfold cascade_unblock
  have hdeps_same : get_dependents (update_task_status db task.id TaskStatus.done agent now)
      task.id = get_dependents db task.id := rfl
  rw [hdeps_same, heq]
  simp only [hget2]
  rfl

theorem validate_cancel_skip {st : TaskStatus} {a : String} {s : TaskStatus}
    (h : validate_transition st a = .ok s) (ha : a = "cancel" ∨ a = "skip") :
    s = TaskStatus.cancelled ∨ s = TaskStatus.skipped := by
  rcases ha with rfl | rfl <;> cases st <;>
    simp only [validate_transition] at h <;> simp_all [eq_comm]

/-- C3: a `fail` on an in_progress task lands on ready when every dependency is done
at that moment and on blocked otherwise, and `fail` is the only action whose target
state reads dependency state — every other action's resulting status is exactly the
transition table's output. -/
theorem C3_fail_reevaluates_dependencies (db : DB) (plan_id id : String)
    (agent : Option String) (now : String) (task : Task)
    (hids : (db.tasks.map (fun t => t.id)).Nodup)
    (hres : resolve_task db plan_id id = .ok task) :
    (task.status = TaskStatus.in_progress →
      run_transition db plan_id id "fail" agent now =
        (.ok (setStatusRow (if all_dependencies_done db task.id then TaskStatus.ready
            else TaskStatus.blocked) agent now task, []),
         update_task_status db task.id
           (if all_dependencies_done db task.id then TaskStatus.ready
            else TaskStatus.blocked) agent now,
         [Stmt.txBegin, Stmt.sqlUpdateTask task.id, Stmt.txCommit]) ∧
      (∀ u ∈ (run_transition db plan_id id "fail" agent now).2.1.tasks, u.id = task.id →
        u.status = (if all_dependencies_done db task.id then TaskStatus.ready
          else TaskStatus.blocked))) ∧
    (∀ action s, action ≠ "fail" →
      db.deps.Nodup → (∀ e ∈ db.deps, (findTask db e.1).isSome) →
      validate_transition task.status action = .ok s →
      ∀ u ∈ (run_transition db plan_id id action agent now).2.1.tasks, u.id = task.id →
        u.status = s) := by
  constructor
  · intro hst
    have hval : validate_transition task.status "fail" = .ok TaskStatus.ready := by
      rw [hst]
      rfl
    have hshape := @run_transition_no_cascade db plan_id id "fail" agent now task
      TaskStatus.ready
      (if all_dependencies_done db task.id
        then TaskStatus.ready else TaskStatus.blocked) hids hres hval ?hact ?hnd
    case hact =>
      by_cases hdep : all_dependencies_done db task.id
      · simp [hdep]
      · simp [hdep]
    case hnd =>
      by_cases hdep : all_dependencies_done db task.id <;> simp [hdep]
    refine ⟨hshape, ?_⟩
    intro u hu hui
    rw [hshape] at hu
    exact update_status_of_id hu hui
  · intro action s hne hdeps hdepwf hval
    by_cases hsd : s = TaskStatus.done
    · subst hsd
      obtain ⟨newly, db2, tr, hshape, _, hchar, -, -⟩ :=
        run_transition_done_char hids hdeps hdepwf hres hval
      intro u hu hui
      rw [hshape] at hu
      simp only at hu
      rw [hchar] at hu
      obtain ⟨w, hw, hweq⟩ := List.mem_map.mp hu
      have hwid : w.id = task.id := by
        by_cases hc : w.id ∈ get_dependents db task.id ∧
            cascadePromotes (update_task_status db task.id TaskStatus.done agent now) w.id
              = true
        · rw [if_pos hc] at hweq
          rw [← hweq] at hui
          rw [setStatusRow_id] at hui
          exact hui
        · rw [if_neg hc] at hweq
          rw [← hweq] at hui
          exact hui
      have hwst : w.status = TaskStatus.done := update_status_of_id hw hwid
      have hnp : ¬ (w.id ∈ get_dependents db task.id ∧
          cascadePromotes (update_task_status db task.id TaskStatus.done agent now) w.id
            = true) := by
        intro hc
        have hp := hc.2
        unfold cascadePromotes at hp
        rw [hwid] at hp
        have hf1 : findTask (update_task_status db task.id TaskStatus.done agent now)
            task.id = some (setStatusRow TaskStatus.done agent now task) := by
          rw [findTask_update, findTask_of_mem hids (resolve_task_ok hres).1]
          simp
        rw [hf1] at hp
        simp [setStatusRow_status] at hp
      rw [if_neg hnp] at hweq
      rw [← hweq, hwst]
    · have hact : (if s = TaskStatus.ready ∧ action = "fail" ∧
          ¬ all_dependencies_done db task.id then TaskStatus.blocked else s) = s := by
        simp [hne]
      have hshape := @run_transition_no_cascade db plan_id id action agent now task
        s s hids hres hval hact hsd
      intro u hu hui
      rw [hshape] at hu
      exact update_status_of_id hu hui

/-- Witness for C3: failing an in_progress task whose one dependency is cancelled
leaves it blocked. -/
theorem C3_fail_reevaluates_dependencies_witness :
    (setStatusRow TaskStatus.blocked none "t1"
        (wTask "a" TaskStatus.in_progress 0 0)).status
      = (if all_dependencies_done (⟨[wTask "a" TaskStatus.in_progress 0 0,
        wTask "b" TaskStatus.cancelled 0 1], [("a", "b")]⟩ : DB)
        (wTask "a" TaskStatus.in_progress 0 0).id then TaskStatus.ready
        else TaskStatus.blocked) :=
  ((C3_fail_reevaluates_dependencies (⟨[wTask "a" TaskStatus.in_progress 0 0,
      wTask "b" TaskStatus.cancelled 0 1], [("a", "b")]⟩ : DB) "p" "a" none "t1"
      (wTask "a" TaskStatus.in_progress 0 0) (by decide) (by decide)).1 (by decide)).2
    (setStatusRow TaskStatus.blocked none "t1"
      (wTask "a" TaskStatus.in_progress 0 0)) (by decide) (by decide)

/-- C4: cascade fires only on entering done — a cancel or skip leaves the edge set
and every other task's row untouched and reports no newly-unblocked tasks — while on
done the run promotes to ready exactly the direct dependents of the completed task
that are blocked with all dependencies now done, sets no start timestamp on them,
and recurses no further: every other row is unchanged. -/
theorem C4_cascade_only_on_done (db : DB) (plan_id id : String)
    (agent : Option String) (now : String) (task : Task)
    (hids : (db.tasks.map (fun t => t.id)).Nodup)
    (hdeps : db.deps.Nodup)
    (hdepwf : ∀ e ∈ db.deps, (findTask db e.1).isSome)
    (hres : resolve_task db plan_id id = .ok task) :
    (∀ action s, (action = "cancel" ∨ action = "skip") →
      validate_transition task.status action = .ok s →
      (run_transition db plan_id id action agent now).1 =
        .ok (setStatusRow s agent now task, []) ∧
      (run_transition db plan_id id action agent now).2.1.deps = db.deps ∧
      ∀ u ∈ db.tasks, u.id ≠ task.id →
        u ∈ (run_transition db plan_id id action agent now).2.1.tasks) ∧
    (∀ action, validate_transition task.status action = .ok TaskStatus.done →
      ∃ newly db2 tr,
        run_transition db plan_id id action agent now =
          (.ok (setStatusRow TaskStatus.done agent now task, newly), db2,
           [Stmt.txBegin, Stmt.sqlUpdateTask task.id] ++ tr ++ [Stmt.txCommit]) ∧
        db2.deps = db.deps ∧
        ∀ u ∈ db.tasks, u.id ≠ task.id →
          (((u.id, task.id) ∈ db.deps ∧ u.status = TaskStatus.blocked ∧
              all_dependencies_done
                (update_task_status db task.id TaskStatus.done agent now) u.id = true) →
            setStatusRow TaskStatus.ready none now u ∈ db2.tasks ∧
            u.id ∈ newly.map (fun t => t.id) ∧
            (setStatusRow TaskStatus.ready none now u).started_at = u.started_at) ∧
          (¬ ((u.id, task.id) ∈ db.deps ∧ u.status = TaskStatus.blocked ∧
              all_dependencies_done
                (update_task_status db task.id TaskStatus.done agent now) u.id = true) →
            u ∈ db2.tasks ∧ u.id ∉ newly.map (fun t => t.id))) := by
  constructor
  · intro action s hcs hval
    have hsd : s ≠ TaskStatus.done := by
      rcases validate_cancel_skip hval hcs with h | h <;> subst h <;> simp
    have hact : (if s = TaskStatus.ready ∧ action = "fail" ∧
        ¬ all_dependencies_done db task.id then TaskStatus.blocked else s) = s := by
      rcases hcs with rfl | rfl <;> simp
    have hshape := @run_transition_no_cascade db plan_id id action agent now task
      s s hids hres hval hact hsd
    rw [hshape]
    refine ⟨rfl, update_deps .., ?_⟩
    intro u hu hne
    simp only [update_task_status]
    exact List.mem_map.mpr ⟨u, hu, by simp [hne]⟩
  · intro action hval
    obtain ⟨newly, db2, tr, hshape, hdeps2, hchar, hmapids, -⟩ :=
      run_transition_done_char hids hdeps hdepwf hres hval
    refine ⟨newly, db2, tr, hshape, hdeps2, ?_⟩
    intro u hu hne
    have hu1 : u ∈ (update_task_status db task.id TaskStatus.done agent now).tasks := by
      simp only [update_task_status]
      exact List.mem_map.mpr ⟨u, hu, by simp [hne]⟩
    have hfu1 : findTask (update_task_status db task.id TaskStatus.done agent now) u.id
        = some u := by
      rw [findTask_update, findTask_of_mem hids hu]
      simp [hne]
    have hpromiff : cascadePromotes
        (update_task_status db task.id TaskStatus.done agent now) u.id = true ↔
        (u.status = TaskStatus.blocked ∧ all_dependencies_done
          (update_task_status db task.id TaskStatus.done agent now) u.id = true) := by
      unfold cascadePromotes
      rw [hfu1]
      simp
    have hcondiff : (u.id ∈ get_dependents db task.id ∧ cascadePromotes
          (update_task_status db task.id TaskStatus.done agent now) u.id = true) ↔
        ((u.id, task.id) ∈ db.deps ∧ u.status = TaskStatus.blocked ∧
          all_dependencies_done
            (update_task_status db task.id TaskStatus.done agent now) u.id = true) := by
      rw [hpromiff, mem_get_dependents]
    constructor
    · intro hc
      have hcnd := hcondiff.mpr hc
      refine ⟨?_, ?_, ?_⟩
      · rw [hchar]
        refine List.mem_map.mpr ⟨u, hu1, ?_⟩
        rw [if_pos hcnd]
      · rw [hmapids]
        exact List.mem_filter.mpr ⟨mem_get_dependents.mpr hc.1, hpromiff.mpr ⟨hc.2.1, hc.2.2⟩⟩
      · simp [setStatusRow]
    · intro hc
      have hcnd : ¬ (u.id ∈ get_dependents db task.id ∧ cascadePromotes
          (update_task_status db task.id TaskStatus.done agent now) u.id = true) :=
        fun h => hc (hcondiff.mp h)
      refine ⟨?_, ?_⟩
      · rw [hchar]
        refine List.mem_map.mpr ⟨u, hu1, ?_⟩
        rw [if_neg hcnd]
      · rw [hmapids]
        intro hmemf
        have hmf := List.mem_filter.mp hmemf
        exact hcnd ⟨hmf.1, hmf.2⟩

/-- Witness for C4: completing "a" promotes its blocked dependent "b" (whose only
dependency becomes done) to ready with no start timestamp, while a cancel of "a"
in a fresh copy of the same state leaves "b" untouched. -/
theorem C4_cascade_only_on_done_witness :
    ((run_transition (⟨[wTask "a" TaskStatus.in_progress 0 0,
        wTask "b" TaskStatus.blocked 0 1], [("b", "a")]⟩ : DB)
        "p" "a" "cancel" none "t1").2.1.deps =
      (⟨[wTask "a" TaskStatus.in_progress 0 0,
        wTask "b" TaskStatus.blocked 0 1], [("b", "a")]⟩ : DB).deps) ∧
    (∃ newly db2 tr,
      run_transition (⟨[wTask "a" TaskStatus.in_progress 0 0,
          wTask "b" TaskStatus.blocked 0 1], [("b", "a")]⟩ : DB)
          "p" "a" "done" none "t1" =
        (.ok (setStatusRow TaskStatus.done none "t1"
            (wTask "a" TaskStatus.in_progress 0 0), newly), db2,
         [Stmt.txBegin, Stmt.sqlUpdateTask "a"] ++ tr ++ [Stmt.txCommit]) ∧
      setStatusRow TaskStatus.ready none "t1" (wTask "b" TaskStatus.blocked 0 1)
        ∈ db2.tasks ∧
      "b" ∈ newly.map (fun t => t.id) ∧
      (setStatusRow TaskStatus.ready none "t1" (wTask "b" TaskStatus.blocked 0 1)).started_at
        = (wTask "b" TaskStatus.blocked 0 1).started_at) := by
  have h := C4_cascade_only_on_done
    (⟨[wTask "a" TaskStatus.in_progress 0 0,
      wTask "b" TaskStatus.blocked 0 1], [("b", "a")]⟩ : DB)
    "p" "a" none "t1" (wTask "a" TaskStatus.in_progress 0 0)
    (by decide) (by decide) (by decide) (by decide)
  constructor
  · exact ((h.1 "cancel" TaskStatus.cancelled (Or.inl rfl) (by decide)).2).1
  · obtain ⟨newly, db2, tr, hshape, -, hchar⟩ := h.2 "done" (by decide)
    have hb := (hchar (wTask "b" TaskStatus.blocked 0 1) (by decide) (by decide)).1
      (by decide)
    exact ⟨newly, db2, tr, hshape, hb.1, hb.2.1, hb.2.2⟩
theorem writesOutsideTx_append_writes : ∀ (tr : List Stmt),
    (∀ s ∈ tr, s.isWrite = true) → ∀ (rest : List Stmt) (d : Nat), d ≠ 0 →
    writesOutsideTx (tr ++ rest) d = writesOutsideTx rest d := by
  intro tr
  induction tr with
  | nil => intro _ rest d _; rfl
  | cons s tr' ih =>
    intro hw rest d hd
    have hs := hw s (List.mem_cons_self s tr')
    have hw' : ∀ x ∈ tr', x.isWrite = true := fun x hx => hw x (List.mem_cons_of_mem s hx)
    have hrec := ih hw' rest d hd
    cases s with
    | txBegin => exact absurd hs (by simp [Stmt.isWrite])
    | txCommit => exact absurd hs (by simp [Stmt.isWrite])
    | txRollback => exact absurd hs (by simp [Stmt.isWrite])
    | sqlInsertTask i =>
      simp only [List.cons_append, writesOutsideTx, if_neg hd, Nat.zero_add]
      exact hrec
    | sqlInsertDep a b =>
      simp only [List.cons_append, writesOutsideTx, if_neg hd, Nat.zero_add]
      exact hrec
    | sqlDeleteDep a b =>
      simp only [List.cons_append, writesOutsideTx, if_neg hd, Nat.zero_add]
      exact hrec
    | sqlUpdateTask i =>
      simp only [List.cons_append, writesOutsideTx, if_neg hd, Nat.zero_add]
      exact hrec

theorem wrapped_tx_no_outside {tr : List Stmt} (hw : ∀ s ∈ tr, s.isWrite = true) :
    writesOutsideTx ([Stmt.txBegin] ++ tr ++ [Stmt.txCommit]) 0 = 0 := by
  have h1 : writesOutsideTx ([Stmt.txBegin] ++ tr ++ [Stmt.txCommit]) 0 =
      writesOutsideTx (tr ++ [Stmt.txCommit]) 1 := rfl
  rw [h1, writesOutsideTx_append_writes tr hw [Stmt.txCommit] 1 (by simp)]
  rfl

theorem txBeginCount_eq_zero_of_writes {tr : List Stmt}
    (hw : ∀ s ∈ tr, s.isWrite = true) : txBeginCount tr = 0 := by
  unfold txBeginCount
  rw [List.countP_eq_zero]
  intro s hs
  have := hw s hs
  cases s <;> simp_all [Stmt.isWrite]

theorem add_deps_go_writes (tid : String) : ∀ (l : List Task) (db db2 : DB)
    (tr : List Stmt), add_deps_go tid db l = .ok (db2, tr) →
    ∀ s ∈ tr, s.isWrite = true := by
  intro l
  induction l with
  | nil =>
    intro db db2 tr h s hs
    simp only [add_deps_go, Except.ok.injEq, Prod.mk.injEq] at h
    obtain ⟨-, rfl⟩ := h
    cases hs
  | cons d rest ih =>
    intro db db2 tr h s hs
    simp only [add_deps_go] at h
    cases hadd : add_dependency db tid d.id with
    | error e => simp only [hadd] at h; exact Except.noConfusion h
    | ok db1 =>
      simp only [hadd] at h
      cases hrec : add_deps_go tid db1 rest with
      | error e => simp only [hrec] at h; exact Except.noConfusion h
      | ok p =>
        obtain ⟨db2', tr'⟩ := p
        simp only [hrec, Except.ok.injEq, Prod.mk.injEq] at h
        obtain ⟨-, rfl⟩ := h
        rcases List.mem_cons.mp hs with rfl | hs'
        · rfl
        · exact ih db1 db2' tr' hrec s hs'

theorem cascade_go_writes (now : String) : ∀ (l : List String) (db : DB)
    (nl : List Task) (db2 : DB) (tr : List Stmt),
    cascade_go now db l = .ok (nl, db2, tr) → ∀ s ∈ tr, s.isWrite = true := by
  intro l
  induction l with
  | nil =>
    intro db nl db2 tr h s hs
    simp only [cascade_go, Except.ok.injEq, Prod.mk.injEq] at h
    obtain ⟨-, -, rfl⟩ := h
    cases hs
  | cons i rest ih =>
    intro db nl db2 tr h s hs
    simp only [cascade_go] at h
    cases hget : get_task_by_id db i with
    | error e => simp only [hget] at h; exact Except.noConfusion h
    | ok task =>
      simp only [hget] at h
      by_cases hbl : task.status ≠ TaskStatus.blocked
      · rw [if_pos hbl] at h
        exact ih db nl db2 tr h s hs
      · rw [if_neg hbl] at h
        by_cases hdone : all_dependencies_done db i = true
        · rw [if_pos hdone] at h
          cases hget2 : get_task_by_id
              (update_task_status db i TaskStatus.ready none now) i with
          | error e => simp only [hget2] at h; exact Except.noConfusion h
          | ok updated =>
            simp only [hget2] at h
            cases hrec : cascade_go now
                (update_task_status db i TaskStatus.ready none now) rest with
            | error e => simp only [hrec] at h; exact Except.noConfusion h
            | ok p =>
              obtain ⟨l', db2', tr'⟩ := p
              simp only [hrec, Except.ok.injEq, Prod.mk.injEq] at h
              obtain ⟨-, -, rfl⟩ := h
              rcases List.mem_cons.mp hs with rfl | hs'
              · rfl
              · exact ih _ l' db2' tr' hrec s hs'
        · rw [if_neg hdone] at h
          exact ih db nl db2 tr h s hs

theorem load_create_go_writes (plan_id : String) (gen : String → String) (now : String) :
    ∀ (l : List TaskInput) (db : DB) (i : Nat) (db2 : DB) (tr : List Stmt),
    load_create_go plan_id gen now db i l = .ok (db2, tr) →
    ∀ s ∈ tr, s.isWrite = true := by
  intro l
  induction l with
  | nil =>
    intro db i db2 tr h s hs
    simp only [load_create_go, Except.ok.injEq, Prod.mk.injEq] at h
    obtain ⟨-, rfl⟩ := h
    cases hs
  | cons t rest ih =>
    intro db i db2 tr h s hs
    simp only [load_create_go] at h
    cases hct : create_task db (gen t.id) plan_id t.title t.description t.priority
        (Int.ofNat i) (if t.after.isEmpty then TaskStatus.ready else TaskStatus.blocked)
        t.agent now with
    | error e => simp only [hct] at h; exact Except.noConfusion h
    | ok db1 =>
      simp only [hct] at h
      cases hrec : load_create_go plan_id gen now db1 (i + 1) rest with
      | error e => simp only [hrec] at h; exact Except.noConfusion h
      | ok p =>
        obtain ⟨db2', tr'⟩ := p
        simp only [hrec, Except.ok.injEq, Prod.mk.injEq] at h
        obtain ⟨-, rfl⟩ := h
        rcases List.mem_cons.mp hs with rfl | hs'
        · rfl
        · exact ih db1 (i + 1) db2' tr' hrec s hs'

theorem load_task_deps_go_writes (gen : String → String) (tid : String) :
    ∀ (l : List String) (db db2 : DB) (tr : List Stmt),
    load_task_deps_go gen tid db l = .ok (db2, tr) → ∀ s ∈ tr, s.isWrite = true := by
  intro l
  induction l with
  | nil =>
    intro db db2 tr h s hs
    simp only [load_task_deps_go, Except.ok.injEq, Prod.mk.injEq] at h
    obtain ⟨-, rfl⟩ := h
    cases hs
  | cons dep rest ih =>
    intro db db2 tr h s hs
    simp only [load_task_deps_go] at h
    cases hadd : add_dependency db (gen tid) (gen dep) with
    | error e => simp only [hadd] at h; exact Except.noConfusion h
    | ok db1 =>
      simp only [hadd] at h
      cases hrec : load_task_deps_go gen tid db1 rest with
      | error e => simp only [hrec] at h; exact Except.noConfusion h
      | ok p =>
        obtain ⟨db2', tr'⟩ := p
        simp only [hrec, Except.ok.injEq, Prod.mk.injEq] at h
        obtain ⟨-, rfl⟩ := h
        rcases List.mem_cons.mp hs with rfl | hs'
        · rfl
        · exact ih db1 db2' tr' hrec s hs'

theorem load_deps_go_writes (gen : String → String) :
    ∀ (l : List TaskInput) (db db2 : DB) (tr : List Stmt),
    load_deps_go gen db l = .ok (db2, tr) → ∀ s ∈ tr, s.isWrite = true := by
  intro l
  induction l with
  | nil =>
    intro db db2 tr h s hs
    simp only [load_deps_go, Except.ok.injEq, Prod.mk.injEq] at h
    obtain ⟨-, rfl⟩ := h
    cases hs
  | cons t rest ih =>
    intro db db2 tr h s hs
    simp only [load_deps_go] at h
    cases h1 : load_task_deps_go gen t.id db t.after with
    | error e => simp only [h1] at h; exact Except.noConfusion h
    | ok p1 =>
      obtain ⟨db1, tr1⟩ := p1
      simp only [h1] at h
      cases hrec : load_deps_go gen db1 rest with
      | error e => simp only [hrec] at h; exact Except.noConfusion h
      | ok p =>
        obtain ⟨db2', tr2⟩ := p
        simp only [hrec, Except.ok.injEq, Prod.mk.injEq] at h
        obtain ⟨-, rfl⟩ := h
        rcases List.mem_append.mp hs with hs' | hs'
        · exact load_task_deps_go_writes gen t.id t.after db db1 tr1 h1 s hs'
        · exact ih db1 db2' tr2 hrec s hs'

theorem run_add_no_outside (db : DB) (plan_id title : String)
    (description : Option String) (priority : Int) (agent : Option String)
    (after : List String) (new_id now : String) :
    writesOutsideTx
      (run_add db plan_id title description priority agent after new_id now).2.2 0
      = 0 := by
  simp only [run_add]
  split
  · rfl
  · rename_i resolved hrd
    split
    · rename_i db2 tr hb
      apply wrapped_tx_no_outside
      split at hb
      · exact Except.noConfusion hb
      · rename_i db1 hct
        split at hb
        · exact Except.noConfusion hb
        · rename_i db2' tr2 hdeps
          split at hb
          · simp only [Except.ok.injEq, Prod.mk.injEq] at hb
            obtain ⟨-, rfl⟩ := hb
            intro s hs
            rcases List.mem_cons.mp hs with rfl | hs'
            · rfl
            · rcases List.mem_append.mp hs' with hs2 | hs2
              · exact add_deps_go_writes new_id resolved db1 db2' tr2 hdeps s hs2
              · rcases List.mem_singleton.mp hs2 with rfl
                rfl
          · simp only [Except.ok.injEq, Prod.mk.injEq] at hb
            obtain ⟨-, rfl⟩ := hb
            intro s hs
            rcases List.mem_cons.mp hs with rfl | hs'
            · rfl
            · exact add_deps_go_writes new_id resolved db1 db2' tr2 hdeps s hs'
    · rfl

theorem cascade_if_writes {c : Prop} [Decidable c] {db : DB} {tid now : String}
    {newly : List Task} {db1 : DB} {trc : List Stmt}
    (h : (if c then cascade_unblock db tid now else .ok ([], db, []))
      = .ok (newly, db1, trc)) : ∀ s ∈ trc, s.isWrite = true := by
  split at h
  · unfold cascade_unblock at h
    exact cascade_go_writes now (get_dependents db tid) db newly db1 trc h
  · simp only [Except.ok.injEq, Prod.mk.injEq] at h
    obtain ⟨-, -, rfl⟩ := h
    intro s hs
    cases hs

theorem run_transition_no_outside (db : DB) (plan_id id action : String)
    (agent : Option String) (now : String) :
    writesOutsideTx (run_transition db plan_id id action agent now).2.2 0 = 0 := by
  simp only [run_transition]
  split
  · rfl
  · rename_i task hrt
    split
    · rfl
    · rename_i new_status hval
      split
      · rename_i res db2 tr hb
        apply wrapped_tx_no_outside
        split at hb
        · exact Except.noConfusion hb
        · rename_i newly db1' trc hcas
          split at hb
          · exact Except.noConfusion hb
          · rename_i updated hget
            simp only [Except.ok.injEq, Prod.mk.injEq] at hb
            obtain ⟨-, -, rfl⟩ := hb
            intro s hs
            rcases List.mem_cons.mp hs with rfl | hs'
            · rfl
            · exact cascade_if_writes hcas s hs'
      · rfl

theorem run_inner_no_outside (db : DB) (plan_id : String) (claim : Bool)
    (agent : Option String) (now : String) :
    writesOutsideTx (run_inner db plan_id claim agent now).2.2 0 = 0 := by
  simp only [run_inner]
  split
  · rfl
  · split
    · split
      · rename_i task db1 tr hcl
        apply wrapped_tx_no_outside
        intro s hs
        unfold claim_next_task at hcl
        split at hcl
        · rename_i t hnext
          split at hcl
          · exact Except.noConfusion hcl
          · simp only [Except.ok.injEq, Prod.mk.injEq] at hcl
            obtain ⟨-, -, rfl⟩ := hcl
            rcases List.mem_singleton.mp hs with rfl
            rfl
        · simp only [Except.ok.injEq, Prod.mk.injEq] at hcl
          obtain ⟨-, -, rfl⟩ := hcl
          cases hs
      · rfl
    · rfl

theorem run_load_no_outside (db : DB) (input : PlanLoadInput) (plan_id : String)
    (gen : String → String) (now : String) :
    writesOutsideTx (run_load db input plan_id gen now).2.2 0 = 0 := by
  simp only [run_load]
  split
  · rfl
  · split
    · rename_i db2 tr hb
      apply wrapped_tx_no_outside
      split at hb
      · exact Except.noConfusion hb
      · rename_i db1 tr1 hc
        split at hb
        · exact Except.noConfusion hb
        · rename_i db2' tr2 hd
          simp only [Except.ok.injEq, Prod.mk.injEq] at hb
          obtain ⟨-, rfl⟩ := hb
          intro s hs
          rcases List.mem_append.mp hs with hs' | hs'
          · exact load_create_go_writes plan_id gen now input.tasks db 0 db1 tr1 hc s hs'
          · exact load_deps_go_writes gen input.tasks db1 db2' tr2 hd s hs'
    · rfl

theorem run_dep_all_writes (db : DB) (plan_id : String) (cmd : DepCommands)
    (now : String) : ∀ s ∈ (run_dep db plan_id cmd now).2.2, s.isWrite = true := by
  intro s hs
  cases cmd with
  | add id dep_id =>
    simp only [run_dep] at hs
    split at hs
    · cases hs
    · split at hs
      · cases hs
      · split at hs
        · cases hs
        · split at hs
          · cases hs
          · split at hs
            · rcases List.mem_singleton.mp hs with rfl
              rfl
            · split at hs
              · rcases List.mem_cons.mp hs with rfl | hs'
                · rfl
                · rcases List.mem_singleton.mp hs' with rfl
                  rfl
              · rcases List.mem_singleton.mp hs with rfl
                rfl
  | remove id dep_id =>
    simp only [run_dep] at hs
    split at hs
    · cases hs
    · split at hs
      · cases hs
      · split at hs
        · split at hs
          · rcases List.mem_cons.mp hs with rfl | hs'
            · rfl
            · rcases List.mem_singleton.mp hs' with rfl
              rfl
          · rcases List.mem_singleton.mp hs with rfl
            rfl
        · rcases List.mem_singleton.mp hs with rfl
          rfl

/-- C8 (corrected): create, transition, claim and bulk load each run their writes
inside one transaction — no write statement of their traces executes at autocommit
depth zero — but the dependency add and remove of `run_dep` run their one or two
writes with no transaction at all: every statement of its trace is a bare write and
the trace opens no transaction. -/
theorem C8_transaction_boundaries :
    (∀ db plan_id title description priority agent after new_id now,
      writesOutsideTx (run_add db plan_id title description priority agent after
        new_id now).2.2 0 = 0) ∧
    (∀ db plan_id id action agent now,
      writesOutsideTx (run_transition db plan_id id action agent now).2.2 0 = 0) ∧
    (∀ db plan_id claim agent now,
      writesOutsideTx (run_inner db plan_id claim agent now).2.2 0 = 0) ∧
    (∀ db input plan_id gen now,
      writesOutsideTx (run_load db input plan_id gen now).2.2 0 = 0) ∧
    (∀ db plan_id cmd now,
      (∀ s ∈ (run_dep db plan_id cmd now).2.2, s.isWrite = true) ∧
      txBeginCount (run_dep db plan_id cmd now).2.2 = 0) :=
  ⟨run_add_no_outside, run_transition_no_outside, run_inner_no_outside,
   run_load_no_outside, fun db plan_id cmd now =>
    ⟨run_dep_all_writes db plan_id cmd now,
     txBeginCount_eq_zero_of_writes (run_dep_all_writes db plan_id cmd now)⟩⟩

/-- C8 counterexample: a dependency remove that deletes the edge and promotes the
task executes its two writes with no surrounding transaction — both run at
autocommit depth zero and the trace opens no transaction — so a failure between
them would leave the edge deleted with the task still blocked. -/
theorem C8_dep_remove_writes_outside_transaction :
    (run_dep (⟨[wTask "a" TaskStatus.ready 0 0, wTask "b" TaskStatus.blocked 0 1],
        [("b", "a")]⟩ : DB) "p" (DepCommands.remove "b" "a") "t1").2.2 =
      [Stmt.sqlDeleteDep "b" "a", Stmt.sqlUpdateTask "b"] ∧
    writesOutsideTx ((run_dep (⟨[wTask "a" TaskStatus.ready 0 0,
        wTask "b" TaskStatus.blocked 0 1], [("b", "a")]⟩ : DB) "p"
        (DepCommands.remove "b" "a") "t1").2.2) 0 = 2 ∧
    txBeginCount ((run_dep (⟨[wTask "a" TaskStatus.ready 0 0,
        wTask "b" TaskStatus.blocked 0 1], [("b", "a")]⟩ : DB) "p"
        (DepCommands.remove "b" "a") "t1").2.2) = 0 ∧
    (run_dep (⟨[wTask "a" TaskStatus.ready 0 0, wTask "b" TaskStatus.blocked 0 1],
        [("b", "a")]⟩ : DB) "p" (DepCommands.remove "b" "a") "t1").1 = .ok () := by
  decide
theorem all_deps_eq (db : DB) (x : String) :
    all_dependencies_done db x =
      ((db.deps.filter (fun e => e.1 == x && notDone db e.2)).length == 0) := rfl

theorem all_deps_true_iff {db : DB} {x : String} :
    all_dependencies_done db x = true ↔
      ∀ e ∈ db.deps, e.1 = x → notDone db e.2 = false := by
  rw [all_deps_eq, beq_iff_eq, List.length_eq_zero, List.filter_eq_nil_iff]
  constructor
  · intro h e he hx
    have h1 := h e he
    simp only [hx, beq_self_eq_true, Bool.true_and, Bool.not_eq_true] at h1
    exact h1
  · intro h e he
    simp only [Bool.and_eq_true, beq_iff_eq, not_and]
    intro hx
    rw [h e he hx]
    simp

theorem all_deps_false_iff {db : DB} {x : String} :
    all_dependencies_done db x = false ↔
      ∃ e ∈ db.deps, e.1 = x ∧ notDone db e.2 = true := by
  constructor
  · intro h
    by_contra hc
    push_neg at hc
    rw [all_deps_true_iff.mpr ?_] at h
    · cases h
    · intro e he hx
      have h1 := hc e he hx
      simpa using h1
  · rintro ⟨e, he, hx, hnd⟩
    cases hall : all_dependencies_done db x with
    | false => rfl
    | true =>
      have h1 := all_deps_true_iff.mp hall e he hx
      rw [hnd] at h1
      cases h1

theorem notDone_tasks_eq {db db' : DB} (h : db'.tasks = db.tasks) :
    ∀ y, notDone db' y = notDone db y := by
  intro y
  unfold notDone findTask
  rw [h]

theorem notDone_of_map {db db' : DB} {g : Task → Task}
    (hts : db'.tasks = db.tasks.map g) (hid : ∀ t, (g t).id = t.id)
    (hst : ∀ t ∈ db.tasks,
      ((g t).status != TaskStatus.done) = (t.status != TaskStatus.done)) :
    ∀ y, notDone db' y = notDone db y := by
  intro y
  unfold notDone findTask
  rw [hts, find?_map_id_pres hid]
  cases hf : db.tasks.find? (fun t => t.id == y) with
  | none => rfl
  | some u =>
    simp only [Option.map_some']
    exact hst u (List.mem_of_find?_eq_some hf)

theorem all_deps_congr {db db' : DB} (hdeps : db'.deps = db.deps)
    (hnd : ∀ y, notDone db' y = notDone db y) :
    ∀ x, all_dependencies_done db' x = all_dependencies_done db x := by
  intro x
  rw [all_deps_eq, all_deps_eq, hdeps]
  congr 1
  congr 1
  apply List.filter_congr
  intro e _
  rw [hnd e.2]

theorem notDone_update {db : DB} {i : String} {st : TaskStatus} {ag : Option String}
    {now : String}
    (h : ∀ t, findTask db i = some t →
      (st != TaskStatus.done) = (t.status != TaskStatus.done)) :
    ∀ y, notDone (update_task_status db i st ag now) y = notDone db y := by
  intro y
  unfold notDone
  rw [findTask_update]
  cases hf : findTask db y with
  | none => rfl
  | some u =>
    simp only [Option.map_some']
    by_cases hui : u.id = i
    · rw [if_pos (by simpa using hui)]
      have hyi : y = i := by rw [← (findTask_mem hf).2, hui]
      have hu : findTask db i = some u := hyi ▸ hf
      rw [setStatusRow_status]
      exact h u hu
    · rw [if_neg (by simpa using hui)]

theorem all_deps_update {db : DB} {i : String} {st : TaskStatus} {ag : Option String}
    {now : String}
    (h : ∀ t, findTask db i = some t →
      (st != TaskStatus.done) = (t.status != TaskStatus.done)) :
    ∀ x, all_dependencies_done (update_task_status db i st ag now) x
      = all_dependencies_done db x :=
  all_deps_congr (update_deps db i st ag now) (notDone_update h)

theorem notDone_update_ne {db : DB} {i : String} {st : TaskStatus} {ag : Option String}
    {now : String} {y : String} (hy : y ≠ i) :
    notDone (update_task_status db i st ag now) y = notDone db y := by
  unfold notDone
  rw [findTask_update]
  cases hf : findTask db y with
  | none => rfl
  | some u =>
    have hui : u.id ≠ i := by rw [(findTask_mem hf).2]; exact hy
    simp only [Option.map_some']
    rw [if_neg (by simpa using hui)]

theorem all_deps_update_no_edge {db : DB} {i : String} {st : TaskStatus}
    {ag : Option String} {now : String} {x : String}
    (hno : (x, i) ∉ db.deps) :
    all_dependencies_done (update_task_status db i st ag now) x
      = all_dependencies_done db x := by
  rw [all_deps_eq, all_deps_eq, update_deps]
  congr 1
  congr 1
  apply List.filter_congr
  intro e he
  by_cases hx : e.1 = x
  · have h2 : e.2 ≠ i := by
      intro h2
      apply hno
      have h3 : e = (x, i) := by
        cases e
        simp_all
      rw [← h3]
      exact he
    rw [notDone_update_ne h2]
  · have hb : (e.1 == x) = false := by simpa using hx
    rw [hb]
    simp

theorem notDone_update_done_le {db : DB} {i : String} {ag : Option String}
    {now : String} {y : String}
    (h : notDone (update_task_status db i TaskStatus.done ag now) y = true) :
    notDone db y = true := by
  by_cases hy : y = i
  · subst hy
    unfold notDone at h
    rw [findTask_update] at h
    cases hf : findTask db y with
    | none => rw [hf] at h; cases h
    | some u =>
      rw [hf] at h
      simp only [Option.map_some'] at h
      have hui : u.id = y := (findTask_mem hf).2
      rw [if_pos (by simpa using hui), setStatusRow_status] at h
      simp at h
  · rw [notDone_update_ne hy] at h
    exact h

theorem all_deps_update_done_mono {db : DB} {i : String} {ag : Option String}
    {now : String} {x : String}
    (h : all_dependencies_done db x = true) :
    all_dependencies_done (update_task_status db i TaskStatus.done ag now) x = true := by
  rw [all_deps_true_iff] at h ⊢
  rw [update_deps]
  intro e he hx
  cases hnd : notDone (update_task_status db i TaskStatus.done ag now) e.2 with
  | false => rfl
  | true =>
    have h1 := notDone_update_done_le hnd
    rw [h e he hx] at h1
    cases h1

theorem all_deps_ext {db db' : DB} {x : String} {extra : Edges}
    (h1 : db'.deps = db.deps ++ extra)
    (h2 : ∀ e ∈ db.deps, e.1 = x → notDone db' e.2 = notDone db e.2)
    (h3 : ∀ e ∈ extra, e.1 ≠ x) :
    all_dependencies_done db' x = all_dependencies_done db x := by
  rw [all_deps_eq, all_deps_eq, h1, List.filter_append]
  have hex : extra.filter (fun e => e.1 == x && notDone db' e.2) = [] := by
    rw [List.filter_eq_nil_iff]
    intro e he
    simp [h3 e he]
  rw [hex, List.append_nil]
  congr 1
  congr 1
  apply List.filter_congr
  intro e he
  by_cases hx : e.1 = x
  · rw [h2 e he hx]
  · have hb : (e.1 == x) = false := by simpa using hx
    rw [hb]
    simp

theorem all_deps_false_of_edge {db : DB} {x y : String}
    (hm : (x, y) ∈ db.deps) (hnd : notDone db y = true) :
    all_dependencies_done db x = false :=
  all_deps_false_iff.mpr ⟨(x, y), hm, rfl, hnd⟩

theorem all_deps_true_subset {db db' : DB} {x : String}
    (hsub : ∀ e ∈ db'.deps, e ∈ db.deps)
    (hnd : ∀ y, notDone db' y = notDone db y)
    (h : all_dependencies_done db x = true) :
    all_dependencies_done db' x = true := by
  rw [all_deps_true_iff] at h ⊢
  intro e he hx
  rw [hnd e.2]
  exact h e (hsub e he) hx

theorem all_deps_false_superset {db db' : DB} {x : String}
    (hsub : ∀ e ∈ db.deps, e ∈ db'.deps)
    (hnd : ∀ y, notDone db' y = notDone db y)
    (h : all_dependencies_done db x = false) :
    all_dependencies_done db' x = false := by
  obtain ⟨e, he, hx, hnd1⟩ := all_deps_false_iff.mp h
  refine all_deps_false_iff.mpr ⟨e, hsub e he, hx, ?_⟩
  rw [hnd e.2]
  exact hnd1

theorem find?_append_of_some {l r : List Task} {p : Task → Bool} {u : Task}
    (h : l.find? p = some u) : (l ++ r).find? p = some u := by
  induction l with
  | nil => cases h
  | cons a l ih =>
    cases hp : p a with
    | true =>
      rw [List.find?_cons_of_pos _ hp] at h
      rw [List.cons_append, List.find?_cons_of_pos _ hp]
      exact h
    | false =>
      rw [List.find?_cons_of_neg _ (by simp [hp])] at h
      rw [List.cons_append, List.find?_cons_of_neg _ (by simp [hp])]
      exact ih h

theorem find?_append_of_none {l r : List Task} {p : Task → Bool}
    (h : l.find? p = none) : (l ++ r).find? p = r.find? p := by
  induction l with
  | nil => rfl
  | cons a l ih =>
    cases hp : p a with
    | true => rw [List.find?_cons_of_pos _ hp] at h; cases h
    | false =>
      rw [List.find?_cons_of_neg _ (by simp [hp])] at h
      rw [List.cons_append, List.find?_cons_of_neg _ (by simp [hp])]
      exact ih h

theorem hasCycle_mono {E E' : Edges} (hsub : ∀ e ∈ E, e ∈ E') :
    HasCycle E → HasCycle E' := by
  rintro ⟨a, h⟩
  refine ⟨a, Relation.TransGen.mono ?_ h⟩
  intro x y hxy
  exact hsub (x, y) hxy

theorem transGen_target_ne {E : Edges} {v : String}
    (hnoin : ∀ e ∈ E, e.2 ≠ v) {x y : String}
    (h : Relation.TransGen (EdgeIn E) x y) : y ≠ v := by
  cases h with
  | single h1 => exact hnoin _ h1
  | tail _ h1 => exact hnoin _ h1

theorem transGen_old_of_source_ne {old new : Edges} {v : String}
    (hnew : ∀ e ∈ new, e.1 = v)
    (hnoin : ∀ e ∈ old ++ new, e.2 ≠ v) :
    ∀ {x y}, Relation.TransGen (EdgeIn (old ++ new)) x y → x ≠ v →
      Relation.TransGen (EdgeIn old) x y := by
  intro x y h
  induction h with
  | single h1 =>
    intro hx
    rcases List.mem_append.mp h1 with ho | hn
    · exact Relation.TransGen.single ho
    · exact absurd (hnew _ hn) hx
  | tail hp h1 ih =>
    intro hx
    have hyv := transGen_target_ne hnoin hp
    rcases List.mem_append.mp h1 with ho | hn
    · exact Relation.TransGen.tail (ih hx) ho
    · exact absurd (hnew _ hn) hyv

theorem hasCycle_append_fresh_source {old new : Edges} {v : String}
    (hnew : ∀ e ∈ new, e.1 = v)
    (hnoin : ∀ e ∈ old ++ new, e.2 ≠ v)
    (hold : ¬ HasCycle old) : ¬ HasCycle (old ++ new) := by
  rintro ⟨a, h⟩
  have hav : a ≠ v := transGen_target_ne hnoin h
  exact hold ⟨a, transGen_old_of_source_ne hnew hnoin h hav⟩

theorem transGen_relabel {E S : Edges} {gen : String → String} {N : List String}
    (hpull : ∀ e ∈ E, ∃ a ∈ N, ∃ b ∈ N, e = (gen a, gen b) ∧ (a, b) ∈ S)
    (hinj : ∀ a ∈ N, ∀ b ∈ N, gen a = gen b → a = b) :
    ∀ {x y}, Relation.TransGen (EdgeIn E) x y →
      ∃ a ∈ N, ∃ b ∈ N, x = gen a ∧ y = gen b ∧
        Relation.TransGen (EdgeIn S) a b := by
  intro x y h
  induction h with
  | single h1 =>
    obtain ⟨a, ha, b, hb, heq, hs⟩ := hpull _ h1
    rw [Prod.mk.injEq] at heq
    exact ⟨a, ha, b, hb, heq.1, heq.2, Relation.TransGen.single hs⟩
  | tail hp h1 ih =>
    obtain ⟨a, ha, b, hb, hx, hy, hab⟩ := ih
    obtain ⟨a', ha', b', hb', heq, hs⟩ := hpull _ h1
    rw [Prod.mk.injEq] at heq
    have hba : a' = b := hinj a' ha' b hb (by rw [← heq.1, ← hy])
    subst hba
    exact ⟨a, ha, b', hb', hx, heq.2, Relation.TransGen.tail hab hs⟩

theorem hasCycle_relabel {E S : Edges} {gen : String → String} {N : List String}
    (hpull : ∀ e ∈ E, ∃ a ∈ N, ∃ b ∈ N, e = (gen a, gen b) ∧ (a, b) ∈ S)
    (hinj : ∀ a ∈ N, ∀ b ∈ N, gen a = gen b → a = b)
    (hS : ¬ HasCycle S) : ¬ HasCycle E := by
  rintro ⟨x, h⟩
  obtain ⟨a, ha, b, hb, hx, hy, hab⟩ := transGen_relabel hpull hinj h
  have hba : a = b := hinj a ha b hb (by rw [← hx, ← hy])
  subst hba
  exact hS ⟨a, hab⟩

theorem mem_planEdges {db : DB} {p : String} {e : String × String} :
    e ∈ get_all_dependencies_for_plan db p ↔
      e ∈ db.deps ∧ ∃ u, findTask db e.1 = some u ∧ u.plan_id = p := by
  unfold get_all_dependencies_for_plan
  rw [List.mem_filter]
  constructor
  · rintro ⟨hm, hp⟩
    refine ⟨hm, ?_⟩
    cases hf : findTask db e.1 with
    | none => rw [hf] at hp; cases hp
    | some u =>
      rw [hf] at hp
      simp only [beq_iff_eq] at hp
      exact ⟨u, rfl, hp⟩
  · rintro ⟨hm, u, hf, hp⟩
    refine ⟨hm, ?_⟩
    rw [hf]
    simp [hp]

theorem planEdges_of_map {db db' : DB} {g : Task → Task}
    (hdeps : db'.deps = db.deps) (hts : db'.tasks = db.tasks.map g)
    (hid : ∀ t, (g t).id = t.id) (hplan : ∀ t, (g t).plan_id = t.plan_id) :
    ∀ p, get_all_dependencies_for_plan db' p = get_all_dependencies_for_plan db p := by
  intro p
  unfold get_all_dependencies_for_plan
  rw [hdeps]
  apply List.filter_congr
  intro e _
  have hft : findTask db' e.1 = (findTask db e.1).map g := by
    unfold findTask
    rw [hts, find?_map_id_pres hid]
  rw [hft]
  cases findTask db e.1 with
  | none => rfl
  | some u => simp [hplan u]

theorem planEdges_update (db : DB) (i : String) (st : TaskStatus)
    (ag : Option String) (now : String) :
    ∀ p, get_all_dependencies_for_plan (update_task_status db i st ag now) p
      = get_all_dependencies_for_plan db p := by
  apply planEdges_of_map (update_deps db i st ag now) rfl
  · intro t
    by_cases h : t.id = i <;> simp [h, setStatusRow_id]
  · intro t
    by_cases h : t.id = i <;> simp [h, setStatusRow_plan]

theorem hasCycle_nil : ¬ HasCycle ([] : Edges) := by
  rintro ⟨a, h⟩
  cases h with
  | single h1 => cases h1
  | tail _ h1 => cases h1

theorem validate_ok_facts {st : TaskStatus} {a : String} {s : TaskStatus}
    (h : validate_transition st a = .ok s) :
    st ≠ TaskStatus.done ∧ s ≠ TaskStatus.blocked ∧
      (s = TaskStatus.ready → a = "fail") := by
  cases st <;> simp only [validate_transition] at h <;>
    first
    | exact absurd h (by simp)
    | (split at h <;> simp_all [eq_comm])

theorem wf_update (db : DB) (i : String) (st : TaskStatus) (ag : Option String)
    (now : String) (h : WF db) : WF (update_task_status db i st ag now) := by
  obtain ⟨h1, h2, h3, h4⟩ := h
  refine ⟨?_, ?_, ?_, ?_⟩
  · rw [update_ids]
    exact h1
  · rw [update_deps]
    exact h2
  · intro e he
    rw [update_deps] at he
    rw [findTask_isSome_update, findTask_isSome_update]
    exact h3 e he
  · intro e he
    rw [update_deps] at he
    exact h4 e he

theorem acyclic_update (db : DB) (i : String) (st : TaskStatus) (ag : Option String)
    (now : String) (h : AcyclicInv db) :
    AcyclicInv (update_task_status db i st ag now) := by
  intro p
  rw [planEdges_update]
  exact h p

theorem statusInv_update {db : DB} {i : String} {st : TaskStatus} {ag : Option String}
    {now : String}
    (hInv : StatusInv db)
    (hnd : ∀ t, findTask db i = some t →
      (st != TaskStatus.done) = (t.status != TaskStatus.done))
    (hready : st = TaskStatus.ready → all_dependencies_done db i = true)
    (hblocked : st = TaskStatus.blocked → all_dependencies_done db i = false) :
    StatusInv (update_task_status db i st ag now) := by
  intro u hu
  obtain ⟨t, ht, rfl⟩ := mem_update_status hu
  have hAD := @all_deps_update db i st ag now hnd
  by_cases hti : t.id = i
  · rw [if_pos (by simpa using hti)]
    constructor
    · intro hst
      rw [setStatusRow_status] at hst
      rw [setStatusRow_id, hti, hAD i]
      exact hready hst
    · intro hst
      rw [setStatusRow_status] at hst
      rw [setStatusRow_id, hti, hAD i]
      exact hblocked hst
  · rw [if_neg (by simpa using hti)]
    constructor
    · intro hst
      rw [hAD t.id]
      exact (hInv t ht).1 hst
    · intro hst
      rw [hAD t.id]
      exact (hInv t ht).2 hst

theorem map_ids_of_map {l : List Task} {g : Task → Task}
    (hid : ∀ t, (g t).id = t.id) :
    (l.map g).map (fun t => t.id) = l.map (fun t => t.id) := by
  rw [List.map_map]
  apply List.map_congr_left
  intro t _
  exact hid t

theorem findTask_of_map {db db' : DB} {g : Task → Task}
    (hts : db'.tasks = db.tasks.map g) (hid : ∀ t, (g t).id = t.id) (x : String) :
    findTask db' x = (findTask db x).map g := by
  unfold findTask
  rw [hts, find?_map_id_pres hid]

theorem cascadePromotes_found {db : DB} {t : Task} (h : findTask db t.id = some t) :
    cascadePromotes db t.id =
      (t.status == TaskStatus.blocked && all_dependencies_done db t.id) := by
  unfold cascadePromotes
  rw [h]

theorem inv_run_inner {db : DB} (h : WF db ∧ StatusInv db ∧ AcyclicInv db)
    (plan_id : String) (c : Bool) (agent : Option String) (now : String) :
    WF (run_inner db plan_id c agent now).2.1 ∧
    StatusInv (run_inner db plan_id c agent now).2.1 ∧
    AcyclicInv (run_inner db plan_id c agent now).2.1 := by
  obtain ⟨hWF, hInv, hAc⟩ := h
  simp only [run_inner]
  split
  · exact ⟨hWF, hInv, hAc⟩
  · split
    · split
      · rename_i task db1 tr hcl
        unfold claim_next_task at hcl
        split at hcl
        · rename_i r hnext
          split at hcl
          · exact absurd hcl (by simp)
          · rename_i upd hget
            simp only [Except.ok.injEq, Prod.mk.injEq] at hcl
            obtain ⟨-, hdb1, -⟩ := hcl
            subst hdb1
            have hr := (next_ready_some_spec db plan_id r hnext).1
            rw [readyTasks_mem_iff] at hr
            refine ⟨wf_update db r.id TaskStatus.in_progress agent now hWF, ?_,
              acyclic_update db r.id TaskStatus.in_progress agent now hAc⟩
            apply statusInv_update hInv
            · intro t hgt
              rw [findTask_of_mem hWF.1 hr.1] at hgt
              cases hgt
              rw [hr.2.2]
              rfl
            · intro hcontra
              cases hcontra
            · intro hcontra
              cases hcontra
        · simp only [Except.ok.injEq, Prod.mk.injEq] at hcl
          obtain ⟨-, hdb1, -⟩ := hcl
          subst hdb1
          exact ⟨hWF, hInv, hAc⟩
      · exact ⟨hWF, hInv, hAc⟩
    · exact ⟨hWF, hInv, hAc⟩

theorem inv_run_transition {db : DB} (h : WF db ∧ StatusInv db ∧ AcyclicInv db)
    (plan_id id action : String) (agent : Option String) (now : String) :
    WF (run_transition db plan_id id action agent now).2.1 ∧
    StatusInv (run_transition db plan_id id action agent now).2.1 ∧
    AcyclicInv (run_transition db plan_id id action agent now).2.1 := by
  obtain ⟨hWF, hInv, hAc⟩ := h
  cases hres : resolve_task db plan_id id with
  | error e =>
    simp only [run_transition, hres]
    exact ⟨hWF, hInv, hAc⟩
  | ok task =>
  cases hval : validate_transition task.status action with
  | error e =>
    simp only [run_transition, hres, hval]
    exact ⟨hWF, hInv, hAc⟩
  | ok s =>
  obtain ⟨hsd, hsb, hsf⟩ := validate_ok_facts hval
  have htm : task ∈ db.tasks := (resolve_task_ok hres).1
  have hids : (db.tasks.map (fun t => t.id)).Nodup := hWF.1
  have hft : findTask db task.id = some task := findTask_of_mem hids htm
  by_cases hd : (if s = TaskStatus.ready ∧ action = "fail" ∧
      ¬ all_dependencies_done db task.id then TaskStatus.blocked else s)
      = TaskStatus.done
  · -- the task enters done: the cascade characterization applies
    have hs_done : s = TaskStatus.done := by
      by_cases hc : s = TaskStatus.ready ∧ action = "fail" ∧
          ¬ all_dependencies_done db task.id = true
      · rw [if_pos hc] at hd
        cases hd
      · rw [if_neg hc] at hd
        exact hd
    subst hs_done
    obtain ⟨newly, db2, tr, hshape, hdeps2, hchar, hmapids, -⟩ :=
      run_transition_done_char hids hWF.2.1 (fun e he => (hWF.2.2.1 e he).1) hres hval
    rw [hshape]
    have hids1 : ((update_task_status db task.id TaskStatus.done agent now).tasks.map
        (fun t => t.id)).Nodup := by
      rw [update_ids]
      exact hids
    have hgid : ∀ t : Task, ((fun t => if t.id ∈ get_dependents db task.id ∧
        cascadePromotes (update_task_status db task.id TaskStatus.done agent now) t.id
          = true then setStatusRow TaskStatus.ready none now t else t) t).id = t.id := by
      intro t
      show (if t.id ∈ get_dependents db task.id ∧
          cascadePromotes (update_task_status db task.id TaskStatus.done agent now) t.id
            = true then setStatusRow TaskStatus.ready none now t else t).id
        = t.id
      by_cases hc : t.id ∈ get_dependents db task.id ∧
          cascadePromotes (update_task_status db task.id TaskStatus.done agent now) t.id
            = true
      · rw [if_pos hc, setStatusRow_id]
      · rw [if_neg hc]
    have hgplan : ∀ t : Task, ((fun t => if t.id ∈ get_dependents db task.id ∧
        cascadePromotes (update_task_status db task.id TaskStatus.done agent now) t.id
          = true then setStatusRow TaskStatus.ready none now t else t) t).plan_id
        = t.plan_id := by
      intro t
      show (if t.id ∈ get_dependents db task.id ∧
          cascadePromotes (update_task_status db task.id TaskStatus.done agent now) t.id
            = true then setStatusRow TaskStatus.ready none now t else t).plan_id
        = t.plan_id
      by_cases hc : t.id ∈ get_dependents db task.id ∧
          cascadePromotes (update_task_status db task.id TaskStatus.done agent now) t.id
            = true
      · rw [if_pos hc, setStatusRow_plan]
      · rw [if_neg hc]
    have hgst : ∀ t ∈ (update_task_status db task.id TaskStatus.done agent now).tasks,
        (((fun t => if t.id ∈ get_dependents db task.id ∧
          cascadePromotes (update_task_status db task.id TaskStatus.done agent now) t.id
            = true then setStatusRow TaskStatus.ready none now t else t) t).status
          != TaskStatus.done) = (t.status != TaskStatus.done) := by
      intro t ht
      show ((if t.id ∈ get_dependents db task.id ∧
          cascadePromotes (update_task_status db task.id TaskStatus.done agent now) t.id
            = true then setStatusRow TaskStatus.ready none now t else t).status
          != TaskStatus.done) = (t.status != TaskStatus.done)
      by_cases hc : t.id ∈ get_dependents db task.id ∧
          cascadePromotes (update_task_status db task.id TaskStatus.done agent now) t.id
            = true
      · rw [if_pos hc, setStatusRow_status]
        have hfind : findTask (update_task_status db task.id TaskStatus.done agent now)
            t.id = some t := findTask_of_mem hids1 ht
        rw [cascadePromotes_found hfind, Bool.and_eq_true, beq_iff_eq] at hc
        rw [hc.2.1]
        rfl
      · rw [if_neg hc]
    have hAD2 : ∀ x, all_dependencies_done db2 x = all_dependencies_done
        (update_task_status db task.id TaskStatus.done agent now) x :=
      all_deps_congr (by rw [hdeps2, update_deps]) (notDone_of_map hchar hgid hgst)
    refine ⟨⟨?_, ?_, ?_, ?_⟩, ?_, ?_⟩
    · rw [hchar, map_ids_of_map hgid]
      exact hids1
    · rw [hdeps2]
      exact hWF.2.1
    · intro e he
      rw [hdeps2] at he
      rw [findTask_of_map hchar hgid, findTask_of_map hchar hgid]
      cases hf1 : findTask (update_task_status db task.id TaskStatus.done agent now) e.1
        with
      | none =>
        exfalso
        have h1 := (hWF.2.2.1 e he).1
        rw [← findTask_isSome_update db task.id e.1 TaskStatus.done agent now, hf1] at h1
        cases h1
      | some u1 =>
        cases hf2 : findTask (update_task_status db task.id TaskStatus.done agent now) e.2
          with
        | none =>
          exfalso
          have h1 := (hWF.2.2.1 e he).2
          rw [← findTask_isSome_update db task.id e.2 TaskStatus.done agent now, hf2] at h1
          cases h1
        | some u2 => exact ⟨rfl, rfl⟩
    · intro e he
      rw [hdeps2] at he
      exact hWF.2.2.2 e he
    · -- StatusInv of the cascaded state
      intro u hu
      rw [hchar] at hu
      obtain ⟨w, hw, rfl⟩ := List.mem_map.mp hu
      have hfw : findTask (update_task_status db task.id TaskStatus.done agent now) w.id
          = some w := findTask_of_mem hids1 hw
      by_cases hc : w.id ∈ get_dependents db task.id ∧
          cascadePromotes (update_task_status db task.id TaskStatus.done agent now) w.id
            = true
      · rw [if_pos hc]
        constructor
        · intro _
          rw [setStatusRow_id, hAD2 w.id]
          have hp := hc.2
          rw [cascadePromotes_found hfw, Bool.and_eq_true] at hp
          exact hp.2
        · intro hst
          rw [setStatusRow_status] at hst
          cases hst
      · rw [if_neg hc]
        obtain ⟨t0, ht0, hw0⟩ := mem_update_status hw
        by_cases hti : t0.id = task.id
        · rw [if_pos (by simpa using hti)] at hw0
          subst hw0
          constructor
          · intro hst
            rw [setStatusRow_status] at hst
            cases hst
          · intro hst
            rw [setStatusRow_status] at hst
            cases hst
        · rw [if_neg (by simpa using hti)] at hw0
          subst hw0
          constructor
          · intro hst
            rw [hAD2 w.id]
            exact all_deps_update_done_mono ((hInv w ht0).1 hst)
          · intro hst
            rw [hAD2 w.id]
            by_cases hdep : w.id ∈ get_dependents db task.id
            · have hnp : cascadePromotes
                  (update_task_status db task.id TaskStatus.done agent now) w.id
                  = false := by
                cases hcp : cascadePromotes
                    (update_task_status db task.id TaskStatus.done agent now) w.id with
                | false => rfl
                | true => exact absurd ⟨hdep, hcp⟩ hc
              rw [cascadePromotes_found hfw, Bool.and_eq_false_iff] at hnp
              rcases hnp with hnp | hnp
              · rw [hst] at hnp
                simp at hnp
              · exact hnp
            · have hnoe : (w.id, task.id) ∉ db.deps := by
                intro hmem
                exact hdep (mem_get_dependents.mpr hmem)
              rw [all_deps_update_no_edge hnoe]
              exact (hInv w ht0).2 hst
    · -- AcyclicInv of the cascaded state
      intro p
      rw [planEdges_of_map (by rw [hdeps2, update_deps]) hchar hgid hgplan,
        planEdges_update]
      exact hAc p
  · -- no cascade: a plain row update
    have hshape := @run_transition_no_cascade db plan_id id action agent now task s
      (if s = TaskStatus.ready ∧ action = "fail" ∧
        ¬ all_dependencies_done db task.id then TaskStatus.blocked else s)
      hids hres hval rfl hd
    rw [hshape]
    refine ⟨wf_update db task.id _ agent now hWF, ?_,
      acyclic_update db task.id _ agent now hAc⟩
    apply statusInv_update hInv
    · intro t hgt
      rw [hft] at hgt
      cases hgt
      have e1 : ((if s = TaskStatus.ready ∧ action = "fail" ∧
          ¬ all_dependencies_done db task.id then TaskStatus.blocked else s)
          != TaskStatus.done) = true := bne_iff_ne.mpr hd
      have e2 : (task.status != TaskStatus.done) = true := bne_iff_ne.mpr hsd
      rw [e1, e2]
    · intro hact
      by_cases hc : s = TaskStatus.ready ∧ action = "fail" ∧
          ¬ all_dependencies_done db task.id = true
      · rw [if_pos hc] at hact
        cases hact
      · rw [if_neg hc] at hact
        cases had : all_dependencies_done db task.id with
        | true => rfl
        | false =>
          exfalso
          apply hc
          refine ⟨hact, hsf hact, ?_⟩
          rw [had]
          simp
    · intro hact
      by_cases hc : s = TaskStatus.ready ∧ action = "fail" ∧
          ¬ all_dependencies_done db task.id = true
      · rw [if_pos hc] at hact
        cases had : all_dependencies_done db task.id with
        | false => rfl
        | true => exact absurd had hc.2.2
      · rw [if_neg hc] at hact
        exact absurd hact hsb

theorem detect_cycleT_ok_iff (nodes : List String) (edges : Edges) :
    detect_cycleT nodes edges = .ok () ↔ ¬ HasCycle edges := by
  obtain ⟨b, c', h⟩ := (detect_cycle_run_spec nodes edges).1
  cases b with
  | false =>
    have hd : detect_cycle nodes edges = some (.ok ()) := by simp [detect_cycle, h]
    unfold detect_cycleT
    rw [hd]
    exact iff_of_true rfl ((detect_cycle_run_spec nodes edges).2.2 c' h)
  | true =>
    have hd : detect_cycle nodes edges = some (.error TaskaiError.cycle_detected) := by
      simp [detect_cycle, h]
    unfold detect_cycleT
    rw [hd]
    refine iff_of_false (fun hc => Except.noConfusion hc) ?_
    intro hno
    exact hno ((detect_cycle_run_spec nodes edges).2.1 c' h)

theorem detect_cycleT_err_of_cycle (nodes : List String) (edges : Edges)
    (h : HasCycle edges) :
    detect_cycleT nodes edges = .error TaskaiError.cycle_detected := by
  have hd := (detect_cycle_err_iff nodes edges).mpr h
  unfold detect_cycleT
  rw [hd]
  rfl

theorem would_create_cycleT_ok_iff (nodes : List String) (existing : Edges)
    (t d : String) :
    would_create_cycleT nodes existing t d = .ok () ↔
      ¬ HasCycle (existing ++ [(t, d)]) :=
  detect_cycleT_ok_iff nodes (existing ++ [(t, d)])

theorem would_create_cycleT_err_of_cycle (nodes : List String) (existing : Edges)
    (t d : String) (h : HasCycle (existing ++ [(t, d)])) :
    would_create_cycleT nodes existing t d = .error TaskaiError.cycle_detected :=
  detect_cycleT_err_of_cycle nodes (existing ++ [(t, d)]) h

theorem nodup_append_single {α : Type} {l : List α} {a : α}
    (h : l.Nodup) (ha : a ∉ l) : (l ++ [a]).Nodup := by
  rw [List.nodup_append]
  refine ⟨h, List.nodup_singleton a, ?_⟩
  intro x hx hxa
  rcases List.mem_singleton.mp hxa with rfl
  exact ha hx

theorem remove_dependency_sub {db : DB} {t d : String} :
    ∀ e ∈ (remove_dependency db t d).deps, e ∈ db.deps := by
  intro e he
  have he' : e ∈ db.deps.filter (fun e => !(e.1 == t && e.2 == d)) := he
  exact (List.mem_filter.mp he').1

theorem all_deps_remove_ne {db : DB} {t d x : String} (hx : x ≠ t) :
    all_dependencies_done (remove_dependency db t d) x
      = all_dependencies_done db x := by
  have hnd : ∀ y, notDone (remove_dependency db t d) y = notDone db y :=
    notDone_tasks_eq rfl
  cases h : all_dependencies_done db x with
  | true =>
    rw [all_deps_true_iff] at h ⊢
    intro e he hx1
    rw [hnd e.2]
    exact h e (remove_dependency_sub e he) hx1
  | false =>
    rw [all_deps_false_iff] at h ⊢
    obtain ⟨e, he, hex, hnd1⟩ := h
    refine ⟨e, ?_, hex, by rw [hnd e.2]; exact hnd1⟩
    show e ∈ db.deps.filter (fun e => !(e.1 == t && e.2 == d))
    rw [List.mem_filter]
    refine ⟨he, ?_⟩
    have hb : (e.1 == t) = false := by
      rw [hex]
      simpa using hx
    simp [hb]

theorem all_deps_append_notdone_false {db db' : DB} {t d : String}
    (h1 : db'.deps = db.deps ++ [(t, d)]) (hnd : ∀ y, notDone db' y = notDone db y)
    (hd : notDone db d = false) (x : String) :
    all_dependencies_done db' x = all_dependencies_done db x := by
  rw [all_deps_eq, all_deps_eq, h1, List.filter_append]
  have hsingle : [(t, d)].filter (fun e => e.1 == x && notDone db' e.2) = [] := by
    rw [List.filter_eq_nil_iff]
    intro e he
    rcases List.mem_singleton.mp he with rfl
    simp only [hnd, hd, Bool.and_false]
    simp
  rw [hsingle, List.append_nil]
  congr 1
  congr 1
  exact List.filter_congr (fun e _ => by rw [hnd e.2])

theorem inv_run_dep {db : DB} (h : WF db ∧ StatusInv db ∧ AcyclicInv db)
    (plan_id : String) (cmd : DepCommands) (now : String) :
    WF (run_dep db plan_id cmd now).2.1 ∧
    StatusInv (run_dep db plan_id cmd now).2.1 ∧
    AcyclicInv (run_dep db plan_id cmd now).2.1 := by
  obtain ⟨hWF, hInv, hAc⟩ := h
  have hids : (db.tasks.map (fun t => t.id)).Nodup := hWF.1
  cases cmd with
  | add id dep_id =>
    cases hres : resolve_task db plan_id id with
    | error e =>
      simp only [run_dep, hres]
      exact ⟨hWF, hInv, hAc⟩
    | ok task =>
    cases hres2 : resolve_task db plan_id dep_id with
    | error e =>
      simp only [run_dep, hres, hres2]
      exact ⟨hWF, hInv, hAc⟩
    | ok dep_task =>
    have htm : task ∈ db.tasks := (resolve_task_ok hres).1
    have htp : task.plan_id = plan_id := (resolve_task_ok hres).2
    have hdm : dep_task ∈ db.tasks := (resolve_task_ok hres2).1
    have hft : findTask db task.id = some task := findTask_of_mem hids htm
    have hfd : findTask db dep_task.id = some dep_task := findTask_of_mem hids hdm
    simp only [run_dep, hres, hres2]
    split
    · exact ⟨hWF, hInv, hAc⟩
    · split
      · exact ⟨hWF, hInv, hAc⟩
      · rename_i hcyc
        have hnocyc : ¬ HasCycle (get_all_dependencies_for_plan db plan_id
            ++ [(task.id, dep_task.id)]) :=
          (would_create_cycleT_ok_iff _ _ _ _).mp hcyc
        have htd : task.id ≠ dep_task.id := by
          intro heq
          apply hnocyc
          refine ⟨task.id, Relation.TransGen.single ?_⟩
          show (task.id, task.id) ∈ _
          refine List.mem_append.mpr (Or.inr ?_)
          rw [heq]
          exact List.mem_singleton.mpr rfl
        split
        · exact ⟨hWF, hInv, hAc⟩
        · rename_i db1 hadd
          unfold add_dependency at hadd
          rw [if_neg htd] at hadd
          by_cases hmem : (task.id, dep_task.id) ∈ db.deps
          · -- duplicate edge: the store is unchanged
            rw [if_pos hmem] at hadd
            injection hadd with hdb1
            subst hdb1
            split
            · -- demotion would fire: impossible under the invariant
              rename_i hcond
              exfalso
              have hndd : notDone db dep_task.id = true := by
                unfold notDone
                rw [hfd]
                exact bne_iff_ne.mpr hcond.2
              have hfalse := all_deps_false_of_edge hmem hndd
              have htrue := (hInv task htm).1 hcond.1
              rw [htrue] at hfalse
              cases hfalse
            · exact ⟨hWF, hInv, hAc⟩
          · rw [if_neg hmem] at hadd
            split at hadd
            · rename_i hFK
              injection hadd with hdb1
              subst hdb1
              have hndadb : ∀ y,
                  notDone ({ db with deps := db.deps ++ [(task.id, dep_task.id)] } : DB) y
                    = notDone db y := notDone_tasks_eq rfl
              have hWFadb : WF ({ db with deps := db.deps ++ [(task.id, dep_task.id)] } : DB) := by
                refine ⟨hWF.1, nodup_append_single hWF.2.1 hmem, ?_, ?_⟩
                · intro e he
                  rcases List.mem_append.mp he with ho | hn
                  · exact hWF.2.2.1 e ho
                  · rcases List.mem_singleton.mp hn with rfl
                    constructor
                    · rw [show findTask
                        ({ db with deps := db.deps ++ [(task.id, dep_task.id)] } : DB)
                          task.id = findTask db task.id from rfl, hft]
                      rfl
                    · rw [show findTask
                        ({ db with deps := db.deps ++ [(task.id, dep_task.id)] } : DB)
                          dep_task.id = findTask db dep_task.id from rfl, hfd]
                      rfl
                · intro e he
                  rcases List.mem_append.mp he with ho | hn
                  · exact hWF.2.2.2 e ho
                  · rcases List.mem_singleton.mp hn with rfl
                    exact htd
              have hAcadb : AcyclicInv
                  ({ db with deps := db.deps ++ [(task.id, dep_task.id)] } : DB) := by
                intro p
                by_cases hp : p = plan_id
                · subst hp
                  intro hcy
                  apply hnocyc
                  refine hasCycle_mono ?_ hcy
                  intro e he
                  obtain ⟨hed, u, hfu, hup⟩ := mem_planEdges.mp he
                  rcases List.mem_append.mp hed with ho | hn
                  · exact List.mem_append.mpr (Or.inl (mem_planEdges.mpr ⟨ho, u, hfu, hup⟩))
                  · exact List.mem_append.mpr (Or.inr hn)
                · intro hcy
                  apply hAc p
                  refine hasCycle_mono ?_ hcy
                  intro e he
                  obtain ⟨hed, u, hfu, hup⟩ := mem_planEdges.mp he
                  rcases List.mem_append.mp hed with ho | hn
                  · exact mem_planEdges.mpr ⟨ho, u, hfu, hup⟩
                  · exfalso
                    rcases List.mem_singleton.mp hn with rfl
                    have hfu' : findTask db task.id = some u := hfu
                    rw [hft] at hfu'
                    cases hfu'
                    exact hp (hup ▸ htp ▸ rfl)
              split
              · -- demote the task to blocked
                rename_i hcond
                have hnd1 : ∀ t', findTask
                    ({ db with deps := db.deps ++ [(task.id, dep_task.id)] } : DB) task.id
                      = some t' →
                    (TaskStatus.blocked != TaskStatus.done)
                      = (t'.status != TaskStatus.done) := by
                  intro t' hgt
                  have hgt' : findTask db task.id = some t' := hgt
                  rw [hft] at hgt'
                  cases hgt'
                  rw [hcond.1]
                  rfl
                refine ⟨wf_update _ task.id TaskStatus.blocked none now hWFadb, ?_, ?_⟩
                · intro u hu
                  obtain ⟨t, ht, rfl⟩ := mem_update_status hu
                  have hADf := @all_deps_update
                    ({ db with deps := db.deps ++ [(task.id, dep_task.id)] } : DB)
                    task.id TaskStatus.blocked none now hnd1
                  have htdb : t ∈ db.tasks := ht
                  by_cases hti : t.id = task.id
                  · rw [if_pos (by simpa using hti)]
                    constructor
                    · intro hst
                      rw [setStatusRow_status] at hst
                      cases hst
                    · intro _
                      rw [setStatusRow_id, hti, hADf task.id]
                      have hndd : notDone db dep_task.id = true := by
                        unfold notDone
                        rw [hfd]
                        exact bne_iff_ne.mpr hcond.2
                      refine @all_deps_false_of_edge
                        ({ db with deps := db.deps ++ [(task.id, dep_task.id)] } : DB)
                        task.id dep_task.id ?_ ?_
                      · exact List.mem_append.mpr (Or.inr (List.mem_singleton.mpr rfl))
                      · rw [hndadb dep_task.id]
                        exact hndd
                  · rw [if_neg (by simpa using hti)]
                    have hADt : all_dependencies_done
                        ({ db with deps := db.deps ++ [(task.id, dep_task.id)] } : DB) t.id
                          = all_dependencies_done db t.id := by
                      refine all_deps_ext rfl (fun e _ _ => hndadb e.2) ?_
                      intro e he
                      rcases List.mem_singleton.mp he with rfl
                      intro hc
                      exact hti hc.symm
                    constructor
                    · intro hst
                      rw [hADf t.id, hADt]
                      exact (hInv t htdb).1 hst
                    · intro hst
                      rw [hADf t.id, hADt]
                      exact (hInv t htdb).2 hst
                · exact acyclic_update _ task.id TaskStatus.blocked none now hAcadb
              · -- no demotion
                rename_i hncond
                refine ⟨hWFadb, ?_, hAcadb⟩
                intro u hu
                have hudb : u ∈ db.tasks := hu
                by_cases hui : u.id = task.id
                · have hut : u = task := by
                    have h1 : findTask db u.id = some u := findTask_of_mem hids hudb
                    rw [hui, hft] at h1
                    cases h1
                    rfl
                  subst hut
                  constructor
                  · intro hst
                    have hdone : dep_task.status = TaskStatus.done := by
                      by_contra hcd
                      exact hncond ⟨hst, hcd⟩
                    have hndf : notDone db dep_task.id = false := by
                      unfold notDone
                      rw [hfd]
                      show (dep_task.status != TaskStatus.done) = false
                      rw [hdone]
                      rfl
                    rw [all_deps_append_notdone_false rfl hndadb hndf u.id]
                    exact (hInv u hudb).1 hst
                  · intro hst
                    refine all_deps_false_superset (fun e he => List.mem_append.mpr
                      (Or.inl he)) hndadb ((hInv u hudb).2 hst)
                · have hADu : all_dependencies_done
                      ({ db with deps := db.deps ++ [(task.id, dep_task.id)] } : DB) u.id
                        = all_dependencies_done db u.id := by
                    refine all_deps_ext rfl (fun e _ _ => hndadb e.2) ?_
                    intro e he
                    rcases List.mem_singleton.mp he with rfl
                    intro hc
                    exact hui hc.symm
                  constructor
                  · intro hst
                    rw [hADu]
                    exact (hInv u hudb).1 hst
                  · intro hst
                    rw [hADu]
                    exact (hInv u hudb).2 hst
            · exact absurd hadd (fun hc => Except.noConfusion hc)
  | remove id dep_id =>
    cases hres : resolve_task db plan_id id with
    | error e =>
      simp only [run_dep, hres]
      exact ⟨hWF, hInv, hAc⟩
    | ok task =>
    cases hres2 : resolve_task db plan_id dep_id with
    | error e =>
      simp only [run_dep, hres, hres2]
      exact ⟨hWF, hInv, hAc⟩
    | ok dep_task =>
    have htm : task ∈ db.tasks := (resolve_task_ok hres).1
    have hft : findTask db task.id = some task := findTask_of_mem hids htm
    have hndr : ∀ y, notDone (remove_dependency db task.id dep_task.id) y = notDone db y :=
      notDone_tasks_eq rfl
    have hWFr : WF (remove_dependency db task.id dep_task.id) := by
      refine ⟨hWF.1, ?_, ?_, ?_⟩
      · exact List.Nodup.filter _ hWF.2.1
      · intro e he
        exact hWF.2.2.1 e (remove_dependency_sub e he)
      · intro e he
        exact hWF.2.2.2 e (remove_dependency_sub e he)
    have hAcr : AcyclicInv (remove_dependency db task.id dep_task.id) := by
      intro p hcy
      apply hAc p
      refine hasCycle_mono ?_ hcy
      intro e he
      obtain ⟨hed, u, hfu, hup⟩ := mem_planEdges.mp he
      exact mem_planEdges.mpr ⟨remove_dependency_sub e hed, u, hfu, hup⟩
    simp only [run_dep, hres, hres2]
    split
    · rename_i hcond
      split
      · -- promote the task to ready
        have hnd1 : ∀ t', findTask (remove_dependency db task.id dep_task.id) task.id
            = some t' →
            (TaskStatus.ready != TaskStatus.done) = (t'.status != TaskStatus.done) := by
          intro t' hgt
          have hgt' : findTask db task.id = some t' := hgt
          rw [hft] at hgt'
          cases hgt'
          rw [hcond.1]
          rfl
        refine ⟨wf_update _ task.id TaskStatus.ready none now hWFr, ?_,
          acyclic_update _ task.id TaskStatus.ready none now hAcr⟩
        intro u hu
        obtain ⟨t, ht, rfl⟩ := mem_update_status hu
        have htdb : t ∈ db.tasks := ht
        have hADf := @all_deps_update (remove_dependency db task.id dep_task.id)
          task.id TaskStatus.ready none now hnd1
        by_cases hti : t.id = task.id
        · rw [if_pos (by simpa using hti)]
          constructor
          · intro _
            rw [setStatusRow_id, hti, hADf task.id]
            exact hcond.2
          · intro hst
            rw [setStatusRow_status] at hst
            cases hst
        · rw [if_neg (by simpa using hti)]
          constructor
          · intro hst
            rw [hADf t.id, all_deps_remove_ne hti]
            exact (hInv t htdb).1 hst
          · intro hst
            rw [hADf t.id, all_deps_remove_ne hti]
            exact (hInv t htdb).2 hst
      · rename_i hic
        exact absurd (Or.inr hcond.2) hic
    · rename_i hncond
      refine ⟨hWFr, ?_, hAcr⟩
      intro u hu
      have hudb : u ∈ db.tasks := hu
      by_cases hui : u.id = task.id
      · have hut : u = task := by
          have h1 : findTask db u.id = some u := findTask_of_mem hids hudb
          rw [hui, hft] at h1
          cases h1
          rfl
        constructor
        · intro hst
          refine all_deps_true_subset remove_dependency_sub hndr ((hInv u hudb).1 hst)
        · intro hst
          cases hrd : all_dependencies_done (remove_dependency db task.id dep_task.id)
              u.id with
          | false => rfl
          | true =>
            exfalso
            apply hncond
            rw [hut] at hst
            refine ⟨hst, ?_⟩
            rw [hui] at hrd
            exact hrd
      · constructor
        · intro hst
          rw [all_deps_remove_ne hui]
          exact (hInv u hudb).1 hst
        · intro hst
          rw [all_deps_remove_ne hui]
          exact (hInv u hudb).2 hst

theorem findTask_tasks_eq {db db' : DB} (h : db'.tasks = db.tasks) (y : String) :
    findTask db' y = findTask db y := by
  unfold findTask
  rw [h]

theorem create_task_char {db db1 : DB} {id plan_id title : String}
    {description : Option String} {priority sort_order : Int} {status : TaskStatus}
    {agent : Option String} {now : String}
    (h : create_task db id plan_id title description priority sort_order status agent now
      = .ok db1) :
    findTask db id = none ∧ db1.deps = db.deps ∧
    ∃ r : Task, db1.tasks = db.tasks ++ [r] ∧ r.id = id ∧ r.status = status ∧
      r.plan_id = plan_id := by
  unfold create_task at h
  split at h
  · exact Except.noConfusion h
  · rename_i hns
    injection h with h2
    subst h2
    refine ⟨?_, rfl, _, rfl, rfl, rfl, rfl⟩
    cases hf : findTask db id with
    | none => rfl
    | some u =>
      rw [hf] at hns
      exact absurd rfl hns

theorem add_deps_go_char (tid : String) : ∀ (l : List Task) (db db2 : DB)
    (tr : List Stmt), add_deps_go tid db l = .ok (db2, tr) →
    db2.tasks = db.tasks ∧
    ∃ extra : Edges, db2.deps = db.deps ++ extra ∧
      (∀ e ∈ extra, e.1 = tid ∧ e.2 ≠ tid ∧ e.2 ∈ l.map (fun t => t.id) ∧
        (findTask db e.2).isSome = true) ∧
      (db.deps.Nodup → db2.deps.Nodup) := by
  intro l
  induction l with
  | nil =>
    intro db db2 tr h
    simp only [add_deps_go, Except.ok.injEq, Prod.mk.injEq] at h
    obtain ⟨hdb, -⟩ := h
    subst hdb
    exact ⟨rfl, [], by simp, by simp, fun hh => hh⟩
  | cons d rest ih =>
    intro db db2 tr h
    simp only [add_deps_go] at h
    cases hadd : add_dependency db tid d.id with
    | error e =>
      simp only [hadd] at h
      exact Except.noConfusion h
    | ok db1 =>
      simp only [hadd] at h
      cases hrec : add_deps_go tid db1 rest with
      | error e =>
        simp only [hrec] at h
        exact Except.noConfusion h
      | ok p =>
        obtain ⟨db2', tr'⟩ := p
        simp only [hrec, Except.ok.injEq, Prod.mk.injEq] at h
        obtain ⟨hdb, -⟩ := h
        subst hdb
        obtain ⟨hts, extra, hdeps, hprops, hnd⟩ := ih db1 db2' tr' hrec
        unfold add_dependency at hadd
        by_cases h1 : tid = d.id
        · rw [if_pos h1] at hadd
          injection hadd with h2
          subst h2
          refine ⟨hts, extra, hdeps, ?_, hnd⟩
          intro e he
          obtain ⟨p1, p2, p3, p4⟩ := hprops e he
          refine ⟨p1, p2, ?_, p4⟩
          rw [List.map_cons]
          exact List.mem_cons_of_mem _ p3
        · rw [if_neg h1] at hadd
          by_cases hmem : (tid, d.id) ∈ db.deps
          · rw [if_pos hmem] at hadd
            injection hadd with h2
            subst h2
            refine ⟨hts, extra, hdeps, ?_, hnd⟩
            intro e he
            obtain ⟨p1, p2, p3, p4⟩ := hprops e he
            refine ⟨p1, p2, ?_, p4⟩
            rw [List.map_cons]
            exact List.mem_cons_of_mem _ p3
          · rw [if_neg hmem] at hadd
            split at hadd
            · rename_i hFK
              injection hadd with h2
              subst h2
              refine ⟨hts, (tid, d.id) :: extra, ?_, ?_, ?_⟩
              · rw [hdeps]
                show (db.deps ++ [(tid, d.id)]) ++ extra = db.deps ++ (tid, d.id) :: extra
                rw [List.append_assoc]
                rfl
              · intro e he
                rcases List.mem_cons.mp he with rfl | he'
                · refine ⟨rfl, fun hc => h1 hc.symm, ?_, hFK.2⟩
                  rw [List.map_cons]
                  exact List.mem_cons_self _ _
                · obtain ⟨p1, p2, p3, p4⟩ := hprops e he'
                  refine ⟨p1, p2, ?_, p4⟩
                  rw [List.map_cons]
                  exact List.mem_cons_of_mem _ p3
              · intro hdn
                exact hnd (nodup_append_single hdn hmem)
            · exact absurd hadd (fun hc => Except.noConfusion hc)

theorem inv_run_add {db : DB} (h : WF db ∧ StatusInv db ∧ AcyclicInv db)
    (plan_id title : String) (description : Option String) (priority : Int)
    (agent : Option String) (after : List String) (new_id now : String)
    (hfresh : ∀ t ∈ db.tasks, t.id ≠ new_id) :
    WF (run_add db plan_id title description priority agent after new_id now).2.1 ∧
    StatusInv (run_add db plan_id title description priority agent after new_id now).2.1 ∧
    AcyclicInv (run_add db plan_id title description priority agent after
      new_id now).2.1 := by
  obtain ⟨hWF, hInv, hAc⟩ := h
  simp only [run_add]
  split
  · exact ⟨hWF, hInv, hAc⟩
  · rename_i resolved hrd
    split
    · rename_i db2 tr hb
      split at hb
      · exact Except.noConfusion hb
      · rename_i db1 hct
        obtain ⟨hnone, hdeps1, r, hts1, hrid, hrst, hrplan⟩ := create_task_char hct
        split at hb
        · exact Except.noConfusion hb
        · rename_i db2m tr2 hdg
          obtain ⟨hts, extra, hdeps, hprops, hndimp⟩ :=
            add_deps_go_char new_id resolved db1 db2m tr2 hdg
          have hts2 : db2m.tasks = db.tasks ++ [r] := by rw [hts, hts1]
          have hdeps2 : db2m.deps = db.deps ++ extra := by rw [hdeps, hdeps1]
          have hfold : ∀ y, (findTask db y).isSome = true →
              findTask db2m y = findTask db y := by
            intro y hy
            obtain ⟨u, hu⟩ := Option.isSome_iff_exists.mp hy
            unfold findTask at hu ⊢
            rw [hts2, find?_append_of_some hu, hu]
          have hfnew : findTask db2m new_id = some r := by
            unfold findTask
            rw [hts2]
            unfold findTask at hnone
            rw [find?_append_of_none hnone]
            exact List.find?_cons_of_pos _ (by simp [hrid])
          have hno_in : ∀ e ∈ db.deps, e.1 ≠ new_id ∧ e.2 ≠ new_id := by
            intro e he
            obtain ⟨h1, h2⟩ := hWF.2.2.1 e he
            constructor
            · obtain ⟨u, hu⟩ := Option.isSome_iff_exists.mp h1
              intro hc
              exact hfresh u (findTask_mem hu).1 (by rw [(findTask_mem hu).2, hc])
            · obtain ⟨u, hu⟩ := Option.isSome_iff_exists.mp h2
              intro hc
              exact hfresh u (findTask_mem hu).1 (by rw [(findTask_mem hu).2, hc])
          have hndstable : ∀ y, (findTask db y).isSome = true →
              notDone db2m y = notDone db y := by
            intro y hy
            unfold notDone
            rw [hfold y hy]
          have hADold : ∀ x, x ≠ new_id →
              all_dependencies_done db2m x = all_dependencies_done db x := by
            intro x hx
            refine all_deps_ext hdeps2 ?_ ?_
            · intro e he _
              exact hndstable e.2 (hWF.2.2.1 e he).2
            · intro e he
              rw [(hprops e he).1]
              exact fun hc => hx hc.symm
          have hmemid : ∀ u ∈ db2m.tasks, u.id = new_id → u = r := by
            intro u hu hui
            rw [hts2] at hu
            rcases List.mem_append.mp hu with ho | hn
            · exact absurd hui (hfresh u ho)
            · exact List.mem_singleton.mp hn
          have hids2 : (db2m.tasks.map (fun t => t.id)).Nodup := by
            rw [hts2, List.map_append]
            have hmap1 : ([r] : List Task).map (fun t => t.id) = [new_id] := by
              simp [hrid]
            rw [hmap1]
            refine nodup_append_single hWF.1 ?_
            intro hc
            obtain ⟨t, ht, hid⟩ := List.mem_map.mp hc
            exact hfresh t ht hid
          have hWF2 : WF db2m := by
            refine ⟨hids2, hndimp (hdeps1 ▸ hWF.2.1), ?_, ?_⟩
            · intro e he
              rw [hdeps2] at he
              rcases List.mem_append.mp he with ho | hn
              · obtain ⟨h1, h2⟩ := hWF.2.2.1 e ho
                rw [hfold e.1 h1, hfold e.2 h2]
                exact ⟨h1, h2⟩
              · obtain ⟨p1, p2, p3, p4⟩ := hprops e hn
                constructor
                · rw [p1, hfnew]
                  rfl
                · rw [findTask_tasks_eq hts e.2]
                  exact p4
            · intro e he
              rw [hdeps2] at he
              rcases List.mem_append.mp he with ho | hn
              · exact hWF.2.2.2 e ho
              · obtain ⟨p1, p2, -, -⟩ := hprops e hn
                rw [p1]
                exact fun hc => p2 hc.symm
          have hAc2 : AcyclicInv db2m := by
            intro p hcy
            have hnew2 : ∀ e ∈ extra, e.1 = new_id := fun e he => (hprops e he).1
            have hnoin2 : ∀ e ∈ get_all_dependencies_for_plan db p ++ extra,
                e.2 ≠ new_id := by
              intro e he
              rcases List.mem_append.mp he with ho | hn
              · exact (hno_in e (mem_planEdges.mp ho).1).2
              · exact (hprops e hn).2.1
            have hsub2 : ∀ e ∈ get_all_dependencies_for_plan db2m p,
                e ∈ get_all_dependencies_for_plan db p ++ extra := by
              intro e he
              obtain ⟨hed, u, hfu, hup⟩ := mem_planEdges.mp he
              rw [hdeps2] at hed
              rcases List.mem_append.mp hed with ho | hn
              · refine List.mem_append.mpr (Or.inl (mem_planEdges.mpr ⟨ho, u, ?_, hup⟩))
                rw [← hfold e.1 (hWF.2.2.1 e ho).1]
                exact hfu
              · exact List.mem_append.mpr (Or.inr hn)
            exact @hasCycle_append_fresh_source (get_all_dependencies_for_plan db p)
              extra new_id hnew2 hnoin2 (hAc p) (hasCycle_mono hsub2 hcy)
          split at hb
          · rename_i hcond
            simp only [Except.ok.injEq, Prod.mk.injEq] at hb
            obtain ⟨rfl, -⟩ := hb
            have hnd1 : ∀ t', findTask db2m new_id = some t' →
                (TaskStatus.blocked != TaskStatus.done)
                  = (t'.status != TaskStatus.done) := by
              intro t' hgt
              rw [hfnew] at hgt
              cases hgt
              rw [hrst]
              rfl
            have hADf := @all_deps_update db2m new_id TaskStatus.blocked none now hnd1
            refine ⟨wf_update db2m new_id TaskStatus.blocked none now hWF2, ?_,
              acyclic_update db2m new_id TaskStatus.blocked none now hAc2⟩
            intro u hu
            obtain ⟨t, ht, rfl⟩ := mem_update_status hu
            by_cases hti : t.id = new_id
            · rw [if_pos (by simpa using hti)]
              constructor
              · intro hst
                rw [setStatusRow_status] at hst
                cases hst
              · intro _
                rw [setStatusRow_id, hti, hADf new_id]
                cases hads : all_dependencies_done db2m new_id with
                | false => rfl
                | true => exact absurd hads hcond.2
            · rw [if_neg (by simpa using hti)]
              have htdb : t ∈ db.tasks := by
                rw [hts2] at ht
                rcases List.mem_append.mp ht with ho | hn
                · exact ho
                · rcases List.mem_singleton.mp hn with rfl
                  exact absurd hrid hti
              constructor
              · intro hst
                rw [hADf t.id, hADold t.id hti]
                exact (hInv t htdb).1 hst
              · intro hst
                rw [hADf t.id, hADold t.id hti]
                exact (hInv t htdb).2 hst
          · rename_i hncond
            simp only [Except.ok.injEq, Prod.mk.injEq] at hb
            obtain ⟨rfl, -⟩ := hb
            refine ⟨hWF2, ?_, hAc2⟩
            intro u hu
            by_cases hui : u.id = new_id
            · have hur : u = r := hmemid u hu hui
              subst hur
              constructor
              · intro _
                rw [hrid]
                cases hads : all_dependencies_done db2m new_id with
                | true => rfl
                | false =>
                  exfalso
                  have hres_nil : resolved = [] := by
                    by_contra hrn
                    refine hncond ⟨hrn, ?_⟩
                    rw [hads]
                    simp
                  obtain ⟨e, he, hex, -⟩ := all_deps_false_iff.mp hads
                  rw [hdeps2] at he
                  rcases List.mem_append.mp he with ho | hn
                  · exact (hno_in e ho).1 hex
                  · have hmem3 := (hprops e hn).2.2.1
                    rw [hres_nil] at hmem3
                    cases hmem3
              · intro hst
                rw [hrst] at hst
                cases hst
            · have hudb : u ∈ db.tasks := by
                rw [hts2] at hu
                rcases List.mem_append.mp hu with ho | hn
                · exact ho
                · rcases List.mem_singleton.mp hn with rfl
                  exact absurd hrid hui
              constructor
              · intro hst
                rw [hADold u.id hui]
                exact (hInv u hudb).1 hst
              · intro hst
                rw [hADold u.id hui]
                exact (hInv u hudb).2 hst
    · exact ⟨hWF, hInv, hAc⟩

theorem nodup_map_id_unique {α : Type} {f : α → String} : ∀ {l : List α},
    (l.map f).Nodup → ∀ {t t' : α}, t ∈ l → t' ∈ l → f t' = f t → t' = t := by
  intro l
  induction l with
  | nil =>
    intro _ t t' ht
    cases ht
  | cons a rest ih =>
    intro hnd t t' ht ht' heq
    rw [List.map_cons, List.nodup_cons] at hnd
    rcases List.mem_cons.mp ht with rfl | ht1
    · rcases List.mem_cons.mp ht' with rfl | ht2
      · rfl
      · exfalso
        apply hnd.1
        rw [← heq]
        exact List.mem_map_of_mem f ht2
    · rcases List.mem_cons.mp ht' with rfl | ht2
      · exfalso
        apply hnd.1
        rw [heq]
        exact List.mem_map_of_mem f ht1
      · exact ih hnd.2 ht1 ht2 heq

theorem mem_load_edges {input : PlanLoadInput} {e : String × String} :
    e ∈ load_edges input ↔ ∃ t ∈ input.tasks, e.1 = t.id ∧ e.2 ∈ t.after := by
  unfold load_edges
  rw [List.mem_flatten]
  constructor
  · rintro ⟨l, hl, hel⟩
    obtain ⟨t, ht, rfl⟩ := List.mem_map.mp hl
    obtain ⟨dep, hdep, heq⟩ := List.mem_map.mp hel
    refine ⟨t, ht, ?_, ?_⟩
    · rw [← heq]
    · rw [← heq]
      exact hdep
  · rintro ⟨t, ht, h1, h2⟩
    refine ⟨t.after.map (fun dep => (t.id, dep)), List.mem_map_of_mem _ ht, ?_⟩
    refine List.mem_map.mpr ⟨e.2, h2, ?_⟩
    cases e
    simp_all

theorem load_check_ids_char : ∀ (l : List TaskInput) (seen : List String),
    load_check_ids seen l = .ok () →
    (l.map (fun t => t.id)).Nodup ∧ ∀ t ∈ l, t.id ∉ seen := by
  intro l
  induction l with
  | nil =>
    intro seen _
    exact ⟨List.nodup_nil, by simp⟩
  | cons t rest ih =>
    intro seen h
    simp only [load_check_ids] at h
    split at h
    · exact Except.noConfusion h
    · split at h
      · exact Except.noConfusion h
      · split at h
        · exact Except.noConfusion h
        · rename_i hseen
          obtain ⟨hnd, hmem⟩ := ih (t.id :: seen) h
          rw [List.map_cons, List.nodup_cons]
          refine ⟨⟨?_, hnd⟩, ?_⟩
          · intro hc
            obtain ⟨u, hu, hueq⟩ := List.mem_map.mp hc
            exact hmem u hu (by rw [hueq]; exact List.mem_cons_self _ _)
          · intro u hu2
            rcases List.mem_cons.mp hu2 with rfl | hu'
            · exact hseen
            · intro hc
              exact hmem u hu' (List.mem_cons_of_mem _ hc)

theorem load_check_task_refs_char (ids : List String) (tid : String) :
    ∀ (l : List String), load_check_task_refs ids tid l = .ok () →
    ∀ dep ∈ l, dep ≠ tid ∧ dep ∈ ids := by
  intro l
  induction l with
  | nil =>
    intro _ dep hdep
    cases hdep
  | cons d rest ih =>
    intro h dep hdep
    simp only [load_check_task_refs] at h
    split at h
    · exact Except.noConfusion h
    · split at h
      · exact Except.noConfusion h
      · rename_i hne hmem
        rcases List.mem_cons.mp hdep with rfl | hd'
        · refine ⟨hne, ?_⟩
          by_contra hc
          exact hmem hc
        · exact ih h dep hd'

theorem load_check_refs_char (ids : List String) : ∀ (l : List TaskInput),
    load_check_refs ids l = .ok () →
    ∀ t ∈ l, ∀ dep ∈ t.after, dep ≠ t.id ∧ dep ∈ ids := by
  intro l
  induction l with
  | nil =>
    intro _ t ht
    cases ht
  | cons a rest ih =>
    intro h t ht dep hdep
    simp only [load_check_refs] at h
    cases hc : load_check_task_refs ids a.id a.after with
    | error e =>
      rw [hc] at h
      exact Except.noConfusion h
    | ok u =>
      cases u
      rw [hc] at h
      rcases List.mem_cons.mp ht with rfl | ht'
      · exact load_check_task_refs_char ids t.id t.after hc dep hdep
      · exact ih h t ht' dep hdep

theorem validate_load_input_char {input : PlanLoadInput}
    (h : validate_load_input input = .ok ()) :
    (load_nodes input).Nodup ∧
    (∀ t ∈ input.tasks, ∀ dep ∈ t.after, dep ≠ t.id ∧ dep ∈ load_nodes input) ∧
    ¬ HasCycle (load_edges input) := by
  unfold validate_load_input at h
  split at h
  · exact Except.noConfusion h
  · split at h
    · exact Except.noConfusion h
    · split at h
      · exact Except.noConfusion h
      · cases hci : load_check_ids [] input.tasks with
        | error e =>
          rw [hci] at h
          exact Except.noConfusion h
        | ok u =>
          cases u
          rw [hci] at h
          cases hcr : load_check_refs (load_nodes input) input.tasks with
          | error e =>
            rw [hcr] at h
            exact Except.noConfusion h
          | ok u =>
            cases u
            rw [hcr] at h
            refine ⟨(load_check_ids_char input.tasks [] hci).1, ?_, ?_⟩
            · exact load_check_refs_char (load_nodes input) input.tasks hcr
            · exact (detect_cycleT_ok_iff (load_nodes input) (load_edges input)).mp h

theorem load_create_go_char (plan_id : String) (gen : String → String) (now : String) :
    ∀ (l : List TaskInput) (db : DB) (i : Nat) (db2 : DB) (tr : List Stmt),
    load_create_go plan_id gen now db i l = .ok (db2, tr) →
    db2.deps = db.deps ∧
    ∃ rows : List Task, db2.tasks = db.tasks ++ rows ∧
      rows.map (fun t => t.id) = l.map (fun t => gen t.id) ∧
      (∀ r ∈ rows, r.plan_id = plan_id ∧ r.status ≠ TaskStatus.done ∧
        ∃ t ∈ l, r.id = gen t.id ∧
          (t.after.isEmpty = true → r.status = TaskStatus.ready) ∧
          (t.after.isEmpty = false → r.status = TaskStatus.blocked)) := by
  intro l
  induction l with
  | nil =>
    intro db i db2 tr h
    simp only [load_create_go, Except.ok.injEq, Prod.mk.injEq] at h
    obtain ⟨hdb, -⟩ := h
    subst hdb
    exact ⟨rfl, [], by simp, by simp, by simp⟩
  | cons t rest ih =>
    intro db i db2 tr h
    simp only [load_create_go] at h
    cases hct : create_task db (gen t.id) plan_id t.title t.description t.priority
        (Int.ofNat i) (if t.after.isEmpty then TaskStatus.ready else TaskStatus.blocked)
        t.agent now with
    | error e =>
      simp only [hct] at h
      exact Except.noConfusion h
    | ok db1 =>
      simp only [hct] at h
      cases hrec : load_create_go plan_id gen now db1 (i + 1) rest with
      | error e =>
        simp only [hrec] at h
        exact Except.noConfusion h
      | ok p =>
        obtain ⟨db2', tr'⟩ := p
        simp only [hrec, Except.ok.injEq, Prod.mk.injEq] at h
        obtain ⟨hdb, -⟩ := h
        subst hdb
        obtain ⟨-, hdeps1, r, hts1, hrid, hrst, hrplan⟩ := create_task_char hct
        obtain ⟨hdeps2, rows, hts2, hrowids, hrowprops⟩ := ih db1 (i + 1) db2' tr' hrec
        refine ⟨by rw [hdeps2, hdeps1], r :: rows, ?_, ?_, ?_⟩
        · rw [hts2, hts1, List.append_assoc]
          rfl
        · rw [List.map_cons, List.map_cons, hrowids, hrid]
        · intro r' hr'
          rcases List.mem_cons.mp hr' with rfl | hr2
          · refine ⟨hrplan, ?_, t, List.mem_cons_self _ _, hrid, ?_, ?_⟩
            · rw [hrst]
              by_cases he : t.after.isEmpty = true <;> simp [he]
            · intro he
              rw [hrst, if_pos he]
            · intro he
              rw [hrst, he]
              rfl
          · obtain ⟨p1, p2, u, hu, p3⟩ := hrowprops r' hr2
            exact ⟨p1, p2, u, List.mem_cons_of_mem _ hu, p3⟩

theorem load_task_deps_go_char (gen : String → String) (tid : String) :
    ∀ (l : List String) (db db2 : DB) (tr : List Stmt),
    load_task_deps_go gen tid db l = .ok (db2, tr) →
    db2.tasks = db.tasks ∧
    (∀ e ∈ db.deps, e ∈ db2.deps) ∧
    (∀ e ∈ db2.deps, e ∈ db.deps ∨ (e.1 = gen tid ∧ e.2 ∈ l.map gen ∧ e.1 ≠ e.2 ∧
      (findTask db e.1).isSome = true ∧ (findTask db e.2).isSome = true)) ∧
    (db.deps.Nodup → db2.deps.Nodup) ∧
    (∀ dep ∈ l, gen tid ≠ gen dep → (gen tid, gen dep) ∈ db2.deps) := by
  intro l
  induction l with
  | nil =>
    intro db db2 tr h
    simp only [load_task_deps_go, Except.ok.injEq, Prod.mk.injEq] at h
    obtain ⟨hdb, -⟩ := h
    subst hdb
    exact ⟨rfl, fun e he => he, fun e he => Or.inl he, fun hh => hh, by simp⟩
  | cons dep rest ih =>
    intro db db2 tr h
    simp only [load_task_deps_go] at h
    cases hadd : add_dependency db (gen tid) (gen dep) with
    | error e =>
      simp only [hadd] at h
      exact Except.noConfusion h
    | ok db1 =>
      simp only [hadd] at h
      cases hrec : load_task_deps_go gen tid db1 rest with
      | error e =>
        simp only [hrec] at h
        exact Except.noConfusion h
      | ok p =>
        obtain ⟨db2', tr'⟩ := p
        simp only [hrec, Except.ok.injEq, Prod.mk.injEq] at h
        obtain ⟨hdb, -⟩ := h
        subst hdb
        obtain ⟨hts, hsub, hsup, hnd, hmemdep⟩ := ih db1 db2' tr' hrec
        unfold add_dependency at hadd
        by_cases h1 : gen tid = gen dep
        · rw [if_pos h1] at hadd
          injection hadd with h2
          subst h2
          refine ⟨hts, hsub, ?_, hnd, ?_⟩
          · intro e he
            rcases hsup e he with ho | hn
            · exact Or.inl ho
            · refine Or.inr ⟨hn.1, ?_, hn.2.2⟩
              rw [List.map_cons]
              exact List.mem_cons_of_mem _ hn.2.1
          · intro dep' hdep' hne
            rcases List.mem_cons.mp hdep' with rfl | hd'
            · exact absurd h1 hne
            · exact hmemdep dep' hd' hne
        · rw [if_neg h1] at hadd
          by_cases hmem : (gen tid, gen dep) ∈ db.deps
          · rw [if_pos hmem] at hadd
            injection hadd with h2
            subst h2
            refine ⟨hts, hsub, ?_, hnd, ?_⟩
            · intro e he
              rcases hsup e he with ho | hn
              · exact Or.inl ho
              · refine Or.inr ⟨hn.1, ?_, hn.2.2⟩
                rw [List.map_cons]
                exact List.mem_cons_of_mem _ hn.2.1
            · intro dep' hdep' hne
              rcases List.mem_cons.mp hdep' with rfl | hd'
              · exact hsub _ hmem
              · exact hmemdep dep' hd' hne
          · rw [if_neg hmem] at hadd
            split at hadd
            · rename_i hFK
              injection hadd with h2
              subst h2
              refine ⟨hts, ?_, ?_, ?_, ?_⟩
              · intro e he
                exact hsub e (List.mem_append.mpr (Or.inl he))
              · intro e he
                rcases hsup e he with ho | hn
                · rcases List.mem_append.mp ho with ho1 | ho2
                  · exact Or.inl ho1
                  · rcases List.mem_singleton.mp ho2 with rfl
                    refine Or.inr ⟨rfl, ?_, h1, hFK.1, hFK.2⟩
                    rw [List.map_cons]
                    exact List.mem_cons_self _ _
                · refine Or.inr ⟨hn.1, ?_, hn.2.2⟩
                  rw [List.map_cons]
                  exact List.mem_cons_of_mem _ hn.2.1
              · intro hdn
                exact hnd (nodup_append_single hdn hmem)
              · intro dep' hdep' hne
                rcases List.mem_cons.mp hdep' with rfl | hd'
                · exact hsub _ (List.mem_append.mpr (Or.inr (List.mem_singleton.mpr rfl)))
                · exact hmemdep dep' hd' hne
            · exact absurd hadd (fun hc => Except.noConfusion hc)

theorem load_deps_go_char (gen : String → String) : ∀ (l : List TaskInput)
    (db db2 : DB) (tr : List Stmt),
    load_deps_go gen db l = .ok (db2, tr) →
    db2.tasks = db.tasks ∧
    (∀ e ∈ db.deps, e ∈ db2.deps) ∧
    (∀ e ∈ db2.deps, e ∈ db.deps ∨ ∃ t ∈ l, e.1 = gen t.id ∧ e.2 ∈ t.after.map gen ∧
      e.1 ≠ e.2 ∧ (findTask db e.1).isSome = true ∧ (findTask db e.2).isSome = true) ∧
    (db.deps.Nodup → db2.deps.Nodup) ∧
    (∀ t ∈ l, ∀ dep ∈ t.after, gen t.id ≠ gen dep → (gen t.id, gen dep) ∈ db2.deps) := by
  intro l
  induction l with
  | nil =>
    intro db db2 tr h
    simp only [load_deps_go, Except.ok.injEq, Prod.mk.injEq] at h
    obtain ⟨hdb, -⟩ := h
    subst hdb
    exact ⟨rfl, fun e he => he, fun e he => Or.inl he, fun hh => hh, by simp⟩
  | cons t rest ih =>
    intro db db2 tr h
    simp only [load_deps_go] at h
    cases h1 : load_task_deps_go gen t.id db t.after with
    | error e =>
      simp only [h1] at h
      exact Except.noConfusion h
    | ok p1 =>
      obtain ⟨db1, tr1⟩ := p1
      simp only [h1] at h
      cases hrec : load_deps_go gen db1 rest with
      | error e =>
        simp only [hrec] at h
        exact Except.noConfusion h
      | ok p =>
        obtain ⟨db2', tr2⟩ := p
        simp only [hrec, Except.ok.injEq, Prod.mk.injEq] at h
        obtain ⟨hdb, -⟩ := h
        subst hdb
        obtain ⟨hts1, hsub1, hsup1, hnd1, hdep1⟩ :=
          load_task_deps_go_char gen t.id t.after db db1 tr1 h1
        obtain ⟨hts2, hsub2, hsup2, hnd2, hdep2⟩ := ih db1 db2' tr2 hrec
        refine ⟨by rw [hts2, hts1], fun e he => hsub2 e (hsub1 e he), ?_,
          fun hh => hnd2 (hnd1 hh), ?_⟩
        · intro e he
          rcases hsup2 e he with ho | hn
          · rcases hsup1 e ho with ho1 | hn1
            · exact Or.inl ho1
            · exact Or.inr ⟨t, List.mem_cons_self _ _, hn1.1, hn1.2.1, hn1.2.2⟩
          · obtain ⟨t', ht', q1, q2, q3, q4, q5⟩ := hn
            rw [findTask_tasks_eq hts1] at q4 q5
            exact Or.inr ⟨t', List.mem_cons_of_mem _ ht', q1, q2, q3, q4, q5⟩
        · intro t' ht' dep hdep hne
          rcases List.mem_cons.mp ht' with rfl | ht2
          · exact hsub2 _ (hdep1 dep hdep hne)
          · exact hdep2 t' ht2 dep hdep hne

theorem inv_run_load {db : DB} (h : WF db ∧ StatusInv db ∧ AcyclicInv db)
    (input : PlanLoadInput) (plan_id : String) (gen : String → String) (now : String)
    (hfresh : ∀ a ∈ load_nodes input, ∀ t ∈ db.tasks, gen a ≠ t.id)
    (hinj : ∀ a ∈ load_nodes input, ∀ b ∈ load_nodes input, gen a = gen b → a = b)
    (hplanfresh : ∀ t ∈ db.tasks, t.plan_id ≠ plan_id) :
    WF (run_load db input plan_id gen now).2.1 ∧
    StatusInv (run_load db input plan_id gen now).2.1 ∧
    AcyclicInv (run_load db input plan_id gen now).2.1 := by
  obtain ⟨hWF, hInv, hAc⟩ := h
  simp only [run_load]
  split
  · exact ⟨hWF, hInv, hAc⟩
  · rename_i hval
    obtain ⟨hnodupN, hrefs, hnocycle⟩ := validate_load_input_char hval
    split
    · rename_i db2 tr hb
      split at hb
      · exact Except.noConfusion hb
      · rename_i db1 tr1 hcg
        obtain ⟨hdeps1, rows, hts1, hrowids, hrowprops⟩ :=
          load_create_go_char plan_id gen now input.tasks db 0 db1 tr1 hcg
        split at hb
        · exact Except.noConfusion hb
        · rename_i db2' tr2 hdg
          obtain ⟨hts2, hsub2, hsup2, hnd2, hdep2⟩ :=
            load_deps_go_char gen input.tasks db1 db2' tr2 hdg
          simp only [Except.ok.injEq, Prod.mk.injEq] at hb
          obtain ⟨rfl, -⟩ := hb
          -- facts about the final store db2'
          have htsf : db2'.tasks = db.tasks ++ rows := by rw [hts2, hts1]
          have hrowids' : rows.map (fun t => t.id) = (load_nodes input).map gen := by
            rw [hrowids]
            unfold load_nodes
            rw [List.map_map]
            rfl
          have hrownodup : (rows.map (fun t => t.id)).Nodup := by
            rw [hrowids']
            exact List.Nodup.map_on (fun a ha b hb hab => hinj a ha b hb hab) hnodupN
          have hrowfresh : ∀ r ∈ rows, ∀ u ∈ db.tasks, r.id ≠ u.id := by
            intro r hr u hu
            obtain ⟨-, -, t, ht, hrid, -⟩ := hrowprops r hr
            rw [hrid]
            intro hc
            exact hfresh t.id (List.mem_map_of_mem _ ht) u hu hc
          have hfold : ∀ y, (findTask db y).isSome = true →
              findTask db2' y = findTask db y := by
            intro y hy
            obtain ⟨u, hu⟩ := Option.isSome_iff_exists.mp hy
            unfold findTask at hu ⊢
            rw [htsf, find?_append_of_some hu, hu]
          have hfrow : ∀ r ∈ rows, findTask db2' r.id = some r := by
            intro r hr
            unfold findTask
            rw [htsf]
            have hnone : db.tasks.find? (fun t => t.id == r.id) = none := by
              rw [List.find?_eq_none]
              intro u hu hc
              have hcc : u.id = r.id := by simpa using hc
              exact hrowfresh r hr u hu hcc.symm
            rw [find?_append_of_none hnone]
            exact find?_id_of_nodup hrownodup hr
          have hrowbyN : ∀ a ∈ load_nodes input, ∃ r ∈ rows, r.id = gen a := by
            intro a ha
            have hmm : gen a ∈ rows.map (fun t => t.id) := by
              rw [hrowids']
              exact List.mem_map_of_mem gen ha
            obtain ⟨r, hr, hreq⟩ := List.mem_map.mp hmm
            exact ⟨r, hr, hreq⟩
          have hndstable : ∀ y, (findTask db y).isSome = true →
              notDone db2' y = notDone db y := by
            intro y hy
            unfold notDone
            rw [hfold y hy]
          have hinputnd : (input.tasks.map (fun t => t.id)).Nodup := hnodupN
          have hids2 : (db2'.tasks.map (fun t => t.id)).Nodup := by
            rw [htsf, List.map_append, List.nodup_append]
            refine ⟨hWF.1, hrownodup, ?_⟩
            intro x hx hx2
            obtain ⟨u, hu, hueq⟩ := List.mem_map.mp hx
            obtain ⟨r, hr, hreq⟩ := List.mem_map.mp hx2
            exact hrowfresh r hr u hu (by rw [hreq, hueq])
          have hWF2 : WF db2' := by
            refine ⟨hids2, hnd2 (hdeps1 ▸ hWF.2.1), ?_, ?_⟩
            · intro e he
              rcases hsup2 e he with ho | hn
              · rw [hdeps1] at ho
                obtain ⟨q1, q2⟩ := hWF.2.2.1 e ho
                rw [hfold e.1 q1, hfold e.2 q2]
                exact ⟨q1, q2⟩
              · obtain ⟨t', ht', q1, q2, q3, q4, q5⟩ := hn
                constructor
                · rw [show findTask db2' e.1 = findTask db1 e.1 from
                    findTask_tasks_eq hts2 e.1]
                  exact q4
                · rw [show findTask db2' e.2 = findTask db1 e.2 from
                    findTask_tasks_eq hts2 e.2]
                  exact q5
            · intro e he
              rcases hsup2 e he with ho | hn
              · rw [hdeps1] at ho
                exact hWF.2.2.2 e ho
              · obtain ⟨-, -, -, -, q3, -, -⟩ := hn
                exact q3
          have hAc2 : AcyclicInv db2' := by
            intro p
            by_cases hp : p = plan_id
            · subst hp
              refine hasCycle_relabel (S := load_edges input) (N := load_nodes input)
                ?_ hinj hnocycle
              intro e he
              obtain ⟨hed, v, hfv, hvp⟩ := mem_planEdges.mp he
              rcases hsup2 e hed with ho | hn
              · exfalso
                rw [hdeps1] at ho
                have hq := (hWF.2.2.1 e ho).1
                rw [hfold e.1 hq] at hfv
                obtain ⟨u, hu⟩ := Option.isSome_iff_exists.mp hq
                rw [hu] at hfv
                cases hfv
                exact hplanfresh _ (findTask_mem hu).1 hvp
              · obtain ⟨t', ht', q1, q2, -, -, -⟩ := hn
                obtain ⟨dep, hdep, hdepeq⟩ := List.mem_map.mp q2
                have htid : t'.id ∈ load_nodes input := List.mem_map_of_mem _ ht'
                have hdepN : dep ∈ load_nodes input := (hrefs t' ht' dep hdep).2
                refine ⟨t'.id, htid, dep, hdepN, ?_, ?_⟩
                · cases e
                  simp only at q1 hdepeq
                  rw [q1, ← hdepeq]
                · refine mem_load_edges.mpr ⟨t', ht', rfl, hdep⟩
            · intro hcy
              apply hAc p
              refine hasCycle_mono ?_ hcy
              intro e he
              obtain ⟨hed, v, hfv, hvp⟩ := mem_planEdges.mp he
              rcases hsup2 e hed with ho | hn
              · rw [hdeps1] at ho
                refine mem_planEdges.mpr ⟨ho, v, ?_, hvp⟩
                rw [← hfold e.1 (hWF.2.2.1 e ho).1]
                exact hfv
              · exfalso
                obtain ⟨t', ht', q1, -, -, -, -⟩ := hn
                obtain ⟨r, hr, hreq⟩ := hrowbyN t'.id (List.mem_map_of_mem _ ht')
                have hfr : findTask db2' e.1 = some r := by
                  rw [q1, ← hreq]
                  exact hfrow r hr
                rw [hfr] at hfv
                cases hfv
                apply hp
                rw [← hvp]
                exact (hrowprops v hr).1
          refine ⟨hWF2, ?_, hAc2⟩
          intro u hu
          rw [htsf] at hu
          rcases List.mem_append.mp hu with huold | hurow
          · constructor
            · intro hst
              rw [all_deps_true_iff]
              intro e he hex
              rcases hsup2 e he with ho | hn
              · rw [hdeps1] at ho
                rw [hndstable e.2 (hWF.2.2.1 e ho).2]
                exact all_deps_true_iff.mp ((hInv u huold).1 hst) e ho hex
              · exfalso
                obtain ⟨t', ht', q1, -, -, -, -⟩ := hn
                apply hfresh t'.id (List.mem_map_of_mem _ ht') u huold
                rw [← q1, hex]
            · intro hst
              rw [all_deps_false_iff]
              obtain ⟨e, he, hex, hnd1⟩ := all_deps_false_iff.mp ((hInv u huold).2 hst)
              refine ⟨e, hsub2 e (hdeps1 ▸ he), hex, ?_⟩
              rw [hndstable e.2 (hWF.2.2.1 e he).2]
              exact hnd1
          · obtain ⟨hrplan, hrnd, t, ht, hrid, hre, hrne⟩ := hrowprops u hurow
            constructor
            · intro hst
              rw [all_deps_true_iff]
              intro e he hex
              rcases hsup2 e he with ho | hn
              · exfalso
                rw [hdeps1] at ho
                obtain ⟨v, hv⟩ := Option.isSome_iff_exists.mp (hWF.2.2.1 e ho).1
                apply hfresh t.id (List.mem_map_of_mem _ ht) v (findTask_mem hv).1
                rw [← hrid, ← hex, (findTask_mem hv).2]
              · exfalso
                obtain ⟨t', ht', q1, q2, -, -, -⟩ := hn
                have htt : t' = t := by
                  refine nodup_map_id_unique hinputnd ht ht' ?_
                  refine hinj t'.id (List.mem_map_of_mem _ ht') t.id
                    (List.mem_map_of_mem _ ht) ?_
                  rw [← q1, hex, hrid]
                subst htt
                have hafter_nil : t'.after = [] := by
                  cases hcae : t'.after with
                  | nil => rfl
                  | cons d0 rest0 =>
                    exfalso
                    have hbl := hrne (by rw [hcae]; rfl)
                    rw [hst] at hbl
                    cases hbl
                rw [hafter_nil] at q2
                cases q2
            · intro hst
              rw [all_deps_false_iff]
              have hafter_ne : t.after ≠ [] := by
                intro hnil
                have hready := hre (by rw [hnil]; rfl)
                rw [hst] at hready
                cases hready
              obtain ⟨d0, rest0, hcae⟩ : ∃ d0 rest0, t.after = d0 :: rest0 := by
                cases hc : t.after with
                | nil => exact absurd hc hafter_ne
                | cons a b => exact ⟨a, b, rfl⟩
              have hd0 : d0 ∈ t.after := by
                rw [hcae]
                exact List.mem_cons_self _ _
              obtain ⟨hd0ne, hd0N⟩ := hrefs t ht d0 hd0
              have hgenne : gen t.id ≠ gen d0 := by
                intro hc
                exact hd0ne (hinj d0 hd0N t.id (List.mem_map_of_mem _ ht) hc.symm)
              refine ⟨(gen t.id, gen d0), hdep2 t ht d0 hd0 hgenne, ?_, ?_⟩
              · rw [hrid]
              · obtain ⟨r0, hr0, hr0id⟩ := hrowbyN d0 hd0N
                unfold notDone
                rw [show findTask db2' (gen d0) = some r0 from hr0id ▸ hfrow r0 hr0]
                exact bne_iff_ne.mpr (hrowprops r0 hr0).2.1
    · exact ⟨hWF, hInv, hAc⟩

theorem reachable_inv : ∀ {db : DB}, Reachable db →
    WF db ∧ StatusInv db ∧ AcyclicInv db := by
  intro db h
  induction h with
  | init =>
    refine ⟨⟨List.nodup_nil, List.nodup_nil, ?_, ?_⟩, ?_, ?_⟩
    · intro e he
      cases he
    · intro e he
      cases he
    · intro t ht
      cases ht
    · intro p
      have hempty : get_all_dependencies_for_plan (⟨[], []⟩ : DB) p = [] := rfl
      rw [hempty]
      exact hasCycle_nil
  | step op hr hok ih =>
    cases op with
    | add plan_id title description priority agent after new_id now =>
      exact inv_run_add ih plan_id title description priority agent after new_id now hok
    | transition plan_id id action agent now =>
      exact inv_run_transition ih plan_id id action agent now
    | next plan_id claim agent now =>
      exact inv_run_inner ih plan_id claim agent now
    | dep plan_id cmd now =>
      exact inv_run_dep ih plan_id cmd now
    | load input plan_id gen now =>
      exact inv_run_load ih input plan_id gen now hok.1 hok.2.1 hok.2.2

/-- C6: in every store reachable from the empty store by committed operations
(create, bulk load, transition with cascade, claim, dependency add/remove, each
with fresh caller-supplied identities), every ready task has each of its
dependencies done, and every blocked task has a dependency row whose referenced
task exists and is not done. -/
theorem C6_status_invariant {db : DB} (h : Reachable db) :
    ∀ t ∈ db.tasks,
      (t.status = TaskStatus.ready →
        ∀ e ∈ db.deps, e.1 = t.id →
          ∃ u, findTask db e.2 = some u ∧ u.status = TaskStatus.done) ∧
      (t.status = TaskStatus.blocked →
        ∃ e ∈ db.deps, e.1 = t.id ∧
          ∃ u, findTask db e.2 = some u ∧ u.status ≠ TaskStatus.done) := by
  obtain ⟨hWF, hInv, -⟩ := reachable_inv h
  intro t ht
  constructor
  · intro hst e he hex
    have hnd := all_deps_true_iff.mp ((hInv t ht).1 hst) e he hex
    obtain ⟨u, hu⟩ := Option.isSome_iff_exists.mp (hWF.2.2.1 e he).2
    refine ⟨u, hu, ?_⟩
    unfold notDone at hnd
    rw [hu] at hnd
    simpa using hnd
  · intro hst
    obtain ⟨e, he, hex, hnd⟩ := all_deps_false_iff.mp ((hInv t ht).2 hst)
    refine ⟨e, he, hex, ?_⟩
    obtain ⟨u, hu⟩ := Option.isSome_iff_exists.mp (hWF.2.2.1 e he).2
    refine ⟨u, hu, ?_⟩
    unfold notDone at hnd
    rw [hu] at hnd
    simpa using hnd

/-- Witness for C6 at a concrete reachable store: task "a" ready, task "b"
blocked on it. -/
theorem C6_status_invariant_witness :
    ∃ e ∈ wDB2.deps,
      e.1 = (⟨"b", "p", "B", none, TaskStatus.blocked, 0, 1, none, none,
        "t0", "t0", none, none⟩ : Task).id ∧
      ∃ u, findTask wDB2 e.2 = some u ∧ u.status ≠ TaskStatus.done :=
  (C6_status_invariant
    (Reachable.step (Op.add "p" "B" none 0 none ["a"] "b" "t0")
      (Reachable.step (Op.add "p" "A" none 0 none [] "a" "t0") Reachable.init
        (fun t ht => absurd ht (List.not_mem_nil t)))
      (show ∀ t ∈ (applyOp (⟨[], []⟩ : DB)
          (Op.add "p" "A" none 0 none [] "a" "t0")).tasks, t.id ≠ "b" by decide))
    (⟨"b", "p", "B", none, TaskStatus.blocked, 0, 1, none, none,
      "t0", "t0", none, none⟩ : Task) (by decide)).2 (by decide)

/-- C7: in every reachable store each plan's dependency edge set, read as a
directed graph, is acyclic; and an add-dependency command whose new edge would
close a directed cycle — a self-loop included — returns CycleDetected and leaves
the store, its edge set included, exactly as it was. -/
theorem C7_acyclic_invariant {db : DB} (h : Reachable db) :
    (∀ plan_id, ¬ HasCycle (get_all_dependencies_for_plan db plan_id)) ∧
    (∀ plan_id id dep_id now task dep_task,
      resolve_task db plan_id id = .ok task →
      resolve_task db plan_id dep_id = .ok dep_task →
      HasCycle (get_all_dependencies_for_plan db plan_id ++ [(task.id, dep_task.id)]) →
      run_dep db plan_id (DepCommands.add id dep_id) now =
        (.error TaskaiError.cycle_detected, db, [])) ∧
    (∀ plan_id id now task,
      resolve_task db plan_id id = .ok task →
      run_dep db plan_id (DepCommands.add id id) now =
        (.error TaskaiError.cycle_detected, db, [])) := by
  obtain ⟨hWF, hInv, hAc⟩ := reachable_inv h
  refine ⟨hAc, ?_, ?_⟩
  · intro plan_id id dep_id now task dep_task hres hres2 hcy
    simp only [run_dep, hres, hres2]
    have hple : task.plan_id = dep_task.plan_id := by
      rw [(resolve_task_ok hres).2, (resolve_task_ok hres2).2]
    rw [if_neg (by simp [hple])]
    rw [would_create_cycleT_err_of_cycle _ _ _ _ hcy]
  · intro plan_id id now task hres
    simp only [run_dep, hres]
    rw [if_neg (by simp)]
    have hcy : HasCycle (get_all_dependencies_for_plan db plan_id
        ++ [(task.id, task.id)]) :=
      ⟨task.id, Relation.TransGen.single
        (List.mem_append.mpr (Or.inr (List.mem_singleton.mpr rfl)))⟩
    rw [would_create_cycleT_err_of_cycle _ _ _ _ hcy]

/-- Witness for C7: in the concrete reachable store with the edge ("b", "a"),
adding "a" depends-on "b" closes a two-cycle and is rejected with the store
unchanged. -/
theorem C7_acyclic_invariant_witness :
    run_dep wDB2 "p" (DepCommands.add "a" "b") "t1" =
      (.error TaskaiError.cycle_detected, wDB2, []) := by
  have hreach : Reachable wDB2 :=
    Reachable.step (Op.add "p" "B" none 0 none ["a"] "b" "t0")
      (Reachable.step (Op.add "p" "A" none 0 none [] "a" "t0") Reachable.init
        (fun t ht => absurd ht (List.not_mem_nil t)))
      (show ∀ t ∈ (applyOp (⟨[], []⟩ : DB)
          (Op.add "p" "A" none 0 none [] "a" "t0")).tasks, t.id ≠ "b" by decide)
  refine (C7_acyclic_invariant hreach).2.1 "p" "a" "b" "t1"
    (⟨"a", "p", "A", none, TaskStatus.ready, 0, 0, none, none,
      "t0", "t0", none, none⟩ : Task)
    (⟨"b", "p", "B", none, TaskStatus.blocked, 0, 1, none, none,
      "t0", "t0", none, none⟩ : Task)
    (by decide) (by decide) ?_
  have h1 : ("a", "b") ∈ get_all_dependencies_for_plan wDB2 "p"
      ++ [("a", "b")] := by decide
  have h2 : ("b", "a") ∈ get_all_dependencies_for_plan wDB2 "p"
      ++ [("a", "b")] := by decide
  exact ⟨"a", Relation.TransGen.tail (Relation.TransGen.single h1) h2⟩

end Taskai
